import Mathlib

/-!
Triago: the ordered configuration store, its line parser and the flag resolution

A shallow embedding of `config.go`, `read.go`, `flags.go` and `error.go`.

Go strings are modelled as lists of Unicode code points (`Str`); the ASCII tests and
cuts of the source (`l[0] == '#'`, `strings.IndexAny(l, "=:")`, `l[0:i]`) coincide on bytes
and on code points for well-formed UTF-8.  Go maps are association lists with unique keys;
wherever the source ranges over a map, the order in which the entries are met is an
explicit argument.
-/

set_option linter.dupNamespace false

namespace Triago

/-- Go `string`. -/
abbrev Str := List Char

/-! ## Constants of `config.go` -/

def DEFAULT_SECTION : Str := "DEFAULT".toList
def DEFAULT_COMMENT : Str := "# ".toList
def ALTERNATIVE_COMMENT : Str := "; ".toList
def DEFAULT_SEPARATOR : Str := ":".toList
def ALTERNATIVE_SEPARATOR : Str := "=".toList
def DEFAULT_FILENAME : Str := "/tmp/config.ini".toList

/-! ## The functions of package `strings` that the source calls -/

/-- Go `unicode.IsSpace`: the code points with the White_Space property. -/
def isSpace (c : Char) : Bool :=
  let n := c.toNat
  n == 0x20 || (0x09 ≤ n && n ≤ 0x0D) || n == 0x85 || n == 0xA0 || n == 0x1680 ||
    (0x2000 ≤ n && n ≤ 0x200A) || n == 0x2028 || n == 0x2029 || n == 0x202F ||
    n == 0x205F || n == 0x3000

/-- Go `strings.TrimSpace`: leading and trailing white space removed. -/
def TrimSpace (s : Str) : Str :=
  (s.dropWhile isSpace).rdropWhile isSpace

/-- Go `strings.HasPrefix`. -/
def HasPrefix : Str → Str → Bool
  | _, [] => true
  | [], _ :: _ => false
  | a :: s, b :: p => a == b && HasPrefix s p

/-- Go `strings.Index`: the position of the first occurrence of `sub` in `s`, or `-1`. -/
def Index : Str → Str → Int
  | [], sub => if sub = [] then 0 else -1
  | c :: s, sub =>
    if HasPrefix (c :: s) sub then 0
    else
      let i := Index s sub
      if i = -1 then -1 else i + 1

/-- Go `strings.IndexAny`: the position of the first code point of `s` that is in `chars`,
or `-1`. -/
def IndexAny : Str → Str → Int
  | [], _ => -1
  | c :: s, chars =>
    if c ∈ chars then 0
    else
      let i := IndexAny s chars
      if i = -1 then -1 else i + 1

/-- Go `strings.Replace(s, old, new, -1)` for a non-empty `old`: every non-overlapping
occurrence, from the left.  `skip` counts the code points of an occurrence already replaced
that are still to be passed over. -/
def replaceAll (old new : Str) : Nat → Str → Str
  | _, [] => []
  | skip + 1, _ :: s => replaceAll old new skip s
  | 0, c :: s =>
    if HasPrefix (c :: s) old then new ++ replaceAll old new (old.length - 1) s
    else c :: replaceAll old new 0 s

/-- Go `strings.Replace(s, old, new, -1)`, `old` non-empty. -/
def Replace (s old new : Str) : Str :=
  replaceAll old new 0 s

/-- The ASCII branch of Go `unicode.ToUpper`. -/
def asciiUpper (c : Char) : Char :=
  if 'a'.toNat ≤ c.toNat ∧ c.toNat ≤ 'z'.toNat then Char.ofNat (c.toNat - 32) else c

/-- Go `strings.ToUpper`.  The case table of the `unicode` package for the code points
from 128 on is the argument `table`. -/
def ToUpper (table : Char → Char) (s : Str) : Str :=
  s.map (fun c => if c.toNat < 128 then asciiUpper c else table c)

/-! ## `config.go`: `stripComments` -/

/-- One turn of the loop of `stripComments`: `if i := strings.Index(l, c); i != -1 { l = l[0:i] }`. -/
def stripOne (l c : Str) : Str :=
  let i := Index l c
  if i ≠ -1 then l.take i.toNat else l

/-- `stripComments` of `config.go`. -/
def stripComments (l : Str) : Str :=
  [" ;".toList, "\t;".toList, " #".toList, "\t#".toList].foldl stripOne l

/-! ## `flags.go`: `getEnv` -/

/-- `getEnv` of `flags.go`; `env` is `os.Getenv`, the empty string for a variable that is
not set. -/
def getEnv (table : Char → Char) (env : Str → Str) (envPrefix flagSetName flagName : Str) : Str :=
  if envPrefix = [] then []
  else
    let flagSetName := if flagSetName ≠ [] then flagSetName ++ "_".toList else flagSetName
    let flagName := Replace flagName ".".toList "_".toList
    let envKey := ToUpper table (envPrefix ++ flagSetName ++ flagName)
    env envKey

/-! ## `error.go` -/

/-- The errors of the package: `SectionError` and `OptionError` of `error.go`, and the
`errors.New` of `read`. -/
inductive Error where
  | SectionError (e : Str)
  | OptionError (e : Str)
  | errorString (s : Str)
  deriving DecidableEq, Repr

deriving instance DecidableEq for Except

/-- The `Error()` methods. -/
def Error.Error : Error → Str
  | .SectionError e => "section not found: ".toList ++ e
  | .OptionError e => "option not found: ".toList ++ e
  | .errorString s => s

/-! ## `config.go`: the representation -/

/-- `tValue` of `config.go`. -/
structure tValue where
  position : Nat
  v : Str
  deriving DecidableEq, Repr

/-- `Config` of `config.go`.  The maps are association lists; `flags` is `none` for the nil
map and holds, for every registered name, the address of its `flag.FlagSet`. -/
structure Config where
  comment : Str
  separator : Str
  lastIdSection : Nat
  idSection : List (Str × Nat)
  lastIdOption : List (Str × Nat)
  data : List (Str × List (Str × tValue))
  FileName : Str
  EnvPrefix : Str
  flags : Option (List (Str × Nat))
  deriving DecidableEq, Repr

/-- Map lookup `m[k]`. -/
def mapGet {α : Type} : List (Str × α) → Str → Option α
  | [], _ => none
  | (k', v) :: m, k => if k' = k then some v else mapGet m k

/-- Map assignment `m[k] = v`: the entry of `k` is replaced where it stands, a new key is
added at the end. -/
def mapSet {α : Type} : List (Str × α) → Str → α → List (Str × α)
  | [], k, v => [(k, v)]
  | (k', v') :: m, k, v => if k' = k then (k', v) :: m else (k', v') :: mapSet m k v

/-- Map removal `delete(m, k)`. -/
def mapDelete {α : Type} : List (Str × α) → Str → List (Str × α)
  | [], _ => []
  | (k', v') :: m, k => if k' = k then mapDelete m k else (k', v') :: mapDelete m k

/-- Modelled from the spec: `AddSection`, whose body is not among the sources.  It inserts a
new section at the end of the section order if absent and is a no-op if present; it returns
whether the section was newly created. -/
def Config.AddSection (c : Config) (sec : Str) : Config × Bool :=
  match mapGet c.data sec with
  | some _ => (c, false)
  | none =>
    ({ c with
        data := mapSet c.data sec []
        idSection := mapSet c.idSection sec c.lastIdSection
        lastIdSection := c.lastIdSection + 1 }, true)

/-- Modelled from the spec: `AddOption`, whose body is not among the sources.  A missing
section is created; the value of the option is set or overwritten; a new option is appended
to the option order of its section with the next sequential index. -/
def Config.AddOption (c : Config) (sec option value : Str) : Config :=
  let c := (c.AddSection sec).1
  let options := (mapGet c.data sec).getD []
  match mapGet options option with
  | some old => { c with data := mapSet c.data sec (mapSet options option { old with v := value }) }
  | none =>
    let id := (mapGet c.lastIdOption sec).getD 0
    { c with
        data := mapSet c.data sec (mapSet options option ⟨id, value⟩)
        lastIdOption := mapSet c.lastIdOption sec (id + 1) }

/-- Modelled from the spec: `RawString`, whose body is not among the sources.  An exact
lookup, failing with "section not found" or "option not found"; no fallback to the default
section. -/
def Config.RawString (c : Config) (sec option : Str) : Except Error Str :=
  match mapGet c.data sec with
  | none => .error (.SectionError sec)
  | some options =>
    match mapGet options option with
    | none => .error (.OptionError option)
    | some tv => .ok tv.v

/-- Modelled from the spec: `String`, whose body is not among the sources: the lookup of
`(scope, name)` in the Model, in the literal requested scope only. -/
def Config.String (c : Config) (sec option : Str) : Except Error Str :=
  c.RawString sec option

/-- `RegisterFlagSet` of `flags.go`; `none` is the panic of an assignment into a nil map. -/
def Config.RegisterFlagSet (c : Config) (flagSetName : Str) (set : Nat) : Option Config :=
  match c.flags with
  | none => none
  | some flags => some { c with flags := some (mapSet flags flagSetName set) }

/-- `New` of `config.go`; `none` is a panic.  `CommandLine` is the address of the process-wide
`flag.CommandLine`. -/
def New (comment separator : Str) (preSpace postSpace : Bool) ( envprefix filename : Str)
    (hasflags : Bool) (CommandLine : Nat) : Option Config :=
  if comment ≠ DEFAULT_COMMENT ∧ comment ≠ ALTERNATIVE_COMMENT then none
  else if separator ≠ DEFAULT_SEPARATOR ∧ separator ≠ ALTERNATIVE_SEPARATOR then none
  else
    let separator := if preSpace then " ".toList ++ separator else separator
    let separator := if postSpace then separator ++ " ".toList else separator
    let c : Config :=
      { comment := comment, separator := separator, lastIdSection := 0, idSection := [],
        lastIdOption := [], data := [], FileName := [], EnvPrefix := [], flags := none }
    let c := (c.AddSection DEFAULT_SECTION).1
    let c := { c with EnvPrefix := envprefix }
    let c := { c with FileName := if filename ≠ [] then filename else DEFAULT_FILENAME }
    if hasflags then Config.RegisterFlagSet { c with flags := some [] } [] CommandLine
    else some c

/-- `NewDefault` of `config.go`. -/
def NewDefault (CommandLine : Nat) : Option Config :=
  New DEFAULT_COMMENT DEFAULT_SEPARATOR false true [] [] false CommandLine

/-! ## `read.go`: `Config.read` -/

/-- The successive results of `buf.ReadString('\n')` on a buffer: first the lines that
come with a nil error, each up to and including its newline, then the text after the last
newline, which comes with `io.EOF`.  `cur` is the part of the current line already
consumed. -/
def readStrings (cur : Str) : Str → List Str × Str
  | [] => ([], cur)
  | ch :: buf =>
    if ch = '\n' then ((cur ++ [ch]) :: (readStrings [] buf).1, (readStrings [] buf).2)
    else readStrings (cur ++ [ch]) buf

/-- The body of the loop of `read` for one line `l`, from the state `(c, section, option)`:
the next state, or the error returned. -/
def Config.readLine (c : Config) (sec option : Str) (l : Str) : Except Error (Config × Str × Str) :=
  let l := TrimSpace l
  if l.length = 0 ∨ l.head? = some '#' ∨ l.head? = some ';' then
    .ok (c, sec, option)
  else if l.head? = some '[' ∧ l.getLast? = some ']' then
    let option : Str := []
    let sec := TrimSpace ((l.take (l.length - 1)).drop 1)
    .ok ((c.AddSection sec).1, sec, option)
  else
    let i := IndexAny l "=:".toList
    if i > 0 then
      let i := IndexAny l "=:".toList
      let option := TrimSpace (l.take i.toNat)
      let value := TrimSpace (stripComments (l.drop (i + 1).toNat))
      .ok (c.AddOption sec option value, sec, option)
    else if sec ≠ [] ∧ option ≠ [] then
      let prev := match c.RawString sec option with
        | .ok v => v
        | .error _ => []
      let value := TrimSpace (stripComments l)
      .ok (c.AddOption sec option (prev ++ "\n".toList ++ value), sec, option)
    else
      .error (.errorString ("could not parse line: ".toList ++ l))

/-- The loop of `read` over the lines that `ReadString` returns with a nil error, from the
state `(c, section, option)`: the state in which the loop is left, and the error returned
(`none` for nil). -/
def Config.readLoop (c : Config) (sec option : Str) :
    List Str → Config × Str × Str × Option Error
  | [] => (c, sec, option, none)
  | l :: ls =>
    match c.readLine sec option l with
    | .error e => (c, sec, option, some e)
    | .ok (c', sec', option') => Config.readLoop c' sec' option' ls

/-- `Config.read` of `read.go` on a buffer holding `buf`: the receiver as `read` leaves it,
and the error returned (`none` for nil).  The loop breaks at the `ReadString` that returns
`io.EOF`, before it looks at the text returned with it. -/
def Config.read (c : Config) (buf : Str) : Config × Option Error :=
  let r := c.readLoop [] [] (readStrings [] buf).1
  (r.1, r.2.2.2)

/-! ## `config.go`: `Merge` -/

/-- The inner loop of `Merge`, `for optionName, optionValue := range option`, over the
entries in the order they are met. -/
def mergeOptions (target : Config) (sec : Str) : List (Str × tValue) → Config
  | [] => target
  | (optionName, optionValue) :: rest =>
    mergeOptions (target.AddOption sec optionName optionValue.v) sec rest

/-- The outer loop of `Merge`, `for section, option := range source.data`, over the entries
in the order they are met. -/
def mergeSections (target : Config) : List (Str × List (Str × tValue)) → Config
  | [] => target
  | (sec, option) :: rest => mergeSections (mergeOptions target sec option) rest

/-- `Merge` of `config.go`.  `source` is `none` for a nil pointer; `visit` is the order in
which the two `range` loops meet the entries of `source.data`. -/
def Config.Merge (target : Config) (source : Option Config)
    (visit : List (Str × List (Str × tValue))) : Config :=
  match source with
  | none => target
  | some source => if source.data.length = 0 then target else mergeSections target visit

/-- The orders in which `range` may meet the entries of the map of maps `data`: the sections
in any order, the options of each section in any order. -/
def IsRange (data visit : List (Str × List (Str × tValue))) : Prop :=
  ∃ mid, List.Perm mid data ∧
    List.Forall₂ (fun v m => v.1 = m.1 ∧ List.Perm v.2 m.2) visit mid

/-! ## `flags.go`: `Parse` -/

/-- A `flag.Flag`: its name and the string its `Value` holds, that is what `Value.String()`
returns. -/
structure Flag where
  Name : Str
  Value : Str
  deriving DecidableEq, Repr

/-- A `flag.FlagSet`: the flags defined (`formal`, in Go a map by name, so that no two of
them have the same name) and the names of those that have been set (`actual`). -/
structure FlagSet where
  formal : List Flag
  actual : List Str
  deriving DecidableEq, Repr

/-- The `Set` methods of the values of the flags, which package `flag` leaves to the dynamic
type of each value: for a flag and a string, the string the value of the flag holds after
`Value.Set` and the error `Value.Set` returns (`none` for nil). -/
abbrev ValueSet := Flag → Str → Str × Option Error

/-- `Set` of the `flagValue` of `flags_test.go`, which is also that of the string value of
package `flag` (`flag.String`): the string is stored and nil is returned. -/
def stringSet : ValueSet :=
  fun _ value => (value, none)

/-- `Set` of the bool value of package `flag` (`flag.Bool`), which goes through
`strconv.ParseBool`: the strings that stand for a truth value are stored as `true` or
`false`; for any other string `false` is stored and an error returned. -/
def boolSet : ValueSet :=
  fun _ value =>
    if value ∈ ["1".toList, "t".toList, "T".toList, "TRUE".toList, "true".toList,
        "True".toList] then
      ("true".toList, none)
    else if value ∈ ["0".toList, "f".toList, "F".toList, "FALSE".toList, "false".toList,
        "False".toList] then
      ("false".toList, none)
    else ("false".toList, some (.errorString "parse error".toList))

/-- `sortFlags` of package `flag`: the flags in lexicographical order of their names. -/
def sortFlags (flags : List Flag) : List Flag :=
  flags.insertionSort (fun a b => a.Name ≤ b.Name)

/-- `FlagSet.Lookup`. -/
def FlagSet.Lookup (set : FlagSet) (name : Str) : Option Flag :=
  set.formal.find? (fun f => f.Name = name)

/-- `FlagSet.Set` of package `flag`: the set as it is left and the error returned.  When no
flag `name` is defined an error is returned.  Otherwise `Value.Set` of the flag is called
with `value`; if it returns an error, that error is returned and the flag is not recorded as
set; if it returns nil, the flag is recorded as set. -/
def FlagSet.Set (valueSet : ValueSet) (set : FlagSet) (name value : Str) :
    FlagSet × Option Error :=
  match set.Lookup name with
  | none => (set, some (.errorString ("no such flag -".toList ++ name)))
  | some f =>
    match (valueSet f value).2 with
    | some err =>
      ({ formal := set.formal.map
            (fun g => if g.Name = name then { g with Value := (valueSet g value).1 } else g)
         actual := set.actual }, some err)
    | none =>
      ({ formal := set.formal.map
            (fun g => if g.Name = name then { g with Value := (valueSet g value).1 } else g)
         actual := if name ∈ set.actual then set.actual else set.actual ++ [name] }, none)

/-- `FlagSet.VisitAll`: the flags defined, in lexicographical order. -/
def FlagSet.VisitAll (set : FlagSet) : List Flag :=
  sortFlags set.formal

/-- `FlagSet.Visit`: the flags that have been set, in lexicographical order. -/
def FlagSet.Visit (set : FlagSet) : List Flag :=
  sortFlags (set.formal.filter (fun f => f.Name ∈ set.actual))

/-- The callback of `set.VisitAll` in `Parse`, for the flag `f` of the set registered as
`name`.  What `set.Set` returns is not looked at. -/
def parseFlag (valueSet : ValueSet) (table : Char → Char) (env : Str → Str) (c : Config)
    (name : Str) (alreadySet : List Str) (set : FlagSet) (f : Flag) : FlagSet :=
  if f.Name ∈ alreadySet then set
  else
    let val := getEnv table env c.EnvPrefix name f.Name
    if val ≠ [] then (set.Set valueSet f.Name val).1
    else
      match c.String name f.Name with
      | .ok val => (set.Set valueSet f.Name val).1
      | .error _ => set

/-- The body of the loop of `Parse` for the set registered as `name`. -/
def parseOne (valueSet : ValueSet) (table : Char → Char) (env : Str → Str) (c : Config)
    (name : Str) (set : FlagSet) : FlagSet :=
  let alreadySet := set.Visit.map (fun f => f.Name)
  set.VisitAll.foldl (parseFlag valueSet table env c name alreadySet) set

/-- `Parse` of `flags.go`.  `heap` holds the flag sets by address and `visit` is the order in
which `range c.flags` meets the registered sets; `none` is the panic of a nil set. -/
def Config.Parse (valueSet : ValueSet) (table : Char → Char) (env : Str → Str) (c : Config)
    (visit : List (Str × Nat)) (heap : List FlagSet) : Option (List FlagSet) :=
  match visit with
  | [] => some heap
  | (name, set) :: rest =>
    match heap[set]? with
    | none => none
    | some s =>
      Config.Parse valueSet table env c rest (heap.set set (parseOne valueSet table env c name s))

/-! ## The Model in its order, and the writer -/

/-- Modelled from the spec: `Sections`, whose body is not among the sources: the names of the
sections in the section order, that is by the position `idSection` records. -/
def Config.Sections (c : Config) : List Str :=
  (c.data.map (fun e => e.1)).insertionSort
    (fun a b => (mapGet c.idSection a).getD 0 ≤ (mapGet c.idSection b).getD 0)

/-- Modelled from the spec: `Options`, whose body is not among the sources: the options of
a section with their values, in the option order of the section, that is by `position`. -/
def Config.Options (c : Config) (sec : Str) : List (Str × Str) :=
  (((mapGet c.data sec).getD []).insertionSort
    (fun a b => a.2.position ≤ b.2.position)).map (fun o => (o.1, o.2.v))

/-- The Model as the specification describes it: the sections in their order, each with its
options in their order and their values. -/
def Config.content (c : Config) : List (Str × List (Str × Str)) :=
  c.Sections.map (fun sec => (sec, c.Options sec))

/-- The pieces of a text between its newlines. -/
def splitNL : Str → List Str
  | [] => [[]]
  | ch :: s =>
    if ch = '\n' then [] :: splitNL s
    else
      match splitNL s with
      | [] => [[ch]]
      | l :: ls => (ch :: l) :: ls

/-- Modelled from the spec: the header comment of the writer, one comment-prefixed line for
each line of `header`, nothing for an empty `header`. -/
def writeHeader (comment header : Str) : Str :=
  if header = [] then []
  else (splitNL header).flatMap (fun l => comment ++ l ++ "\n".toList)

/-- Modelled from the spec: an option as the writer emits it, `name<separator>value` and a
newline, the value literally. -/
def writeOption (separator : Str) (o : Str × Str) : Str :=
  o.1 ++ separator ++ o.2 ++ "\n".toList

/-- Modelled from the spec: a section as the writer emits it, the header line `[name]` and
then its options in their order. -/
def writeSection (separator : Str) (e : Str × List (Str × Str)) : Str :=
  "[".toList ++ e.1 ++ "]\n".toList ++ e.2.flatMap (writeOption separator)

/-- Modelled from the spec: the text the writer (`WriteFile`, whose body is not among the
sources) produces for the Model, with the header comment `header`. -/
def Config.write (c : Config) (header : Str) : Str :=
  writeHeader c.comment header ++ c.content.flatMap (writeSection c.separator)

/-! ## Definitions that follow the words of the specification -/

/-- An inline comment marker: `;` or `#` preceded by a space or a tab. -/
def isMarker (a b : Char) : Bool :=
  (a == ' ' || a == '\t') && (b == ';' || b == '#')

/-- The text with a trailing inline comment removed, as the specification words it: the
text before the first `;` or `#` that is preceded by a space or a tab (that space or tab
excluded), the whole text when there is none. -/
def cutInlineComment : Str → Str
  | a :: b :: r => if isMarker a b then [] else a :: cutInlineComment (b :: r)
  | s => s

/-- A separator character of an option line. -/
def isSeparator (ch : Char) : Prop := ch = '=' ∨ ch = ':'

instance (ch : Char) : Decidable (isSeparator ch) := by
  unfold isSeparator; infer_instance

/-- A full-line comment, as a trimmed line: empty, or starting with `#` or `;`. -/
def isComment (t : Str) : Prop := t = [] ∨ t.head? = some '#' ∨ t.head? = some ';'

instance (t : Str) : Decidable (isComment t) := by
  unfold isComment; infer_instance

/-- A full-line comment, as the specification words it: a line that is empty after
trimming, or whose first code point that is not white space is `#` or `;`. -/
def isCommentLine (l : Str) : Prop :=
  TrimSpace l = [] ∨ (l.dropWhile isSpace).head? = some '#' ∨
    (l.dropWhile isSpace).head? = some ';'

instance (l : Str) : Decidable (isCommentLine l) := by
  unfold isCommentLine; infer_instance

/-- A section header, as a trimmed line: it starts with `[` and ends with `]`. -/
def isHeader (t : Str) : Prop := t.head? = some '[' ∧ t.getLast? = some ']'

instance (t : Str) : Decidable (isHeader t) := by
  unfold isHeader; infer_instance

/-- The value stored for `(section, option)`, if any. -/
def lookup (data : List (Str × List (Str × tValue))) (sec option : Str) : Option Str :=
  (mapGet data sec).bind (fun options => (mapGet options option).map (fun tv => tv.v))

/-- The text before the first place where the two-character test `P` holds. -/
def cut2 (P : Char → Char → Bool) : Str → Str
  | a :: b :: r => if P a b then [] else a :: cut2 P (b :: r)
  | s => s

/-- The keys of a map are pairwise different. -/
def uniqueKeys {α : Type} (m : List (Str × α)) : Prop :=
  (m.map (fun e => e.1)).Nodup

/-- The invariant of the map of maps `data`: no section twice, no option twice within a
section. -/
def wellFormed (data : List (Str × List (Str × tValue))) : Prop :=
  uniqueKeys data ∧ ∀ e ∈ data, uniqueKeys e.2

instance {α : Type} (m : List (Str × α)) : Decidable (uniqueKeys m) := by
  unfold uniqueKeys; infer_instance

instance (data : List (Str × List (Str × tValue))) : Decidable (wellFormed data) := by
  unfold wellFormed; infer_instance

/-- The `(section, option, value)` triples in the order the loops of `Merge` meet them. -/
def mergeEntries (visit : List (Str × List (Str × tValue))) : List (Str × Str × Str) :=
  visit.flatMap (fun e => e.2.map (fun o => (e.1, o.1, o.2.v)))

/-- `AddOption` for each triple of a list, from the left. -/
def addAll (target : Config) (entries : List (Str × Str × Str)) : Config :=
  entries.foldl (fun t e => t.AddOption e.1 e.2.1 e.2.2) target

/-- The configuration `NewDefault` returns. -/
def defaultConfig : Config :=
  { comment := DEFAULT_COMMENT, separator := ": ".toList, lastIdSection := 1,
    idSection := [(DEFAULT_SECTION, 0)], lastIdOption := [], data := [(DEFAULT_SECTION, [])],
    FileName := DEFAULT_FILENAME, EnvPrefix := [], flags := none }

/-- A Model with `k = 1` in section `s`. -/
def targetConfig : Config :=
  (defaultConfig.AddOption "s".toList "k".toList "1".toList).AddOption "s".toList
    "j".toList "0".toList

/-- A Model with `k = 2` in section `s` and `m = 3` in section `t`. -/
def sourceConfig : Config :=
  (defaultConfig.AddOption "s".toList "k".toList "2".toList).AddOption "t".toList
    "m".toList "3".toList

/-- What `Parse` assigns to the flag `n` of the set registered as `name`, if anything: nothing
to a flag already set; else the value of the environment if it is not empty; else the value
of the Model if the lookup succeeds. -/
def resolve (table : Char → Char) (env : Str → Str) (c : Config) (name : Str)
    (alreadySet : List Str) (n : Str) : Option Str :=
  if n ∈ alreadySet then none
  else if getEnv table env c.EnvPrefix name n ≠ [] then some (getEnv table env c.EnvPrefix name n)
  else
    match c.String name n with
    | .ok val => some val
    | .error _ => none

/-- The flag after `Parse` has called `Value.Set` with the string resolved for it, if
any. -/
def assign (valueSet : ValueSet) (v : Option Str) (f : Flag) : Flag :=
  match v with
  | none => f
  | some val => { f with Value := (valueSet f val).1 }

/-- A configuration with the environment prefix `CONFTEST_` in which the flag set at address
`0` is registered both as the global scope and as `custom`. -/
def aliasConfig : Config :=
  { defaultConfig with
      EnvPrefix := "CONFTEST_".toList
      flags := some [([], 0), ("custom".toList, 0)] }

/-- An environment with a variable for the flag `d` of each of the two scopes. -/
def aliasEnv (key : Str) : Str :=
  if key = "CONFTEST_D".toList then "x".toList
  else if key = "CONFTEST_CUSTOM_D".toList then "y".toList
  else []

/-- A Model with `b = 5.6` in the global scope, and two registered scopes. -/
def flagsConfig : Config :=
  { defaultConfig.AddOption [] "b".toList "5.6".toList with
      EnvPrefix := "CONFTEST_".toList
      flags := some [([], 0), ("custom".toList, 1)] }

/-- The flag sets of `flagsConfig`: `a` (set to `true`), `b`, `c` and `d` in the global
scope, `e` in `custom`. -/
def flagsHeap : List FlagSet :=
  [ { formal := [⟨"d".toList, "default".toList⟩, ⟨"a".toList, "true".toList⟩,
        ⟨"b".toList, "0".toList⟩, ⟨"c".toList, "cc".toList⟩],
      actual := ["a".toList] },
    { formal := [⟨"e".toList, "ee".toList⟩], actual := [] } ]

/-- The lines of the text the writer emits for an option: the name, the separator and the
first line of the value, then the further lines of the value. -/
def optionLines (separator : Str) (o : Str × Str) : List Str :=
  (o.1 ++ separator ++ (splitNL o.2).headD [] ++ "\n".toList) ::
    (splitNL o.2).tail.map (fun l => l ++ "\n".toList)

/-- The lines of the text the writer emits for a section. -/
def sectionLines (separator : Str) (e : Str × List (Str × Str)) : List Str :=
  ("[".toList ++ e.1 ++ "]\n".toList) :: e.2.flatMap (optionLines separator)

/-- The lines of a value put together again. -/
def joinLines (first : Str) (rest : List Str) : Str :=
  rest.foldl (fun acc l => acc ++ "\n".toList ++ l) first

/-- A space, or nothing: the padding of the separator on one side. -/
def spaceIf (b : Bool) : Str :=
  if b then " ".toList else []

/-- The data of a Model without the positions. -/
def plain (data : List (Str × List (Str × tValue))) : List (Str × List (Str × Str)) :=
  data.map (fun e => (e.1, e.2.map (fun o => (o.1, o.2.v))))

/-- The position `idSection` records for a section. -/
def Config.sectionId (c : Config) (sec : Str) : Nat :=
  (mapGet c.idSection sec).getD 0

/-- The entries of the maps stand in the order of their positions, below the next
position to give, and no section stands twice. -/
def Ordered (c : Config) : Prop :=
  uniqueKeys c.data ∧
  (c.data.map (fun e => c.sectionId e.1)).Pairwise (fun a b => a ≤ b) ∧
  (∀ e ∈ c.data, c.sectionId e.1 < c.lastIdSection) ∧
  ∀ e ∈ c.data, (e.2.map (fun o => o.2.position)).Pairwise (fun a b => a ≤ b) ∧
    ∀ p ∈ e.2.map (fun o => o.2.position), p < (mapGet c.lastIdOption e.1).getD 0

/-- A section name that a header line gives back: without white space around it and
without newline. -/
def cleanSection (sec : Str) : Prop :=
  TrimSpace sec = sec ∧ '\n' ∉ sec

/-- An option name that an option line gives back: not empty, without white space around it,
without newline, `=` or `:`, and not starting with `#` or `;`. -/
def cleanOption (option : Str) : Prop :=
  option ≠ [] ∧ TrimSpace option = option ∧ '\n' ∉ option ∧
    (∀ ch ∈ option, ¬ isSeparator ch) ∧
    option.head? ≠ some '#' ∧ option.head? ≠ some ';'

/-- A first line of a value that an option line gives back after the space `post` of the
separator: without white space around it and, with `post` in front, without inline comment
marker. -/
def cleanFirstLine (post v : Str) : Prop :=
  TrimSpace v = v ∧ cutInlineComment (post ++ v) = post ++ v

/-- A further line of a value that a continuation line gives back: not empty, without white
space around it, without inline comment marker, with `=` or `:` nowhere or at its start, not
starting with `#` or `;`, and not both starting with `[` and ending with `]`. -/
def cleanNextLine (v : Str) : Prop :=
  v ≠ [] ∧ TrimSpace v = v ∧ cutInlineComment v = v ∧
    ((∀ ch ∈ v, ¬ isSeparator ch) ∨ v.head? = some '=' ∨ v.head? = some ':') ∧
    v.head? ≠ some '#' ∧ v.head? ≠ some ';' ∧ ¬ isHeader v

/-- A value of the option `name` of the section `sec` whose lines are given back: the
first line as the rest of an option line that is not taken for a header, which it is when
the name starts with `[` and the line ends with `]`; the further lines as continuation
lines, of which the section without a name has none. -/
def cleanValue (post sec name v : Str) : Prop :=
  cleanFirstLine post ((splitNL v).headD []) ∧
    ¬ (name.head? = some '[' ∧ ((splitNL v).headD []).getLast? = some ']') ∧
    (∀ l ∈ (splitNL v).tail, cleanNextLine l) ∧
    (sec = [] → (splitNL v).tail = [])

/-- A Model whose section names, option names and values are given back. -/
def cleanModel (post : Str) (m : List (Str × List (Str × Str))) : Prop :=
  ∀ e ∈ m, cleanSection e.1 ∧ ∀ o ∈ e.2, cleanOption o.1 ∧ cleanValue post e.1 o.1 o.2

instance (sec : Str) : Decidable (cleanSection sec) := by
  unfold cleanSection; infer_instance

instance (option : Str) : Decidable (cleanOption option) := by
  unfold cleanOption; infer_instance

instance (post v : Str) : Decidable (cleanFirstLine post v) := by
  unfold cleanFirstLine; infer_instance

instance (v : Str) : Decidable (cleanNextLine v) := by
  unfold cleanNextLine; infer_instance

instance (post sec name v : Str) : Decidable (cleanValue post sec name v) := by
  unfold cleanValue; infer_instance

instance (post : Str) (m : List (Str × List (Str × Str))) : Decidable (cleanModel post m) := by
  unfold cleanModel; infer_instance

/-- A Model with an option in the default section, an option whose name starts with `[` in
the section without a name and, in the section `s`, an option with a value of three lines
and an option with a value of two words. -/
def roundConfig : Config :=
  (((defaultConfig.AddOption DEFAULT_SECTION "b".toList "5.6".toList).AddOption []
    "[a".toList "test".toList).AddOption "s".toList
    "a".toList "x\n=y\n[z".toList).AddOption "s".toList "c".toList "Hello world".toList

/-- A Model whose option `k` of the default section has a value with an inline comment
marker. -/
def markerConfig : Config :=
  defaultConfig.AddOption DEFAULT_SECTION "k".toList "a #b".toList

/-- An environment with the variables of `flags_test.go`. -/
def testEnv (key : Str) : Str :=
  if key = "CONFTEST_SOME_VALUE".toList then "some-value".toList
  else if key = "CONFTEST_CUSTOM_E".toList then "Hello Env".toList
  else if key = "CONFTEST_D".toList then "EnvD".toList
  else []

/-! ## `flags.go`: `ParseSet`, `Set`, `Delete`, and `read.go`: `Read` -/

/-- The callback of `set.VisitAll` in `ParseSet`, for the flag `f`.  What `set.Set` returns
is not looked at. -/
def parseSetFlag (valueSet : ValueSet) (table : Char → Char) (env : Str → Str) (c : Config)
    (flagSetName : Str) (set : FlagSet) (f : Flag) : FlagSet :=
  let val := getEnv table env c.EnvPrefix flagSetName f.Name
  if val ≠ [] then (set.Set valueSet f.Name val).1
  else
    match c.String flagSetName f.Name with
    | .ok val => (set.Set valueSet f.Name val).1
    | .error _ => set

/-- `ParseSet` of `flags.go`, on the flag set `set`. -/
def Config.ParseSet (valueSet : ValueSet) (table : Char → Char) (env : Str → Str) (c : Config)
    (flagSetName : Str) (set : FlagSet) : FlagSet :=
  set.VisitAll.foldl (parseSetFlag valueSet table env c flagSetName) set

/-- Modelled from the spec: `RemoveOption`, whose body is not among the sources.  It deletes
the entry; a section or an option that is absent is reported as not found. -/
def Config.RemoveOption (c : Config) (sec option : Str) : Config × Option Error :=
  match mapGet c.data sec with
  | none => (c, some (.SectionError sec))
  | some options =>
    match mapGet options option with
    | none => (c, some (.OptionError option))
    | some _ => ({ c with data := mapSet c.data sec (mapDelete options option) }, none)

/-- The files, by path, each with its permission mode and its text, and the error with
which writing to a path fails, if it does. -/
structure Disk where
  files : List (Str × Nat × Str)
  failure : Str → Option Error

/-- Modelled from the spec: `WriteFile`, whose body is not among the sources: the whole text
of the writer is written to the file `fname`; a failure of the write is returned. -/
def Config.WriteFile (c : Config) (fname : Str) (perm : Nat) (header : Str) (disk : Disk) :
    Disk × Option Error :=
  match disk.failure fname with
  | some e => (disk, some e)
  | none => ({ disk with files := mapSet disk.files fname (perm, c.write header) }, none)

/-- `Set` of `flags.go`: the receiver, the flag sets and the disk as `Set` leaves them, and
the error returned. -/
def Config.Set (c : Config) (flagSetName : Str) (f : Flag) (heap : List FlagSet) (disk : Disk) :
    Config × List FlagSet × Disk × Option Error :=
  let name := f.Name
  let value := f.Value
  let c := c.AddOption flagSetName name value
  if c.FileName ≠ [] then
    let r := c.WriteFile c.FileName 0o644
      ("action flagset: flag: value = ".toList ++ flagSetName ++ ":".toList ++ name ++
        ":".toList ++ value) disk
    (c, heap, r.1, r.2)
  else (c, heap, disk, none)

/-- `Delete` of `flags.go`: the receiver, the flag sets and the disk as `Delete` leaves
them, and the error returned.  What `RemoveOption` returns is not looked at. -/
def Config.Delete (c : Config) (flagSetName flagName : Str) (heap : List FlagSet)
    (disk : Disk) : Config × List FlagSet × Disk × Option Error :=
  let c := (c.RemoveOption flagSetName flagName).1
  if c.FileName ≠ [] then
    let r := c.WriteFile c.FileName 0o644
      ("action delete flagset: flag = ".toList ++ flagSetName ++ ":".toList ++ flagName) disk
    (c, heap, r.1, r.2)
  else (c, heap, disk, none)

/-- `_read` of `read.go`.  `file` is what `os.Open(fname)` gives, the text of the file or an
error, and `close` is what `file.Close()` returns. -/
def _read (file : Except Error Str) (close : Option Error) (c : Config) : Except Error Config :=
  match file with
  | .error err => .error err
  | .ok buf =>
    match c.read buf with
    | (_, some err) => .error err
    | (c, none) =>
      match close with
      | some err => .error err
      | none => .ok c

/-- `Read` of `read.go`; `none` is the panic of `New`. -/
def Read (file : Except Error Str) (close : Option Error) (fname comment separator : Str)
    (preSpace postSpace : Bool) ( envprefix : Str) (hasflags : Bool) (CommandLine : Nat) :
    Option (Except Error Config) :=
  match New comment separator preSpace postSpace envprefix fname hasflags CommandLine with
  | none => none
  | some c => some (_read file close c)

/-- `ReadDefault` of `read.go`. -/
def ReadDefault (file : Except Error Str) (close : Option Error) (CommandLine : Nat) :
    Option (Except Error Config) :=
  match NewDefault CommandLine with
  | none => none
  | some c => some (_read file close c)

/-- The position of the leftmost occurrence in the text of any of the four inline comment
markers, space or tab followed by `;` or `#`. -/
def leftmostMarker : Str → Option Nat
  | [] => none
  | a :: s =>
    if [" ;".toList, "\t;".toList, " #".toList, "\t#".toList].any (HasPrefix (a :: s)) then some 0
    else (leftmostMarker s).map (fun k => k + 1)

/-- A disk without files on which no write fails. -/
def emptyDisk : Disk :=
  { files := [], failure := fun _ => none }

/-- A Config with the flag set at address `0` registered as the global scope, and that flag
set, with the flag `a` at its default. -/
def registryConfig : Config :=
  { defaultConfig with flags := some [([], 0)] }

/-- The flag sets of `registryConfig`. -/
def registryHeap : List FlagSet :=
  [{ formal := [⟨"a".toList, "".toList⟩], actual := [] }]

/-- An option name that is well formed: not empty, without white space around it, without
`=` or `:`. -/
def wellFormedName (option : Str) : Prop :=
  option ≠ [] ∧ TrimSpace option = option ∧ ∀ ch ∈ option, ¬ isSeparator ch

instance (option : Str) : Decidable (wellFormedName option) := by
  unfold wellFormedName; infer_instance

/-- The names of the sections of a Model, as they are stored. -/
def Config.keys (c : Config) : List Str :=
  c.data.map (fun e => e.1)

/-- The names of the options of a section of a Model, as they are stored. -/
def Config.names (c : Config) (sec : Str) : List Str :=
  ((mapGet c.data sec).getD []).map (fun o => o.1)

/-- A Model with three new options for the section `s` and the two new sections `t` and
`u`, first seen in that order. -/
def orderSource : Config :=
  ((((defaultConfig.AddOption "s".toList "k".toList "2".toList).AddOption "s".toList
    "n".toList "4".toList).AddOption "s".toList "p".toList "5".toList).AddOption "t".toList
    "m".toList "3".toList).AddOption "u".toList "q".toList "6".toList

/-- The entries of `orderSource`, the sections last to first and the options of each
section last to first. -/
def orderVisit : List (Str × List (Str × tValue)) :=
  (orderSource.data.map (fun e => (e.1, e.2.reverse))).reverse

/-- A Model with `e = maybe` in the global scope, and the global scope registered. -/
def typedConfig : Config :=
  { defaultConfig.AddOption [] "e".toList "maybe".toList with
      EnvPrefix := "CONFTEST_".toList
      flags := some [([], 0)] }

/-- The flag set of `typedConfig`: the flag `e`, not set, at `false`. -/
def typedHeap : List FlagSet :=
  [{ formal := [⟨"e".toList, "false".toList⟩], actual := [] }]

/-- A Model whose only section is `s`. -/
def headlessConfig : Config :=
  { defaultConfig with
      data := [("s".toList, [])]
      idSection := [("s".toList, 0)] }

/-- The round trip of a Model, as the specification words it: the text of the writer, read
into a new Model, is read without error and gives the same sections in the same order, the
same options in the same order in every section, and the same values. -/
def roundTrips (c : Config) : Prop :=
  (defaultConfig.read (c.write [])).2 = none ∧
    (defaultConfig.read (c.write [])).1.content = c.content

instance (c : Config) : Decidable (roundTrips c) := by
  unfold roundTrips; infer_instance

/-- What `os.Open(fname)` gives on a disk: the text of the file, or an error when there is
no such file. -/
def Disk.Open (disk : Disk) (fname : Str) : Except Error Str :=
  match mapGet disk.files fname with
  | some (_, text) => .ok text
  | none => .error (.errorString ("open ".toList ++ fname ++ ": no such file or directory".toList))

/-! ## Package `strings` -/

theorem HasPrefix_singleton (c a : Char) (s : Str) : HasPrefix (c :: s) [a] = (c == a) := by
  simp [HasPrefix]

theorem replaceAll_char (a b : Char) (s : Str) :
    replaceAll [a] [b] 0 s = s.map (fun c => if c = a then b else c) := by
  induction s with
  | nil => simp [replaceAll]
  | cons c s ih =>
    by_cases h : c = a
    · simp [replaceAll, HasPrefix, h, ih]
    · simp [replaceAll, HasPrefix, h, ih]

theorem Index_ge (s sub : Str) : -1 ≤ Index s sub := by
  induction s with
  | nil => simp only [Index]; split <;> omega
  | cons c s ih =>
    simp only [Index]
    split
    · omega
    · split <;> omega

theorem stripOne_nil (sub : Str) : stripOne [] sub = [] := by
  simp only [stripOne, Index]
  split <;> simp

theorem stripOne_cons (a : Char) (s sub : Str) :
    stripOne (a :: s) sub = if HasPrefix (a :: s) sub then [] else a :: stripOne s sub := by
  by_cases h : HasPrefix (a :: s) sub
  · simp [stripOne, Index, h]
  · have hge := Index_ge s sub
    simp only [stripOne, Index, h, if_false, Bool.false_eq_true]
    by_cases h1 : Index s sub = -1
    · simp [h1]
    · have h2 : (Index s sub + 1).toNat = (Index s sub).toNat + 1 := by omega
      have h3 : Index s sub + 1 ≠ -1 := by omega
      simp [h1, h2, h3]

theorem stripOne_eq_cut2 (x y : Char) (l : Str) :
    stripOne l [x, y] = cut2 (fun a b => a == x && b == y) l := by
  induction l with
  | nil => simp [stripOne_nil, cut2]
  | cons a s ih =>
    rw [stripOne_cons]
    cases s with
    | nil => simp [HasPrefix, cut2, stripOne_nil]
    | cons b r =>
      rw [ih]
      simp [HasPrefix, cut2]

theorem cut2_head (P : Char → Char → Bool) (b : Char) (r : Str) :
    (cut2 P (b :: r) = [] ∧ ∃ c r', r = c :: r' ∧ P b c = true) ∨
      ∃ Y, cut2 P (b :: r) = b :: Y := by
  cases r with
  | nil => right; exact ⟨[], by simp [cut2]⟩
  | cons c r' =>
    by_cases h : P b c = true
    · left; exact ⟨by simp [cut2, h], c, r', rfl, h⟩
    · right; exact ⟨cut2 P (c :: r'), by simp [cut2, h]⟩

theorem cut2_cut2 (P Q : Char → Char → Bool)
    (hPQ : ∀ a b c, Q a b = true → P b c = false) (l : Str) :
    cut2 Q (cut2 P l) = cut2 (fun a b => P a b || Q a b) l := by
  induction l with
  | nil => simp [cut2]
  | cons a s ih =>
    cases s with
    | nil => simp [cut2]
    | cons b r =>
      by_cases hP : P a b = true
      · simp [cut2, hP]
      · have hP' : P a b = false := by simpa using hP
        rcases cut2_head P b r with ⟨hY, c, r', hr, hbc⟩ | ⟨Y, hY⟩
        · have hQ : Q a b = false := by
            cases hq : Q a b with
            | false => rfl
            | true => rw [hPQ a b c hq] at hbc; exact absurd hbc (by simp)
          subst hr
          simp [cut2, hP', hQ, hbc]
        · rw [hY] at ih
          by_cases hQ : Q a b = true
          · simp [cut2, hP', hQ, hY]
          · have hQ' : Q a b = false := by simpa using hQ
            simp only [cut2, hP', hQ', hY, Bool.false_eq_true, if_false, Bool.or_false]
            rw [ih]

theorem cut2_congr (P Q : Char → Char → Bool) (h : ∀ a b, P a b = Q a b) (l : Str) :
    cut2 P l = cut2 Q l := by
  have : P = Q := by funext a b; exact h a b
  rw [this]

theorem cutInlineComment_eq_cut2 (l : Str) : cutInlineComment l = cut2 isMarker l := by
  induction l with
  | nil => simp [cutInlineComment, cut2]
  | cons a s ih =>
    cases s with
    | nil => simp [cutInlineComment, cut2]
    | cons b r => simp [cutInlineComment, cut2, ih]

/-- The loop of `stripComments` cuts at the first inline comment marker. -/
theorem stripComments_eq (l : Str) : stripComments l = cutInlineComment l := by
  have h1 : ∀ s : Str, stripOne s " ;".toList = cut2 (fun a b => a == ' ' && b == ';') s :=
    fun s => stripOne_eq_cut2 ' ' ';' s
  have h2 : ∀ s : Str, stripOne s "\t;".toList = cut2 (fun a b => a == '\t' && b == ';') s :=
    fun s => stripOne_eq_cut2 '\t' ';' s
  have h3 : ∀ s : Str, stripOne s " #".toList = cut2 (fun a b => a == ' ' && b == '#') s :=
    fun s => stripOne_eq_cut2 ' ' '#' s
  have h4 : ∀ s : Str, stripOne s "\t#".toList = cut2 (fun a b => a == '\t' && b == '#') s :=
    fun s => stripOne_eq_cut2 '\t' '#' s
  simp only [stripComments, List.foldl, h1, h2, h3, h4]
  rw [cut2_cut2, cut2_cut2, cut2_cut2, cutInlineComment_eq_cut2]
  · apply cut2_congr
    intro a b
    simp only [isMarker]
    cases (a == ' ') <;> cases (a == '\t') <;> cases (b == ';') <;> cases (b == '#') <;> rfl
  all_goals
    intro a b c h
    have hb : b = ';' ∨ b = '#' := by
      simp only [Bool.and_eq_true, beq_iff_eq, Bool.or_eq_true] at h
      tauto
    rcases hb with rfl | rfl <;> simp

/-! ## `getEnv` -/

/-- C6.  For a non-empty prefix, `getEnv` looks up in the environment the upper-cased
concatenation of the prefix, the scope followed by `_` (both left out for the empty scope)
and the flag name with every `.` replaced by `_`. -/
theorem getEnv_key (table : Char → Char) (env : Str → Str) (envPrefix scope name : Str)
    (h : envPrefix ≠ []) :
    getEnv table env envPrefix scope name =
      env (ToUpper table (envPrefix ++ (if scope = [] then [] else scope ++ ['_']) ++
        name.map (fun c => if c = '.' then '_' else c))) := by
  have hr : Replace name ".".toList "_".toList = name.map (fun c => if c = '.' then '_' else c) :=
    replaceAll_char '.' '_' name
  simp only [getEnv, h, if_false, hr]
  by_cases hs : scope = []
  · simp [hs]
  · simp [hs]

/-- Witness of C6: the two keys of `flags_test.go`, `CONFTEST_SOME_VALUE` for the global
scope and `CONFTEST_CUSTOM_E` for the scope `custom`. -/
theorem getEnv_key_witness :
    "CONFTEST_".toList ≠ [] ∧
    getEnv id testEnv "CONFTEST_".toList [] "some.value".toList =
      testEnv "CONFTEST_SOME_VALUE".toList ∧
    getEnv id testEnv "CONFTEST_".toList "custom".toList "e".toList =
      testEnv "CONFTEST_CUSTOM_E".toList :=
  ⟨by decide, getEnv_key id testEnv "CONFTEST_".toList [] "some.value".toList (by decide),
    getEnv_key id testEnv "CONFTEST_".toList "custom".toList "e".toList (by decide)⟩

/-! ## `TrimSpace` and `IndexAny` -/

theorem rdropWhile_cons_of_neg (p : Char → Bool) (a : Char) (s : Str) (h : p a = false) :
    (a :: s).rdropWhile p = a :: s.rdropWhile p := by
  induction s using List.reverseRecOn generalizing a with
  | nil => simp [List.rdropWhile, h]
  | append_singleton s b ih =>
    by_cases hb : p b = true
    · rw [← List.cons_append, List.rdropWhile_concat_pos _ _ _ hb,
        List.rdropWhile_concat_pos _ _ _ hb, ih a h]
    · rw [← List.cons_append, List.rdropWhile_concat_neg _ _ _ hb,
        List.rdropWhile_concat_neg _ _ _ hb, List.cons_append]

theorem TrimSpace_cons_of_neg (a : Char) (s : Str) (h : isSpace a = false) :
    TrimSpace (a :: s) = a :: s.rdropWhile isSpace := by
  simp [TrimSpace, List.dropWhile, h, rdropWhile_cons_of_neg]

theorem TrimSpace_cons_of_pos (a : Char) (s : Str) (h : isSpace a = true) :
    TrimSpace (a :: s) = TrimSpace s := by
  simp [TrimSpace, List.dropWhile, h]

theorem TrimSpace_nil : TrimSpace [] = [] := by
  simp [TrimSpace, List.rdropWhile]

/-- A trimmed text is empty or starts with a code point that is not white space. -/
theorem TrimSpace_head (s : Str) :
    TrimSpace s = [] ∨ ∃ a r, TrimSpace s = a :: r ∧ isSpace a = false := by
  induction s with
  | nil => left; exact TrimSpace_nil
  | cons a s ih =>
    by_cases h : isSpace a = true
    · rw [TrimSpace_cons_of_pos a s h]; exact ih
    · have h' : isSpace a = false := by simpa using h
      right; exact ⟨a, _, TrimSpace_cons_of_neg a s h', h'⟩

theorem dropWhile_append_space (s : Str) (w : Char) (hw : isSpace w = true) :
    (s ++ [w]).dropWhile isSpace = [] ∧ s.dropWhile isSpace = [] ∨
      (s ++ [w]).dropWhile isSpace = s.dropWhile isSpace ++ [w] := by
  induction s with
  | nil => left; simp [List.dropWhile, hw]
  | cons a s ih =>
    by_cases h : isSpace a = true
    · simpa [List.dropWhile, h] using ih
    · right; simp [List.dropWhile, h]

/-- White space at the end of a line, its newline included, does not count. -/
theorem TrimSpace_append_space (s : Str) (w : Char) (hw : isSpace w = true) :
    TrimSpace (s ++ [w]) = TrimSpace s := by
  rcases dropWhile_append_space s w hw with ⟨h1, h2⟩ | h
  · simp [TrimSpace, h1, h2]
  · simp [TrimSpace, h, List.rdropWhile_concat_pos _ _ _ hw]

theorem isSpace_newline : isSpace '\n' = true := by decide

theorem TrimSpace_newline (s : Str) : TrimSpace (s ++ ['\n']) = TrimSpace s :=
  TrimSpace_append_space s '\n' isSpace_newline

theorem IndexAny_ge (s chars : Str) : -1 ≤ IndexAny s chars := by
  induction s with
  | nil => simp [IndexAny]
  | cons c s ih =>
    simp only [IndexAny]
    split
    · omega
    · split <;> omega

/-- `IndexAny` is `-1` exactly when no code point of the text is in `chars`. -/
theorem IndexAny_eq_neg_one (s chars : Str) :
    IndexAny s chars = -1 ↔ ∀ ch ∈ s, ch ∉ chars := by
  induction s with
  | nil => simp [IndexAny]
  | cons c s ih =>
    have hge := IndexAny_ge s chars
    simp only [IndexAny]
    by_cases hc : c ∈ chars
    · simp [hc]
    · simp only [hc, if_false, List.mem_cons, forall_eq_or_imp, not_false_eq_true, true_and]
      rw [← ih]
      constructor
      · intro h
        by_contra hne
        simp [hne] at h
        omega
      · intro h; simp [h]

/-- `IndexAny` is the position of the first code point that is in `chars`. -/
theorem IndexAny_eq_of_first (s chars : Str) (i : Nat) (ch : Char)
    (hbefore : ∀ x ∈ s.take i, x ∉ chars) (hat : s[i]? = some ch) (hch : ch ∈ chars) :
    IndexAny s chars = i := by
  induction s generalizing i with
  | nil => simp at hat
  | cons c s ih =>
    cases i with
    | zero =>
      simp at hat
      subst hat
      simp [IndexAny, hch]
    | succ i =>
      have hc : c ∉ chars := hbefore c (by simp)
      have hi := ih i (fun x hx => hbefore x (by simp [hx])) (by simpa using hat)
      simp only [IndexAny, hc, if_false, hi]
      have : (i : Int) ≠ -1 := by omega
      simp [this]

/-! ## The maps and the Model -/

theorem mapGet_mapSet_same {α : Type} (m : List (Str × α)) (k : Str) (v : α) :
    mapGet (mapSet m k v) k = some v := by
  induction m with
  | nil => simp [mapSet, mapGet]
  | cons e m ih =>
    obtain ⟨k', v'⟩ := e
    by_cases h : k' = k
    · simp [mapSet, mapGet, h]
    · simp [mapSet, mapGet, h, ih]

theorem mapGet_mapSet_ne {α : Type} (m : List (Str × α)) (k k' : Str) (v : α) (h : k' ≠ k) :
    mapGet (mapSet m k v) k' = mapGet m k' := by
  induction m with
  | nil => simp [mapSet, mapGet, Ne.symm h]
  | cons e m ih =>
    obtain ⟨k₀, v₀⟩ := e
    by_cases h0 : k₀ = k
    · subst h0
      simp [mapSet, mapGet, Ne.symm h]
    · by_cases h1 : k₀ = k'
      · subst h1
        simp [mapSet, mapGet, h0]
      · simp [mapSet, mapGet, h0, h1, ih]

theorem AddSection_data (c : Config) (sec : Str) :
    (c.AddSection sec).1.data =
      if (mapGet c.data sec).isSome then c.data else mapSet c.data sec [] := by
  unfold Config.AddSection
  cases h : mapGet c.data sec <;> simp

theorem AddSection_mapGet (c : Config) (sec : Str) :
    mapGet (c.AddSection sec).1.data sec = some ((mapGet c.data sec).getD []) := by
  rw [AddSection_data]
  cases h : mapGet c.data sec
  · simp [mapGet_mapSet_same]
  · simp [h]

theorem AddSection_mapGet_ne (c : Config) (sec sec' : Str) (h : sec' ≠ sec) :
    mapGet (c.AddSection sec).1.data sec' = mapGet c.data sec' := by
  rw [AddSection_data]
  cases h' : mapGet c.data sec
  · simp [mapGet_mapSet_ne _ _ _ _ h]
  · simp

/-- A section that is present is left as it is by `AddSection`. -/
theorem AddSection_present (c : Config) (sec : Str) (h : (mapGet c.data sec).isSome) :
    (c.AddSection sec).1 = c := by
  unfold Config.AddSection
  cases h' : mapGet c.data sec
  · simp [h'] at h
  · simp

theorem AddOption_data (c : Config) (sec option value : Str) :
    ∃ tv : tValue, tv.v = value ∧
      (c.AddOption sec option value).data =
        mapSet (c.AddSection sec).1.data sec
          (mapSet ((mapGet c.data sec).getD []) option tv) := by
  unfold Config.AddOption
  simp only [AddSection_mapGet, Option.getD_some]
  cases h : mapGet ((mapGet c.data sec).getD []) option with
  | none => exact ⟨_, rfl, rfl⟩
  | some old => exact ⟨_, rfl, rfl⟩

theorem lookup_AddOption_same (c : Config) (sec option value : Str) :
    lookup (c.AddOption sec option value).data sec option = some value := by
  obtain ⟨tv, htv, hd⟩ := AddOption_data c sec option value
  simp [lookup, hd, mapGet_mapSet_same, htv]

theorem lookup_AddOption_ne (c : Config) (sec option value sec' option' : Str)
    (h : sec' ≠ sec ∨ option' ≠ option) :
    lookup (c.AddOption sec option value).data sec' option' = lookup c.data sec' option' := by
  obtain ⟨tv, -, hd⟩ := AddOption_data c sec option value
  by_cases hs : sec' = sec
  · subst hs
    have ho : option' ≠ option := by
      rcases h with h | h
      · exact absurd rfl h
      · exact h
    simp only [lookup, hd, mapGet_mapSet_same, Option.some_bind, mapGet_mapSet_ne _ _ _ _ ho]
    cases h' : mapGet c.data sec' <;> simp [mapGet]
  · simp only [lookup, hd, mapGet_mapSet_ne _ _ _ _ hs, AddSection_mapGet_ne c sec sec' hs]

theorem RawString_ok_iff (c : Config) (sec option v : Str) :
    c.RawString sec option = .ok v ↔ lookup c.data sec option = some v := by
  unfold Config.RawString lookup
  cases h : mapGet c.data sec with
  | none => simp
  | some options =>
    cases h' : mapGet options option <;> simp [h']

/-- An option just added is read back by `RawString`. -/
theorem RawString_AddOption (c : Config) (sec option value : Str) :
    (c.AddOption sec option value).RawString sec option = .ok value :=
  (RawString_ok_iff _ _ _ _).2 (lookup_AddOption_same c sec option value)

/-! ## The cases of the loop body of `read` -/

theorem readLine_eq (c : Config) (sec option l : Str) :
    c.readLine sec option l =
      if (TrimSpace l).length = 0 ∨ (TrimSpace l).head? = some '#' ∨
          (TrimSpace l).head? = some ';' then
        .ok (c, sec, option)
      else if (TrimSpace l).head? = some '[' ∧ (TrimSpace l).getLast? = some ']' then
        .ok ((c.AddSection (TrimSpace (((TrimSpace l).take ((TrimSpace l).length - 1)).drop 1))).1,
          TrimSpace (((TrimSpace l).take ((TrimSpace l).length - 1)).drop 1), [])
      else if IndexAny (TrimSpace l) "=:".toList > 0 then
        .ok (c.AddOption sec
            (TrimSpace ((TrimSpace l).take (IndexAny (TrimSpace l) "=:".toList).toNat))
            (TrimSpace (stripComments
              ((TrimSpace l).drop (IndexAny (TrimSpace l) "=:".toList + 1).toNat))), sec,
          TrimSpace ((TrimSpace l).take (IndexAny (TrimSpace l) "=:".toList).toNat))
      else if sec ≠ [] ∧ option ≠ [] then
        .ok (c.AddOption sec option
          ((match c.RawString sec option with
            | .ok v => v
            | .error _ => []) ++ "\n".toList ++ TrimSpace (stripComments (TrimSpace l))),
          sec, option)
      else .error (.errorString ("could not parse line: ".toList ++ TrimSpace l)) := rfl

theorem readLine_comment (c : Config) (sec option l : Str) (h : isComment (TrimSpace l)) :
    c.readLine sec option l = .ok (c, sec, option) := by
  have : (TrimSpace l).length = 0 ∨ (TrimSpace l).head? = some '#' ∨
      (TrimSpace l).head? = some ';' := by
    rcases h with h | h | h
    · left; simp [h]
    · right; left; exact h
    · right; right; exact h
  rw [readLine_eq, if_pos this]

theorem not_isComment (t : Str) (h : ¬ isComment t) :
    ¬ (t.length = 0 ∨ t.head? = some '#' ∨ t.head? = some ';') := by
  intro h'
  apply h
  rcases h' with h' | h' | h'
  · left; exact List.length_eq_zero.1 h'
  · right; left; exact h'
  · right; right; exact h'

theorem readLine_header (c : Config) (sec option l interior : Str)
    (h : TrimSpace l = '[' :: interior ++ [']']) :
    c.readLine sec option l =
      .ok ((c.AddSection (TrimSpace interior)).1, TrimSpace interior, []) := by
  have h1 : ¬ ((TrimSpace l).length = 0 ∨ (TrimSpace l).head? = some '#' ∨
      (TrimSpace l).head? = some ';') := by
    rw [h]; simp
  have h2 : (TrimSpace l).head? = some '[' ∧ (TrimSpace l).getLast? = some ']' := by
    rw [h]
    refine ⟨rfl, ?_⟩
    rw [List.getLast?_append]
    simp
  have h3 : ((TrimSpace l).take ((TrimSpace l).length - 1)).drop 1 = interior := by
    rw [h]; simp
  rw [readLine_eq, if_neg h1, if_pos h2, h3]

theorem readLine_option_case (c : Config) (sec option l : Str) (i : Nat)
    (hcomment : ¬ isComment (TrimSpace l)) (hheader : ¬ isHeader (TrimSpace l))
    (hi : 0 < i) (hidx : IndexAny (TrimSpace l) "=:".toList = i) :
    c.readLine sec option l =
      .ok (c.AddOption sec (TrimSpace ((TrimSpace l).take i))
        (TrimSpace (cutInlineComment ((TrimSpace l).drop (i + 1)))), sec,
        TrimSpace ((TrimSpace l).take i)) := by
  have h1 := not_isComment _ hcomment
  have h2 : ¬ ((TrimSpace l).head? = some '[' ∧ (TrimSpace l).getLast? = some ']') := hheader
  have h3 : IndexAny (TrimSpace l) "=:".toList > 0 := by omega
  have h4 : ((i : Int) + 1).toNat = i + 1 := by omega
  rw [readLine_eq, if_neg h1, if_neg h2, if_pos h3, hidx, Int.toNat_ofNat, h4, stripComments_eq]

theorem readLine_other_case (c : Config) (sec option l : Str)
    (hcomment : ¬ isComment (TrimSpace l)) (hheader : ¬ isHeader (TrimSpace l))
    (hidx : IndexAny (TrimSpace l) "=:".toList ≤ 0) :
    c.readLine sec option l =
      if sec ≠ [] ∧ option ≠ [] then
        .ok (c.AddOption sec option
          ((match c.RawString sec option with
            | .ok v => v
            | .error _ => []) ++ "\n".toList ++ TrimSpace (cutInlineComment (TrimSpace l))),
          sec, option)
      else .error (.errorString ("could not parse line: ".toList ++ TrimSpace l)) := by
  have h1 := not_isComment _ hcomment
  have h2 : ¬ ((TrimSpace l).head? = some '[' ∧ (TrimSpace l).getLast? = some ']') := hheader
  have h3 : ¬ (IndexAny (TrimSpace l) "=:".toList > 0) := by omega
  rw [readLine_eq, if_neg h1, if_neg h2, if_neg h3, stripComments_eq]

/-! ## Option lines -/

/-- The option case of the loop body, from the place of the first separator. -/
theorem readLine_option_first (c : Config) (sec option l : Str) (i : Nat) (ch : Char)
    (hcomment : ¬ isComment (TrimSpace l)) (hheader : ¬ isHeader (TrimSpace l))
    (hi : 0 < i) (hbefore : ∀ x ∈ (TrimSpace l).take i, ¬ isSeparator x)
    (hat : (TrimSpace l)[i]? = some ch) (hch : isSeparator ch) :
    c.readLine sec option l =
      .ok (c.AddOption sec (TrimSpace ((TrimSpace l).take i))
        (TrimSpace (cutInlineComment ((TrimSpace l).drop (i + 1)))), sec,
        TrimSpace ((TrimSpace l).take i)) := by
  apply readLine_option_case c sec option l i hcomment hheader hi
  apply IndexAny_eq_of_first _ _ i ch
  · intro x hx hmem
    apply hbefore x hx
    simpa [isSeparator] using hmem
  · exact hat
  · rcases hch with rfl | rfl <;> simp

/-- C2.  A line of `read` that, once trimmed, is neither a comment nor a section header and
has its first `=` or `:` at a position `i > 0` is an option line: the option name is the
trimmed text before position `i`, the value is the text after position `i` cut before the
first `;` or `#` that follows a space or a tab and then trimmed; the option is stored with
that value in the current section and becomes the tracked option. -/
theorem read_option_line (c : Config) (sec option l : Str) (i : Nat) (ch : Char)
    (hcomment : ¬ isComment (TrimSpace l)) (hheader : ¬ isHeader (TrimSpace l))
    (hi : 0 < i) (hbefore : ∀ x ∈ (TrimSpace l).take i, ¬ isSeparator x)
    (hat : (TrimSpace l)[i]? = some ch) (hch : isSeparator ch) :
    c.readLine sec option l =
      .ok (c.AddOption sec (TrimSpace ((TrimSpace l).take i))
        (TrimSpace (cutInlineComment ((TrimSpace l).drop (i + 1)))), sec,
        TrimSpace ((TrimSpace l).take i)) ∧
    (c.AddOption sec (TrimSpace ((TrimSpace l).take i))
        (TrimSpace (cutInlineComment ((TrimSpace l).drop (i + 1))))).RawString sec
        (TrimSpace ((TrimSpace l).take i)) =
      .ok (TrimSpace (cutInlineComment ((TrimSpace l).drop (i + 1)))) := by
  exact ⟨readLine_option_first c sec option l i ch hcomment hheader hi hbefore hat hch,
    RawString_AddOption _ _ _ _⟩

/-- Witness of C2: the line `a: x # note` gives `a` the value `x` and the line `a: x#note`
gives it the value `x#note`. -/
theorem read_option_line_witness :
    (defaultConfig.readLine [] [] "a: x # note\n".toList =
        .ok (defaultConfig.AddOption [] "a".toList "x".toList, [], "a".toList) ∧
      (defaultConfig.AddOption [] "a".toList "x".toList).RawString [] "a".toList =
        .ok "x".toList) ∧
    (defaultConfig.readLine [] [] "a: x#note\n".toList =
        .ok (defaultConfig.AddOption [] "a".toList "x#note".toList, [], "a".toList) ∧
      (defaultConfig.AddOption [] "a".toList "x#note".toList).RawString [] "a".toList =
        .ok "x#note".toList) :=
  ⟨read_option_line defaultConfig [] [] "a: x # note\n".toList 1 ':'
      (by decide) (by decide) (by decide) (by decide) (by decide) (by decide),
    read_option_line defaultConfig [] [] "a: x#note\n".toList 1 ':'
      (by decide) (by decide) (by decide) (by decide) (by decide) (by decide)⟩

/-! ## The lines of a buffer -/

theorem readStrings_append (cur a b : Str) :
    readStrings cur (a ++ b) =
      ((readStrings cur a).1 ++ (readStrings (readStrings cur a).2 b).1,
        (readStrings (readStrings cur a).2 b).2) := by
  induction a generalizing cur with
  | nil => simp [readStrings]
  | cons ch a ih =>
    by_cases h : ch = '\n'
    · simp [readStrings, h, ih]
    · simp [readStrings, h, ih]

theorem readStrings_noline (cur l : Str) (h : '\n' ∉ l) :
    readStrings cur l = ([], cur ++ l) := by
  induction l generalizing cur with
  | nil => simp [readStrings]
  | cons ch l ih =>
    have h1 : ch ≠ '\n' := fun e => h (by simp [e])
    have h2 : '\n' ∉ l := fun e => h (by simp [e])
    simp [readStrings, h1, ih _ h2]

theorem readStrings_line (cur l : Str) (h : '\n' ∉ l) :
    readStrings cur (l ++ ['\n']) = ([cur ++ l ++ ['\n']], []) := by
  rw [readStrings_append, readStrings_noline cur l h]
  simp [readStrings]

theorem readStrings_boundary (pre : Str) (h : pre = [] ∨ pre.getLast? = some '\n') :
    (readStrings [] pre).2 = [] := by
  rcases h with h | h
  · simp [h, readStrings]
  · obtain ⟨p, rfl⟩ : ∃ p, pre = p ++ ['\n'] := by
      rcases List.eq_nil_or_concat pre with h0 | ⟨p, x, hp⟩
      · simp [h0] at h
      · subst hp
        simp at h
        exact ⟨p, by simp [h]⟩
    rw [readStrings_append]
    simp [readStrings]

/-- The lines of a buffer cut between two lines, with a line put in at the cut. -/
theorem readStrings_insert (pre l post : Str) (hpre : pre = [] ∨ pre.getLast? = some '\n')
    (hl : '\n' ∉ l) :
    (readStrings [] (pre ++ l ++ ['\n'] ++ post)).1 =
      (readStrings [] pre).1 ++ (l ++ ['\n']) :: (readStrings [] post).1 := by
  rw [List.append_assoc, List.append_assoc, readStrings_append, readStrings_boundary pre hpre,
    ← List.append_assoc, readStrings_append, readStrings_line [] l hl]
  simp

theorem readStrings_cut (pre post : Str) (hpre : pre = [] ∨ pre.getLast? = some '\n') :
    (readStrings [] (pre ++ post)).1 = (readStrings [] pre).1 ++ (readStrings [] post).1 := by
  rw [readStrings_append, readStrings_boundary pre hpre]

/-! ## The loop of `read` -/

theorem readLoop_append (c : Config) (sec option : Str) (xs ys : List Str) :
    c.readLoop sec option (xs ++ ys) =
      match c.readLoop sec option xs with
      | (c', sec', option', none) => Config.readLoop c' sec' option' ys
      | (c', sec', option', some e) => (c', sec', option', some e) := by
  induction xs generalizing c sec option with
  | nil => simp [Config.readLoop]
  | cons x xs ih =>
    simp only [List.cons_append, Config.readLoop]
    cases h : c.readLine sec option x with
    | error e => simp
    | ok r =>
      obtain ⟨c', sec', option'⟩ := r
      simp only []
      exact ih c' sec' option'

/-- A line on which the loop body does nothing can be left out. -/
theorem readLoop_skip (x : Str) (hx : ∀ (c : Config) sec option, c.readLine sec option x = .ok (c, sec, option))
    (c : Config) (sec option : Str) (xs ys : List Str) :
    c.readLoop sec option (xs ++ x :: ys) = c.readLoop sec option (xs ++ ys) := by
  rw [readLoop_append, readLoop_append]
  have : ∀ (c' : Config) sec' option', Config.readLoop c' sec' option' (x :: ys) =
      Config.readLoop c' sec' option' ys := by
    intro c' sec' option'
    simp [Config.readLoop, hx]
  rcases h : c.readLoop sec option xs with ⟨c', sec', option', _ | e⟩
  · simp [this]
  · simp

theorem TrimSpace_eq_nil_iff (l : Str) : TrimSpace l = [] ↔ l.dropWhile isSpace = [] := by
  constructor
  · intro h
    induction l with
    | nil => simp
    | cons a l ih =>
      by_cases ha : isSpace a = true
      · rw [TrimSpace_cons_of_pos a l ha] at h
        simpa [List.dropWhile, ha] using ih h
      · have ha' : isSpace a = false := by simpa using ha
        rw [TrimSpace_cons_of_neg a l ha'] at h
        simp at h
  · intro h
    simp [TrimSpace, h, List.rdropWhile]

theorem TrimSpace_head? (l : Str) : (TrimSpace l).head? = (l.dropWhile isSpace).head? := by
  induction l with
  | nil => simp [TrimSpace_nil]
  | cons a l ih =>
    by_cases ha : isSpace a = true
    · rw [TrimSpace_cons_of_pos a l ha]
      simpa [List.dropWhile, ha] using ih
    · have ha' : isSpace a = false := by simpa using ha
      rw [TrimSpace_cons_of_neg a l ha']
      simp [List.dropWhile, ha']

theorem isCommentLine_iff (l : Str) : isCommentLine l ↔ isComment (TrimSpace l) := by
  unfold isCommentLine isComment
  rw [TrimSpace_head?]

theorem isHeader_form (t : Str) (h : isHeader t) : t = '[' :: (t.drop 1).dropLast ++ [']'] := by
  obtain ⟨h1, h2⟩ := h
  cases t with
  | nil => simp at h1
  | cons a r =>
    simp at h1
    subst h1
    rcases List.eq_nil_or_concat r with h0 | ⟨r', x, hr⟩
    · subst h0
      simp at h2
    · subst hr
      simp only [List.concat_eq_append] at h2 ⊢
      rw [← List.cons_append, List.getLast?_append] at h2
      simp at h2
      subst h2
      simp

theorem TrimSpace_take_ne_nil (l : Str) (i : Nat) (hne : TrimSpace l ≠ []) (hi : 0 < i) :
    TrimSpace ((TrimSpace l).take i) ≠ [] := by
  rcases TrimSpace_head l with h | ⟨a, r, h, ha⟩
  · exact absurd h hne
  · rw [h]
    obtain ⟨j, rfl⟩ : ∃ j, i = j + 1 := ⟨i - 1, by omega⟩
    rw [List.take_succ_cons, TrimSpace_cons_of_neg _ _ ha]
    simp

theorem not_isComment_ne_nil (t : Str) (h : ¬ isComment t) : t ≠ [] :=
  fun e => h (Or.inl e)

theorem IndexAny_le_zero_of_none (t : Str) (h : ∀ ch ∈ t, ¬ isSeparator ch) :
    IndexAny t "=:".toList ≤ 0 := by
  have : IndexAny t "=:".toList = -1 := by
    rw [IndexAny_eq_neg_one]
    intro ch hch hmem
    apply h ch hch
    simpa [isSeparator] using hmem
  omega

/-- A line without a separator that is neither a comment nor a header, met while no option
is tracked, is an error. -/
theorem readLine_error (c : Config) (sec l : Str)
    (hcomment : ¬ isComment (TrimSpace l)) (hheader : ¬ isHeader (TrimSpace l))
    (hsep : ∀ ch ∈ TrimSpace l, ¬ isSeparator ch) :
    c.readLine sec [] l =
      .error (.errorString ("could not parse line: ".toList ++ TrimSpace l)) := by
  rw [readLine_other_case c sec [] l hcomment hheader (IndexAny_le_zero_of_none _ hsep)]
  simp

theorem readLoop_comments (c : Config) (sec option : Str) (ls : List Str)
    (h : ∀ l ∈ ls, isCommentLine l) : c.readLoop sec option ls = (c, sec, option, none) := by
  induction ls with
  | nil => simp [Config.readLoop]
  | cons l ls ih =>
    have hl := readLine_comment c sec option l ((isCommentLine_iff l).1 (h l (by simp)))
    simp only [Config.readLoop, hl]
    exact ih (fun l' hl' => h l' (by simp [hl']))

/-- While only comments and section headers are read, no option is tracked. -/
theorem readLoop_no_option (c : Config) (sec : Str) (ls : List Str)
    (h : ∀ l ∈ ls, isComment (TrimSpace l) ∨ isHeader (TrimSpace l)) :
    ∃ c' sec', c.readLoop sec [] ls = (c', sec', [], none) := by
  induction ls generalizing c sec with
  | nil => exact ⟨c, sec, by simp [Config.readLoop]⟩
  | cons l ls ih =>
    have hls : ∀ l' ∈ ls, isComment (TrimSpace l') ∨ isHeader (TrimSpace l') :=
      fun l' hl' => h l' (by simp [hl'])
    rcases h l (by simp) with hl | hl
    · obtain ⟨c', sec', h'⟩ := ih c sec hls
      exact ⟨c', sec', by simp only [Config.readLoop, readLine_comment c sec [] l hl, h']⟩
    · have hform := isHeader_form _ hl
      obtain ⟨c', sec', h'⟩ := ih (c.AddSection (TrimSpace ((TrimSpace l).drop 1).dropLast)).1
        (TrimSpace ((TrimSpace l).drop 1).dropLast) hls
      exact ⟨c', sec', by simp only [Config.readLoop, readLine_header c sec [] l _ hform, h']⟩

/-! ## Full-line comments -/

/-- C9.  A full-line comment (a line that is empty after trimming, or whose first code point
that is not white space is `#` or `;`) put between two lines of the input changes neither
the Model `read` leaves nor the error it returns; the loop body leaves the whole state, the
tracked option included, as it is. -/
theorem read_comment_ignored (c : Config) (pre cl post : Str)
    (hpre : pre = [] ∨ pre.getLast? = some '\n') (hcl : '\n' ∉ cl)
    (hcomment : isCommentLine cl) :
    c.read (pre ++ cl ++ ['\n'] ++ post) = c.read (pre ++ post) ∧
    ∀ (c' : Config) (sec option : Str),
      c'.readLine sec option (cl ++ ['\n']) = .ok (c', sec, option) := by
  have hline : ∀ (c' : Config) (sec option : Str),
      c'.readLine sec option (cl ++ ['\n']) = .ok (c', sec, option) := by
    intro c' sec option
    apply readLine_comment
    rw [TrimSpace_newline]
    exact (isCommentLine_iff cl).1 hcomment
  refine ⟨?_, hline⟩
  unfold Config.read
  rw [readStrings_insert pre cl post hpre hcl, readStrings_cut pre post hpre,
    readLoop_skip _ hline]

/-- Witness of C9: a comment between the two lines of `[s]`, `a: x`. -/
theorem read_comment_ignored_witness :
    defaultConfig.read ("[s]\n".toList ++ " # note".toList ++ ['\n'] ++ "a: x\n".toList) =
        defaultConfig.read ("[s]\n".toList ++ "a: x\n".toList) ∧
    ∀ (c' : Config) (sec option : Str),
      c'.readLine sec option (" # note".toList ++ ['\n']) = .ok (c', sec, option) :=
  read_comment_ignored defaultConfig "[s]\n".toList " # note".toList "a: x\n".toList
    (by decide) (by decide) (by decide)

/-! ## Syntax errors -/

/-- C8.  When `read` comes to a line that is not a comment, not a section header and has no
`=` or `:`, while no option is tracked, it returns the error "could not parse line: "
followed by the trimmed line, and leaves the Model as the lines before made it.  No option is
tracked, in particular, when only comments and section headers came before. -/
theorem read_syntax_error (c : Config) (pre line post : Str)
    (hpre : pre = [] ∨ pre.getLast? = some '\n') (hline : '\n' ∉ line)
    (hcomment : ¬ isComment (TrimSpace line)) (hheader : ¬ isHeader (TrimSpace line))
    (hsep : ∀ ch ∈ TrimSpace line, ¬ isSeparator ch) :
    (∀ c' sec', c.readLoop [] [] (readStrings [] pre).1 = (c', sec', [], none) →
      c.read (pre ++ line ++ ['\n'] ++ post) =
        (c', some (.errorString ("could not parse line: ".toList ++ TrimSpace line)))) ∧
    ((∀ l ∈ (readStrings [] pre).1, isComment (TrimSpace l) ∨ isHeader (TrimSpace l)) →
      (c.read (pre ++ line ++ ['\n'] ++ post)).2 =
        some (.errorString ("could not parse line: ".toList ++ TrimSpace line))) := by
  have main : ∀ c' sec', c.readLoop [] [] (readStrings [] pre).1 = (c', sec', [], none) →
      c.read (pre ++ line ++ ['\n'] ++ post) =
        (c', some (.errorString ("could not parse line: ".toList ++ TrimSpace line))) := by
    intro c' sec' hstate
    unfold Config.read
    rw [readStrings_insert pre line post hpre hline, readLoop_append, hstate]
    have herr := readLine_error c' sec' (line ++ ['\n'])
      (by rw [TrimSpace_newline]; exact hcomment) (by rw [TrimSpace_newline]; exact hheader)
      (by rw [TrimSpace_newline]; exact hsep)
    rw [TrimSpace_newline] at herr
    simp only [Config.readLoop, herr]
  refine ⟨main, ?_⟩
  intro hall
  obtain ⟨c', sec', hstate⟩ := readLoop_no_option c [] _ hall
  rw [main c' sec' hstate]

/-- Witness of C8: the line `junk` at the start of the input, and after a comment. -/
theorem read_syntax_error_witness :
    (∀ c' sec', defaultConfig.readLoop [] [] (readStrings [] "# c\n".toList).1 =
        (c', sec', [], none) →
      defaultConfig.read ("# c\n".toList ++ "junk".toList ++ ['\n'] ++ "a: x\n".toList) =
        (c', some (.errorString ("could not parse line: ".toList ++ TrimSpace "junk".toList)))) ∧
    ((∀ l ∈ (readStrings [] "# c\n".toList).1, isComment (TrimSpace l) ∨ isHeader (TrimSpace l)) →
      (defaultConfig.read ("# c\n".toList ++ "junk".toList ++ ['\n'] ++ "a: x\n".toList)).2 =
        some (.errorString ("could not parse line: ".toList ++ TrimSpace "junk".toList))) :=
  read_syntax_error defaultConfig "# c\n".toList "junk".toList "a: x\n".toList
    (by decide) (by decide) (by decide) (by decide) (by decide)

/-! ## Section headers -/

/-- C10.  A line that, once trimmed, starts with `[` and ends with `]` makes the trimmed text
between the two the current section, whatever that text holds: the section is added when
absent (with no option) and left as it is when present, and no option is tracked any more,
so that a line without separator that comes next is an error. -/
theorem read_section_header (c : Config) (sec option l : Str) (h : isHeader (TrimSpace l)) :
    c.readLine sec option l =
      .ok ((c.AddSection (TrimSpace ((TrimSpace l).drop 1).dropLast)).1,
        TrimSpace ((TrimSpace l).drop 1).dropLast, []) ∧
    mapGet (c.AddSection (TrimSpace ((TrimSpace l).drop 1).dropLast)).1.data
        (TrimSpace ((TrimSpace l).drop 1).dropLast) =
      some ((mapGet c.data (TrimSpace ((TrimSpace l).drop 1).dropLast)).getD []) ∧
    ((mapGet c.data (TrimSpace ((TrimSpace l).drop 1).dropLast)).isSome →
      (c.AddSection (TrimSpace ((TrimSpace l).drop 1).dropLast)).1 = c) ∧
    ∀ next, ¬ isComment (TrimSpace next) → ¬ isHeader (TrimSpace next) →
      (∀ ch ∈ TrimSpace next, ¬ isSeparator ch) →
      c.readLoop sec option [l, next] =
        ((c.AddSection (TrimSpace ((TrimSpace l).drop 1).dropLast)).1,
          TrimSpace ((TrimSpace l).drop 1).dropLast, [],
          some (.errorString ("could not parse line: ".toList ++ TrimSpace next))) := by
  have hl := readLine_header c sec option l _ (isHeader_form _ h)
  refine ⟨hl, AddSection_mapGet _ _, AddSection_present _ _, ?_⟩
  intro next h1 h2 h3
  simp only [Config.readLoop, hl, readLine_error _ _ next h1 h2 h3]

/-- Witness of C10: after `a: x` in section `s`, the header `[ t=1 ]` and then the line `y`. -/
theorem read_section_header_witness :
    (defaultConfig.AddOption "s".toList "a".toList "x".toList).readLoop "s".toList "a".toList
        ["[ t=1 ]\n".toList, "y\n".toList] =
      (((defaultConfig.AddOption "s".toList "a".toList "x".toList).AddSection "t=1".toList).1,
        "t=1".toList, [], some (.errorString "could not parse line: y".toList)) :=
  (read_section_header (defaultConfig.AddOption "s".toList "a".toList "x".toList) "s".toList
    "a".toList "[ t=1 ]\n".toList (by decide)).2.2.2 "y\n".toList
    (by decide) (by decide) (by decide)

/-! ## The unterminated last line -/

/-- What follows the last newline of the input is not read. -/
theorem read_drops_tail (c : Config) (pre tail : Str)
    (hpre : pre = [] ∨ pre.getLast? = some '\n') (htail : '\n' ∉ tail) :
    c.read (pre ++ tail) = c.read pre := by
  unfold Config.read
  rw [readStrings_cut pre tail hpre, readStrings_noline [] tail htail]
  simp

/-- C7, the code at inputs without a final newline: the option line `a: x` is not read at
all, where `a: x` followed by a newline stores the option; the line `junk` is accepted, where
`junk` followed by a newline is a syntax error. -/
theorem read_unterminated_line :
    defaultConfig.read "a: x".toList = (defaultConfig, none) ∧
    defaultConfig.read "a: x\n".toList =
      (defaultConfig.AddOption [] "a".toList "x".toList, none) ∧
    (defaultConfig.AddOption [] "a".toList "x".toList).RawString [] "a".toList =
      .ok "x".toList ∧
    defaultConfig.RawString [] "a".toList = .error (.SectionError []) ∧
    defaultConfig.read "junk".toList = (defaultConfig, none) ∧
    defaultConfig.read "junk\n".toList =
      (defaultConfig, some (.errorString "could not parse line: junk".toList)) := by
  decide

/-! ## Continuation lines -/

/-- C3, the claim as stated fails: on the input `a: x`, newline, `  y` the option `a` of the
section without name keeps the value `x` and `read` returns nil, and with a final newline
`read` returns the syntax error for the line `y`. -/
theorem read_continuation_counterexample :
    defaultConfig.read "a: x\n  y".toList =
      (defaultConfig.AddOption [] "a".toList "x".toList, none) ∧
    (defaultConfig.AddOption [] "a".toList "x".toList).RawString [] "a".toList =
      .ok "x".toList ∧
    defaultConfig.read "a: x\n  y\n".toList =
      (defaultConfig.AddOption [] "a".toList "x".toList,
        some (.errorString "could not parse line: y".toList)) := by
  decide

/-- C3, amended.  In a section whose name is not empty, when an option line has been read
and the next line that is not a comment is not a section header and has no `=` or `:`, that
line is a continuation: the value of the option becomes the previous value, a newline, and
the text of the line, trimmed, cut before an inline comment and trimmed again. -/
theorem read_continuation (c : Config) (sec option l1 l2 : Str) (comments : List Str)
    (i : Nat) (ch : Char) (hsec : sec ≠ [])
    (hcomment : ¬ isComment (TrimSpace l1)) (hheader : ¬ isHeader (TrimSpace l1))
    (hi : 0 < i) (hbefore : ∀ x ∈ (TrimSpace l1).take i, ¬ isSeparator x)
    (hat : (TrimSpace l1)[i]? = some ch) (hch : isSeparator ch)
    (hcomments : ∀ l ∈ comments, isCommentLine l)
    (hcomment2 : ¬ isComment (TrimSpace l2)) (hheader2 : ¬ isHeader (TrimSpace l2))
    (hsep2 : ∀ x ∈ TrimSpace l2, ¬ isSeparator x) :
    c.readLoop sec option (l1 :: comments ++ [l2]) =
      ((c.AddOption sec (TrimSpace ((TrimSpace l1).take i))
          (TrimSpace (cutInlineComment ((TrimSpace l1).drop (i + 1))))).AddOption sec
          (TrimSpace ((TrimSpace l1).take i))
          (TrimSpace (cutInlineComment ((TrimSpace l1).drop (i + 1))) ++ "\n".toList ++
            TrimSpace (cutInlineComment (TrimSpace l2))),
        sec, TrimSpace ((TrimSpace l1).take i), none) ∧
    ((c.AddOption sec (TrimSpace ((TrimSpace l1).take i))
          (TrimSpace (cutInlineComment ((TrimSpace l1).drop (i + 1))))).AddOption sec
          (TrimSpace ((TrimSpace l1).take i))
          (TrimSpace (cutInlineComment ((TrimSpace l1).drop (i + 1))) ++ "\n".toList ++
            TrimSpace (cutInlineComment (TrimSpace l2)))).RawString sec
        (TrimSpace ((TrimSpace l1).take i)) =
      .ok (TrimSpace (cutInlineComment ((TrimSpace l1).drop (i + 1))) ++ "\n".toList ++
        TrimSpace (cutInlineComment (TrimSpace l2))) := by
  refine ⟨?_, RawString_AddOption _ _ _ _⟩
  have h1 := readLine_option_first c sec option l1 i ch hcomment hheader hi hbefore hat hch
  have hraw := RawString_AddOption c sec (TrimSpace ((TrimSpace l1).take i))
    (TrimSpace (cutInlineComment ((TrimSpace l1).drop (i + 1))))
  have hname : TrimSpace ((TrimSpace l1).take i) ≠ [] :=
    TrimSpace_take_ne_nil l1 i (not_isComment_ne_nil _ hcomment) hi
  have h2 := readLine_other_case
    (c.AddOption sec (TrimSpace ((TrimSpace l1).take i))
      (TrimSpace (cutInlineComment ((TrimSpace l1).drop (i + 1)))))
    sec (TrimSpace ((TrimSpace l1).take i)) l2 hcomment2 hheader2
    (IndexAny_le_zero_of_none _ hsep2)
  rw [if_pos ⟨hsec, hname⟩, hraw] at h2
  dsimp only at h2
  rw [List.cons_append]
  simp only [Config.readLoop, h1]
  rw [readLoop_append, readLoop_comments _ _ _ _ hcomments]
  simp only [Config.readLoop, h2]

/-- Witness of C3, amended: in the section `s`, the lines `a: x` and `  y` give `a` the value
`x`, newline, `y`; so does `read` on the input `[s]`, `a: x`, `  y` with a final newline. -/
theorem read_continuation_witness :
    ((defaultConfig.AddSection "s".toList).1.readLoop "s".toList []
          ("a: x\n".toList :: [] ++ ["  y\n".toList]) =
        (((defaultConfig.AddSection "s".toList).1.AddOption "s".toList "a".toList
            "x".toList).AddOption "s".toList "a".toList "x\ny".toList,
          "s".toList, "a".toList, none) ∧
      (((defaultConfig.AddSection "s".toList).1.AddOption "s".toList "a".toList
            "x".toList).AddOption "s".toList "a".toList "x\ny".toList).RawString "s".toList
          "a".toList = .ok "x\ny".toList) ∧
    defaultConfig.read "[s]\na: x\n  y\n".toList =
      (((defaultConfig.AddSection "s".toList).1.AddOption "s".toList "a".toList
        "x".toList).AddOption "s".toList "a".toList "x\ny".toList, none) :=
  ⟨read_continuation (defaultConfig.AddSection "s".toList).1 "s".toList [] "a: x\n".toList
      "  y\n".toList [] 1 ':' (by decide) (by decide) (by decide) (by decide) (by decide)
      (by decide) (by decide) (by decide) (by decide) (by decide) (by decide),
    by decide⟩

/-! ## `Merge` -/

theorem mergeOptions_eq (target : Config) (sec : Str) (options : List (Str × tValue)) :
    mergeOptions target sec options =
      addAll target (options.map (fun o => (sec, o.1, o.2.v))) := by
  induction options generalizing target with
  | nil => simp [mergeOptions, addAll]
  | cons o options ih =>
    obtain ⟨name, tv⟩ := o
    simp only [mergeOptions, ih, addAll, List.map_cons, List.foldl_cons]

theorem mergeSections_eq (target : Config) (visit : List (Str × List (Str × tValue))) :
    mergeSections target visit = addAll target (mergeEntries visit) := by
  induction visit generalizing target with
  | nil => simp [mergeSections, addAll, mergeEntries]
  | cons e visit ih =>
    obtain ⟨sec, options⟩ := e
    simp only [mergeSections, ih, mergeOptions_eq]
    simp [addAll, mergeEntries, List.flatMap_cons, List.foldl_append]

theorem addAll_cons (target : Config) (e : Str × Str × Str) (rest : List (Str × Str × Str)) :
    addAll target (e :: rest) = addAll (target.AddOption e.1 e.2.1 e.2.2) rest := rfl

/-- The options that no triple of the list names keep what they had. -/
theorem lookup_addAll_other (entries : List (Str × Str × Str)) (target : Config)
    (sec option : Str) (h : ∀ v, (sec, option, v) ∉ entries) :
    lookup (addAll target entries).data sec option = lookup target.data sec option := by
  induction entries generalizing target with
  | nil => rfl
  | cons e rest ih =>
    obtain ⟨s, o, v⟩ := e
    rw [addAll_cons, ih _ (fun v' hv' => h v' (by simp [hv'])), lookup_AddOption_ne]
    by_contra hne
    simp only [not_or, not_not] at hne
    apply h v
    simp [hne.1, hne.2]

/-- An option that the list names with one value only ends with that value. -/
theorem lookup_addAll_mem (entries : List (Str × Str × Str)) (target : Config)
    (sec option v : Str) (hmem : (sec, option, v) ∈ entries)
    (huniq : ∀ v', (sec, option, v') ∈ entries → v' = v) :
    lookup (addAll target entries).data sec option = some v := by
  induction entries generalizing target with
  | nil => simp at hmem
  | cons e rest ih =>
    rw [addAll_cons]
    by_cases hrest : (sec, option, v) ∈ rest
    · exact ih _ hrest (fun v' hv' => huniq v' (by simp [hv']))
    · have he : e = (sec, option, v) := by
        rcases List.mem_cons.1 hmem with h | h
        · exact h.symm
        · exact absurd h hrest
      subst he
      rw [lookup_addAll_other rest _ sec option, lookup_AddOption_same]
      intro v' hv'
      have := huniq v' (by simp [hv'])
      subst this
      exact hrest hv'

theorem mapGet_mem {α : Type} (m : List (Str × α)) (k : Str) (v : α) (h : mapGet m k = some v) :
    (k, v) ∈ m := by
  induction m with
  | nil => simp [mapGet] at h
  | cons e m ih =>
    obtain ⟨k', v'⟩ := e
    by_cases hk : k' = k
    · simp [mapGet, hk] at h
      simp [hk, h]
    · simp [mapGet, hk] at h
      simp [ih h]

theorem mapGet_of_mem {α : Type} (m : List (Str × α)) (k : Str) (v : α) (hu : uniqueKeys m)
    (h : (k, v) ∈ m) : mapGet m k = some v := by
  induction m with
  | nil => simp at h
  | cons e m ih =>
    obtain ⟨k', v'⟩ := e
    simp only [uniqueKeys, List.map_cons, List.nodup_cons, List.mem_map, not_exists, not_and] at hu
    rcases List.mem_cons.1 h with h | h
    · simp only [Prod.mk.injEq] at h
      simp [mapGet, h.1, h.2]
    · have hk : k' ≠ k := fun e => hu.1 (k, v) h e.symm
      simp only [mapGet, hk, if_false]
      exact ih hu.2 h

theorem lookup_iff_mem (data : List (Str × List (Str × tValue))) (hwf : wellFormed data)
    (sec option v : Str) :
    lookup data sec option = some v ↔
      ∃ options tv, (sec, options) ∈ data ∧ (option, tv) ∈ options ∧ tv.v = v := by
  constructor
  · intro h
    unfold lookup at h
    cases h1 : mapGet data sec with
    | none => simp [h1] at h
    | some options =>
      cases h2 : mapGet options option with
      | none => simp [h1, h2] at h
      | some tv =>
        simp [h1, h2] at h
        exact ⟨options, tv, mapGet_mem _ _ _ h1, mapGet_mem _ _ _ h2, h⟩
  · rintro ⟨options, tv, h1, h2, h3⟩
    have g1 := mapGet_of_mem data sec options hwf.1 h1
    have g2 := mapGet_of_mem options option tv (hwf.2 _ h1) h2
    simp [lookup, g1, g2, h3]

theorem forall₂_range_mem (visit mid : List (Str × List (Str × tValue)))
    (h : List.Forall₂ (fun v m => v.1 = m.1 ∧ List.Perm v.2 m.2) visit mid)
    (sec option : Str) (tv : tValue) :
    (∃ options, (sec, options) ∈ visit ∧ (option, tv) ∈ options) ↔
      ∃ options, (sec, options) ∈ mid ∧ (option, tv) ∈ options := by
  induction h with
  | nil =>
    constructor <;> rintro ⟨options, hm, -⟩ <;> exact absurd hm (List.not_mem_nil _)
  | cons hhead _ ih =>
    rename_i a b l₁ l₂ _
    obtain ⟨sa, oa⟩ := a
    obtain ⟨sb, ob⟩ := b
    obtain ⟨h1, h2⟩ := hhead
    simp only at h1 h2
    subst h1
    constructor
    · rintro ⟨options, hm, ho⟩
      rcases List.mem_cons.1 hm with hm | hm
      · simp only [Prod.mk.injEq] at hm
        obtain ⟨rfl, rfl⟩ := hm
        exact ⟨ob, by simp, h2.mem_iff.1 ho⟩
      · obtain ⟨options', hm', ho'⟩ := ih.1 ⟨options, hm, ho⟩
        exact ⟨options', by simp [hm'], ho'⟩
    · rintro ⟨options, hm, ho⟩
      rcases List.mem_cons.1 hm with hm | hm
      · simp only [Prod.mk.injEq] at hm
        obtain ⟨rfl, rfl⟩ := hm
        exact ⟨oa, by simp, h2.mem_iff.2 ho⟩
      · obtain ⟨options', hm', ho'⟩ := ih.2 ⟨options, hm, ho⟩
        exact ⟨options', by simp [hm'], ho'⟩

/-- The triples the loops of `Merge` meet are the options of the source with their values. -/
theorem mem_mergeEntries_iff (data visit : List (Str × List (Str × tValue)))
    (hwf : wellFormed data) (hvisit : IsRange data visit) (sec option v : Str) :
    (sec, option, v) ∈ mergeEntries visit ↔ lookup data sec option = some v := by
  obtain ⟨mid, hperm, hall⟩ := hvisit
  rw [lookup_iff_mem data hwf]
  have key : (sec, option, v) ∈ mergeEntries visit ↔
      ∃ tv : tValue, (∃ options, (sec, options) ∈ visit ∧ (option, tv) ∈ options) ∧ tv.v = v := by
    simp only [mergeEntries, List.mem_flatMap, List.mem_map, Prod.mk.injEq, Prod.exists]
    constructor
    · rintro ⟨s, options, hm, o, tv, ho, rfl, rfl, rfl⟩
      exact ⟨tv, ⟨options, hm, ho⟩, rfl⟩
    · rintro ⟨tv, ⟨options, hm, ho⟩, rfl⟩
      exact ⟨sec, options, hm, option, tv, ho, rfl, rfl, rfl⟩
  rw [key]
  constructor
  · rintro ⟨tv, hex, hv⟩
    obtain ⟨options, hm, ho⟩ := (forall₂_range_mem visit mid hall sec option tv).1 hex
    exact ⟨options, tv, hperm.mem_iff.1 hm, ho, hv⟩
  · rintro ⟨options, tv, hm, ho, hv⟩
    exact ⟨tv, (forall₂_range_mem visit mid hall sec option tv).2
      ⟨options, hperm.mem_iff.2 hm, ho⟩, hv⟩

/-- C5.  After `target.Merge(source)`, in whatever order the loops of `Merge` meet the
entries of `source`, every option of `source` has in `target` the value it has in `source`,
and every option of `target` that `source` does not have keeps its value. -/
theorem Merge_precedence (target source : Config) (visit : List (Str × List (Str × tValue)))
    (hwf : wellFormed source.data) (hvisit : IsRange source.data visit) :
    (∀ sec option v, source.RawString sec option = .ok v →
      (target.Merge (some source) visit).RawString sec option = .ok v) ∧
    (∀ sec option w, target.RawString sec option = .ok w →
      (∀ v, source.RawString sec option ≠ .ok v) →
      (target.Merge (some source) visit).RawString sec option = .ok w) := by
  constructor
  · intro sec option v hv
    rw [RawString_ok_iff] at hv ⊢
    have hlen : source.data.length ≠ 0 := by
      intro h0
      have : source.data = [] := List.length_eq_zero.1 h0
      simp [lookup, this, mapGet] at hv
    simp only [Config.Merge, hlen, if_false, mergeSections_eq]
    apply lookup_addAll_mem
    · exact (mem_mergeEntries_iff _ _ hwf hvisit sec option v).2 hv
    · intro v' hv'
      have := (mem_mergeEntries_iff _ _ hwf hvisit sec option v').1 hv'
      rw [hv] at this
      exact (Option.some.inj this).symm
  · intro sec option w hw hnot
    rw [RawString_ok_iff] at hw ⊢
    simp only [Config.Merge]
    split
    · exact hw
    · rw [mergeSections_eq, lookup_addAll_other _ _ _ _ _, hw]
      intro v hv
      exact hnot v ((RawString_ok_iff _ _ _ _).2
        ((mem_mergeEntries_iff _ _ hwf hvisit sec option v).1 hv))

/-- Witness of C5: `k = 1`, `j = 0` in section `s` of the target, `k = 2` in section `s` and
`m = 3` in section `t` of the source, the sections of the source met last to first. -/
theorem Merge_precedence_witness :
    (targetConfig.Merge (some sourceConfig) sourceConfig.data.reverse).RawString "s".toList
        "k".toList = .ok "2".toList ∧
    (targetConfig.Merge (some sourceConfig) sourceConfig.data.reverse).RawString "t".toList
        "m".toList = .ok "3".toList ∧
    (targetConfig.Merge (some sourceConfig) sourceConfig.data.reverse).RawString "s".toList
        "j".toList = .ok "0".toList :=
  have h := Merge_precedence targetConfig sourceConfig sourceConfig.data.reverse (by decide)
    ⟨sourceConfig.data.reverse, List.reverse_perm _,
      .cons ⟨rfl, .refl _⟩ (.cons ⟨rfl, .refl _⟩ (.cons ⟨rfl, .refl _⟩ .nil))⟩
  ⟨h.1 _ _ _ (by decide), h.1 _ _ _ (by decide),
    h.2 _ _ _ (by decide) (fun v hv => by
      have h0 : sourceConfig.RawString "s".toList "j".toList =
          .error (.OptionError "j".toList) := by decide
      rw [h0] at hv
      cases hv)⟩

/-! ## `Parse` -/

theorem Lookup_map (formal : List Flag) (g : Flag → Flag) (hg : ∀ f, (g f).Name = f.Name)
    (m : Str) :
    (formal.map g).find? (fun f => f.Name = m) = (formal.find? (fun f => f.Name = m)).map g := by
  induction formal with
  | nil => rfl
  | cons f formal ih =>
    by_cases h : f.Name = m
    · simp [List.find?, hg, h]
    · simp [List.find?, hg, h, ih]

theorem Lookup_name (set : FlagSet) (m : Str) (f : Flag) (h : set.Lookup m = some f) :
    f.Name = m := by
  have := List.find?_some h
  simpa using this

/-- The flags after `Value.Set` has been called for those named `n`. -/
theorem Lookup_update (valueSet : ValueSet) (formal : List Flag) (n v m : Str) :
    (formal.map
        (fun g => if g.Name = n then { g with Value := (valueSet g v).1 } else g)).find?
        (fun f => f.Name = m) =
      if m = n then
        (formal.find? (fun f => f.Name = m)).map (fun f => { f with Value := (valueSet f v).1 })
      else formal.find? (fun f => f.Name = m) := by
  rw [Lookup_map _ _ (by intro f; split <;> rfl)]
  by_cases hm : m = n
  · subst hm
    simp only [if_true]
    cases hf : List.find? (fun f => decide (f.Name = m)) formal with
    | none => rfl
    | some f =>
      have : f.Name = m := by simpa using List.find?_some hf
      simp [this]
  · simp only [hm, if_false]
    cases hf : List.find? (fun f => decide (f.Name = m)) formal with
    | none => rfl
    | some f =>
      have : f.Name = m := by simpa using List.find?_some hf
      have hne : f.Name ≠ n := by rw [this]; exact hm
      simp [hne]

theorem Lookup_Set (valueSet : ValueSet) (set : FlagSet) (n v m : Str) :
    (set.Set valueSet n v).1.Lookup m =
      if m = n then (set.Lookup m).map (fun f => { f with Value := (valueSet f v).1 })
      else set.Lookup m := by
  unfold FlagSet.Set
  cases hn : set.Lookup n with
  | none =>
    by_cases hm : m = n
    · subst hm; simp [hn]
    · simp [hm]
  | some f0 =>
    simp only []
    cases (valueSet f0 v).2 <;> exact Lookup_update valueSet set.formal n v m

/-- A flag is recorded as set after `FlagSet.Set` when it was before, or when it is the flag
named and `Value.Set` returned nil. -/
theorem mem_actual_Set (valueSet : ValueSet) (set : FlagSet) (n v m : Str) :
    m ∈ (set.Set valueSet n v).1.actual ↔
      m ∈ set.actual ∨ (m = n ∧ ∃ f, set.Lookup n = some f ∧ (valueSet f v).2 = none) := by
  unfold FlagSet.Set
  cases hn : set.Lookup n with
  | none =>
    simp only []
    constructor
    · intro h; exact Or.inl h
    · rintro (h | ⟨-, f, hf, -⟩)
      · exact h
      · cases hf
  | some f0 =>
    simp only []
    cases hv : (valueSet f0 v).2 with
    | some err =>
      simp only []
      constructor
      · intro h; exact Or.inl h
      · rintro (h | ⟨-, f, hf, hnone⟩)
        · exact h
        · cases hf
          rw [hv] at hnone
          cases hnone
    | none =>
      simp only []
      by_cases hmem : n ∈ set.actual
      · rw [if_pos hmem]
        constructor
        · intro h; exact Or.inl h
        · rintro (h | ⟨rfl, -⟩)
          · exact h
          · exact hmem
      · rw [if_neg hmem]
        constructor
        · intro h
          rcases List.mem_append.1 h with h | h
          · exact Or.inl h
          · exact Or.inr ⟨List.mem_singleton.1 h, f0, rfl, hv⟩
        · rintro (h | ⟨rfl, -⟩)
          · exact List.mem_append_left _ h
          · exact List.mem_append_right _ (List.mem_singleton.2 rfl)

theorem parseFlag_eq (valueSet : ValueSet) (table : Char → Char) (env : Str → Str) (c : Config)
    (name : Str) (alreadySet : List Str) (set : FlagSet) (f : Flag) :
    parseFlag valueSet table env c name alreadySet set f =
      match resolve table env c name alreadySet f.Name with
      | none => set
      | some v => (set.Set valueSet f.Name v).1 := by
  unfold parseFlag resolve
  by_cases h1 : f.Name ∈ alreadySet
  · simp [h1]
  · by_cases h2 : getEnv table env c.EnvPrefix name f.Name = []
    · simp only [h1, if_false, h2, ne_eq, not_true_eq_false]
      cases c.String name f.Name <;> rfl
    · simp [h1, h2]

theorem Lookup_parseFlag (valueSet : ValueSet) (table : Char → Char) (env : Str → Str)
    (c : Config) (name : Str) (alreadySet : List Str) (set : FlagSet) (f : Flag) (m : Str) :
    (parseFlag valueSet table env c name alreadySet set f).Lookup m =
      if m = f.Name then
        (set.Lookup m).map (assign valueSet (resolve table env c name alreadySet m))
      else set.Lookup m := by
  rw [parseFlag_eq]
  by_cases hm : m = f.Name
  · subst hm
    cases hr : resolve table env c name alreadySet f.Name with
    | none =>
      simp only [if_true]
      cases set.Lookup f.Name <;> rfl
    | some v =>
      simp only [Lookup_Set, if_true]
      cases set.Lookup f.Name <;> rfl
  · cases hr : resolve table env c name alreadySet f.Name with
    | none => simp [hm]
    | some v => simp [Lookup_Set, hm]

theorem mem_actual_parseFlag (valueSet : ValueSet) (table : Char → Char) (env : Str → Str)
    (c : Config) (name : Str) (alreadySet : List Str) (set : FlagSet) (f : Flag) (m : Str) :
    m ∈ (parseFlag valueSet table env c name alreadySet set f).actual ↔
      m ∈ set.actual ∨ (m = f.Name ∧ ∃ g v, set.Lookup m = some g ∧
        resolve table env c name alreadySet m = some v ∧ (valueSet g v).2 = none) := by
  rw [parseFlag_eq]
  cases hr : resolve table env c name alreadySet f.Name with
  | none =>
    simp only []
    constructor
    · intro h; exact Or.inl h
    · rintro (h | ⟨rfl, g, v, -, hv, -⟩)
      · exact h
      · rw [hr] at hv
        cases hv
  | some v =>
    simp only []
    rw [mem_actual_Set]
    constructor
    · rintro (h | ⟨rfl, g, hg, hnone⟩)
      · exact Or.inl h
      · exact Or.inr ⟨rfl, g, v, hg, hr, hnone⟩
    · rintro (h | ⟨rfl, g, v', hg, hv', hnone⟩)
      · exact Or.inl h
      · rw [hr] at hv'
        cases hv'
        exact Or.inr ⟨rfl, g, hg, hnone⟩

/-- The callbacks of `VisitAll`, run over a list of flags with different names, give every
flag of the list the value resolved for it and leave the others. -/
theorem Lookup_foldl_parseFlag (valueSet : ValueSet) (table : Char → Char) (env : Str → Str)
    (c : Config) (name : Str) (alreadySet : List Str) (flags : List Flag)
    (hnodup : (flags.map (fun f => f.Name)).Nodup) (set : FlagSet) (m : Str) :
    (flags.foldl (parseFlag valueSet table env c name alreadySet) set).Lookup m =
      if m ∈ flags.map (fun f => f.Name) then
        (set.Lookup m).map (assign valueSet (resolve table env c name alreadySet m))
      else set.Lookup m := by
  induction flags generalizing set with
  | nil => simp
  | cons f flags ih =>
    simp only [List.map_cons, List.nodup_cons] at hnodup
    rw [List.foldl_cons, ih hnodup.2, Lookup_parseFlag]
    by_cases h1 : m = f.Name
    · subst h1
      simp only [if_neg hnodup.1, if_true, List.map_cons, List.mem_cons, true_or]
    · by_cases h2 : m ∈ flags.map (fun f => f.Name)
      · simp only [h2, if_true, h1, if_false, List.map_cons, List.mem_cons, or_true]
      · simp only [h2, if_false, h1, List.map_cons, List.mem_cons, or_self]

/-- The callbacks of `VisitAll` leave a flag for which nothing is resolved as it is. -/
theorem Lookup_foldl_parseFlag_keep (valueSet : ValueSet) (table : Char → Char)
    (env : Str → Str) (c : Config) (name : Str) (alreadySet : List Str) (flags : List Flag)
    (set : FlagSet) (m : Str)
    (h : set.Lookup m = none ∨ resolve table env c name alreadySet m = none) :
    (flags.foldl (parseFlag valueSet table env c name alreadySet) set).Lookup m =
      set.Lookup m := by
  induction flags generalizing set with
  | nil => rfl
  | cons f flags ih =>
    have hstep : (parseFlag valueSet table env c name alreadySet set f).Lookup m =
        set.Lookup m := by
      rw [Lookup_parseFlag]
      split
      · rcases h with h | h
        · rw [h]; rfl
        · rw [h]
          cases set.Lookup m <;> rfl
      · rfl
    rw [List.foldl_cons, ih _ (by rw [hstep]; exact h), hstep]

/-- The callbacks of `VisitAll`, run over a list of flags with different names: a flag is
recorded as set afterwards when it was before, or when it is in the list, a string is
resolved for it and `Value.Set` returned nil for that string. -/
theorem mem_actual_foldl_parseFlag (valueSet : ValueSet) (table : Char → Char)
    (env : Str → Str) (c : Config) (name : Str) (alreadySet : List Str) (flags : List Flag)
    (hnodup : (flags.map (fun f => f.Name)).Nodup) (set : FlagSet) (m : Str) :
    m ∈ (flags.foldl (parseFlag valueSet table env c name alreadySet) set).actual ↔
      m ∈ set.actual ∨ (m ∈ flags.map (fun f => f.Name) ∧ ∃ g v, set.Lookup m = some g ∧
        resolve table env c name alreadySet m = some v ∧ (valueSet g v).2 = none) := by
  induction flags generalizing set with
  | nil =>
    simp only [List.foldl_nil, List.map_nil, List.not_mem_nil, false_and, or_false]
  | cons f flags ih =>
    simp only [List.map_cons, List.nodup_cons] at hnodup
    rw [List.foldl_cons, ih hnodup.2, mem_actual_parseFlag, Lookup_parseFlag]
    constructor
    · rintro ((h | ⟨rfl, g, v, hg, hv, hnone⟩) | ⟨hm, g, v, hg, hv, hnone⟩)
      · exact Or.inl h
      · exact Or.inr ⟨List.mem_cons_self _ _, g, v, hg, hv, hnone⟩
      · have hne : m ≠ f.Name := fun e => hnodup.1 (e ▸ hm)
        rw [if_neg hne] at hg
        exact Or.inr ⟨List.mem_cons_of_mem _ hm, g, v, hg, hv, hnone⟩
    · rintro (h | ⟨hm, g, v, hg, hv, hnone⟩)
      · exact Or.inl (Or.inl h)
      · rcases List.mem_cons.1 hm with hm | hm
        · exact Or.inl (Or.inr ⟨hm, g, v, hg, hv, hnone⟩)
        · have hne : m ≠ f.Name := fun e => hnodup.1 (e ▸ hm)
          exact Or.inr ⟨hm, g, v, by rw [if_neg hne]; exact hg, hv, hnone⟩

theorem mem_sortFlags (flags : List Flag) (f : Flag) : f ∈ sortFlags flags ↔ f ∈ flags := by
  unfold sortFlags
  exact (List.perm_insertionSort _ flags).mem_iff

theorem nodup_VisitAll (set : FlagSet) (h : (set.formal.map (fun f => f.Name)).Nodup) :
    (set.VisitAll.map (fun f => f.Name)).Nodup :=
  ((List.perm_insertionSort _ set.formal).map _).nodup_iff.2 h

theorem Lookup_mem (set : FlagSet) (m : Str) (f : Flag) (h : set.Lookup m = some f) :
    f ∈ set.formal :=
  List.mem_of_find?_eq_some h

/-- A flag that is defined is among those `Visit` meets exactly when it has been set. -/
theorem mem_Visit (set : FlagSet) (m : Str) (f : Flag) (h : set.Lookup m = some f) :
    m ∈ set.Visit.map (fun f => f.Name) ↔ m ∈ set.actual := by
  have hname := Lookup_name set m f h
  simp only [FlagSet.Visit, List.mem_map, mem_sortFlags, List.mem_filter, decide_eq_true_eq]
  constructor
  · rintro ⟨g, ⟨-, hg⟩, rfl⟩
    exact hg
  · intro hm
    exact ⟨f, ⟨Lookup_mem set m f h, by rw [hname]; exact hm⟩, hname⟩

theorem mem_VisitAll (set : FlagSet) (m : Str) (f : Flag) (h : set.Lookup m = some f) :
    m ∈ set.VisitAll.map (fun f => f.Name) := by
  simp only [FlagSet.VisitAll, List.mem_map, mem_sortFlags]
  exact ⟨f, Lookup_mem set m f h, Lookup_name set m f h⟩

/-- For a flag that is defined, the names `Visit` collects decide as the record of the flags
set does. -/
theorem resolve_Visit (table : Char → Char) (env : Str → Str) (c : Config) (name : Str)
    (set : FlagSet) (m : Str) (f : Flag) (h : set.Lookup m = some f) :
    resolve table env c name (set.Visit.map (fun f => f.Name)) m =
      resolve table env c name set.actual m := by
  have hv := mem_Visit set m f h
  unfold resolve
  by_cases ha : m ∈ set.actual
  · simp [ha, hv.2 ha]
  · have : m ∉ set.Visit.map (fun f => f.Name) := fun h' => ha (hv.1 h')
    simp [ha, this]

/-- The body of the loop of `Parse` on one set: every flag gets the value resolved for it. -/
theorem Lookup_parseOne (valueSet : ValueSet) (table : Char → Char) (env : Str → Str)
    (c : Config) (name : Str) (set : FlagSet)
    (hnodup : (set.formal.map (fun f => f.Name)).Nodup) (m : Str) :
    (parseOne valueSet table env c name set).Lookup m =
      (set.Lookup m).map (assign valueSet (resolve table env c name set.actual m)) := by
  unfold parseOne
  rw [Lookup_foldl_parseFlag _ _ _ _ _ _ _ (nodup_VisitAll set hnodup)]
  cases h : set.Lookup m with
  | none => simp
  | some f =>
    simp only [mem_VisitAll set m f h, if_true, Option.map_some']
    rw [resolve_Visit table env c name set m f h]

/-- The body of the loop of `Parse` on one set leaves a flag for which nothing is resolved
as it is. -/
theorem Lookup_parseOne_keep (valueSet : ValueSet) (table : Char → Char) (env : Str → Str)
    (c : Config) (name : Str) (set : FlagSet) (m : Str)
    (h : resolve table env c name set.actual m = none) :
    (parseOne valueSet table env c name set).Lookup m = set.Lookup m := by
  unfold parseOne
  apply Lookup_foldl_parseFlag_keep
  cases hf : set.Lookup m with
  | none => exact Or.inl rfl
  | some f =>
    right
    rw [resolve_Visit table env c name set m f hf]
    exact h

/-- The body of the loop of `Parse` on one set: the flags recorded as set afterwards. -/
theorem mem_actual_parseOne (valueSet : ValueSet) (table : Char → Char) (env : Str → Str)
    (c : Config) (name : Str) (set : FlagSet)
    (hnodup : (set.formal.map (fun f => f.Name)).Nodup) (m : Str) (f : Flag)
    (hf : set.Lookup m = some f) :
    m ∈ (parseOne valueSet table env c name set).actual ↔
      m ∈ set.actual ∨ ∃ v, resolve table env c name set.actual m = some v ∧
        (valueSet f v).2 = none := by
  unfold parseOne
  rw [mem_actual_foldl_parseFlag _ _ _ _ _ _ _ (nodup_VisitAll set hnodup),
    resolve_Visit table env c name set m f hf]
  constructor
  · rintro (h | ⟨-, g, v, hg, hv, hnone⟩)
    · exact Or.inl h
    · rw [hf] at hg
      cases hg
      exact Or.inr ⟨v, hv, hnone⟩
  · rintro (h | ⟨v, hv, hnone⟩)
    · exact Or.inl h
    · exact Or.inr ⟨mem_VisitAll set m f hf, f, v, hf, hv, hnone⟩

theorem Parse_cons (valueSet : ValueSet) (table : Char → Char) (env : Str → Str) (c : Config)
    (name : Str) (r : Nat) (rest : List (Str × Nat)) (heap : List FlagSet) (set : FlagSet)
    (h : heap[r]? = some set) :
    c.Parse valueSet table env ((name, r) :: rest) heap =
      c.Parse valueSet table env rest (heap.set r (parseOne valueSet table env c name set)) := by
  simp [Config.Parse, h]

/-- `Parse` returns when every registered address holds a flag set, and leaves the sets it
does not visit as they are. -/
theorem Parse_frame (valueSet : ValueSet) (table : Char → Char) (env : Str → Str) (c : Config)
    (visit : List (Str × Nat)) (heap : List FlagSet) (hvalid : ∀ e ∈ visit, e.2 < heap.length) :
    ∃ heap', c.Parse valueSet table env visit heap = some heap' ∧
      heap'.length = heap.length ∧
      ∀ r, (∀ e ∈ visit, e.2 ≠ r) → heap'[r]? = heap[r]? := by
  induction visit generalizing heap with
  | nil => exact ⟨heap, by simp [Config.Parse], rfl, fun _ _ => rfl⟩
  | cons e visit ih =>
    obtain ⟨name, r⟩ := e
    have hr : r < heap.length := hvalid (name, r) (by simp)
    have hget : heap[r]? = some heap[r] := List.getElem?_eq_getElem hr
    obtain ⟨heap', h1, h2, h3⟩ := ih (heap.set r (parseOne valueSet table env c name heap[r]))
      (by
        intro e he
        rw [List.length_set]
        exact hvalid e (by simp [he]))
    refine ⟨heap', by rw [Parse_cons _ _ _ _ _ _ _ _ _ hget, h1], by rw [h2, List.length_set],
      ?_⟩
    intro r' hr'
    rw [h3 r' (fun e he => hr' e (by simp [he]))]
    have : r ≠ r' := hr' (name, r) (by simp)
    rw [List.getElem?_set_ne this]

theorem Parse_append (valueSet : ValueSet) (table : Char → Char) (env : Str → Str) (c : Config)
    (xs ys : List (Str × Nat)) (heap : List FlagSet) :
    c.Parse valueSet table env (xs ++ ys) heap =
      match c.Parse valueSet table env xs heap with
      | none => none
      | some heap' => c.Parse valueSet table env ys heap' := by
  induction xs generalizing heap with
  | nil => simp [Config.Parse]
  | cons e xs ih =>
    obtain ⟨name, r⟩ := e
    simp only [List.cons_append, Config.Parse]
    cases heap[r]? with
    | none => rfl
    | some s => exact ih _

/-- A set that is visited once, as `name`, is left by `Parse` as the body of the loop for
`name` makes it. -/
theorem Parse_once (valueSet : ValueSet) (table : Char → Char) (env : Str → Str) (c : Config)
    (before after : List (Str × Nat)) (name : Str) (r : Nat) (heap : List FlagSet)
    (set : FlagSet) (hset : heap[r]? = some set)
    (hvalid : ∀ e ∈ before ++ (name, r) :: after, e.2 < heap.length)
    (hbefore : ∀ e ∈ before, e.2 ≠ r) (hafter : ∀ e ∈ after, e.2 ≠ r) :
    ∃ heap', c.Parse valueSet table env (before ++ (name, r) :: after) heap = some heap' ∧
      heap'[r]? = some (parseOne valueSet table env c name set) := by
  obtain ⟨h1, e1, l1, f1⟩ := Parse_frame valueSet table env c before heap
    (fun e he => hvalid e (by simp [he]))
  have hset1 : h1[r]? = some set := by rw [f1 r hbefore, hset]
  have hr : r < h1.length := by
    rw [l1]
    exact hvalid (name, r) (by simp)
  obtain ⟨h2, e2, -, f2⟩ := Parse_frame valueSet table env c after
    (h1.set r (parseOne valueSet table env c name set))
    (by
      intro e he
      rw [List.length_set, l1]
      exact hvalid e (by simp [he]))
  refine ⟨h2, ?_, ?_⟩
  · rw [Parse_append, e1]
    simp only []
    rw [Parse_cons _ _ _ _ _ _ _ _ _ hset1, e2]
  · rw [f2 r hafter, List.getElem?_set_self hr]

theorem assign_resolve_value (valueSet : ValueSet) (table : Char → Char) (env : Str → Str)
    (c : Config) (name : Str) (actual : List Str) (n : Str) (f : Flag) :
    (assign valueSet (resolve table env c name actual n) f).Name = f.Name ∧
    (assign valueSet (resolve table env c name actual n) f).Value =
      if n ∈ actual then f.Value
      else if getEnv table env c.EnvPrefix name n ≠ [] then
        (valueSet f (getEnv table env c.EnvPrefix name n)).1
      else
        match c.String name n with
        | .ok v => (valueSet f v).1
        | .error _ => f.Value := by
  unfold resolve
  by_cases h1 : n ∈ actual
  · simp [h1, assign]
  · by_cases h2 : getEnv table env c.EnvPrefix name n = []
    · simp only [h1, if_false, h2, ne_eq, not_true_eq_false]
      cases c.String name n <;> simp [assign]
    · simp [h1, h2, assign]

/-- A string is resolved for a flag when the flag was not set and either the value of the
environment is not empty, or it is empty and the lookup in the Model succeeds. -/
theorem resolve_some (table : Char → Char) (env : Str → Str) (c : Config) (name : Str)
    (actual : List Str) (n : Str) (P : Str → Prop) :
    (∃ v, resolve table env c name actual n = some v ∧ P v) ↔
      n ∉ actual ∧
        ((getEnv table env c.EnvPrefix name n ≠ [] ∧ P (getEnv table env c.EnvPrefix name n)) ∨
          (getEnv table env c.EnvPrefix name n = [] ∧
            ∃ v, c.String name n = .ok v ∧ P v)) := by
  unfold resolve
  by_cases h1 : n ∈ actual
  · simp [h1]
  · by_cases h2 : getEnv table env c.EnvPrefix name n = []
    · simp only [h1, if_false, h2, ne_eq, not_true_eq_false, not_false_eq_true, true_and,
        false_and, false_or]
      cases c.String name n with
      | error e => simp
      | ok w => simp
    · simp [h1, h2]

/-- What the body of the loop of `Parse` makes of a flag that is defined. -/
theorem Lookup_parseOne_value (valueSet : ValueSet) (table : Char → Char) (env : Str → Str)
    (c : Config) (name : Str) (set : FlagSet)
    (hnodup : (set.formal.map (fun f => f.Name)).Nodup) (n : Str) (f : Flag)
    (hf : set.Lookup n = some f) :
    ∃ f', (parseOne valueSet table env c name set).Lookup n = some f' ∧ f'.Name = n ∧
      f'.Value =
        (if n ∈ set.actual then f.Value
        else if getEnv table env c.EnvPrefix name n ≠ [] then
          (valueSet f (getEnv table env c.EnvPrefix name n)).1
        else
          match c.String name n with
          | .ok v => (valueSet f v).1
          | .error _ => f.Value) ∧
      (n ∈ (parseOne valueSet table env c name set).actual ↔
        n ∈ set.actual ∨
          (getEnv table env c.EnvPrefix name n ≠ [] ∧
            (valueSet f (getEnv table env c.EnvPrefix name n)).2 = none) ∨
          (getEnv table env c.EnvPrefix name n = [] ∧
            ∃ v, c.String name n = .ok v ∧ (valueSet f v).2 = none)) := by
  have hval := assign_resolve_value valueSet table env c name set.actual n f
  refine ⟨assign valueSet (resolve table env c name set.actual n) f,
    by rw [Lookup_parseOne _ _ _ _ _ _ hnodup, hf]; rfl,
    by rw [hval.1]; exact Lookup_name set n f hf, hval.2, ?_⟩
  rw [mem_actual_parseOne _ _ _ _ _ _ hnodup n f hf,
    resolve_some table env c name set.actual n (fun v => (valueSet f v).2 = none)]
  constructor
  · rintro (h | ⟨-, h⟩)
    · exact Or.inl h
    · exact Or.inr h
  · rintro (h | h)
    · exact Or.inl h
    · by_cases hmem : n ∈ set.actual
      · exact Or.inl hmem
      · exact Or.inr ⟨hmem, h⟩

/-- C1, the claim as stated fails, in two ways.  With the set of the flag `d` registered
both as the global scope and as `custom`, and a variable in the environment for each of the
two keys, `d` ends with the value of the scope met first; for the other scope the flag was
not set, its variable is not empty, and the flag does not get that value.  And with a flag
`e` of the bool kind that is not set, no variable in the environment, and `e = maybe` in the
Model, the lookup succeeds and the flag is not assigned `maybe`: `Value.Set` returns an
error, which `Parse` does not look at, and the flag is not recorded as set. -/
theorem Parse_precedence_counterexample :
    ((match New DEFAULT_COMMENT DEFAULT_SEPARATOR false true "CONFTEST_".toList [] true 0 with
      | none => none
      | some c => c.RegisterFlagSet "custom".toList 0) = some aliasConfig ∧
    getEnv id aliasEnv aliasConfig.EnvPrefix [] "d".toList = "x".toList ∧
    getEnv id aliasEnv aliasConfig.EnvPrefix "custom".toList "d".toList = "y".toList ∧
    aliasConfig.Parse stringSet id aliasEnv [([], 0), ("custom".toList, 0)]
        [⟨[⟨"d".toList, "dd".toList⟩], []⟩] =
      some [⟨[⟨"d".toList, "x".toList⟩], ["d".toList]⟩] ∧
    aliasConfig.Parse stringSet id aliasEnv [("custom".toList, 0), ([], 0)]
        [⟨[⟨"d".toList, "dd".toList⟩], []⟩] =
      some [⟨[⟨"d".toList, "y".toList⟩], ["d".toList]⟩]) ∧
    (typedConfig.String [] "e".toList = .ok "maybe".toList ∧
    getEnv id (fun _ => []) typedConfig.EnvPrefix [] "e".toList = [] ∧
    typedConfig.Parse boolSet id (fun _ => []) [([], 0)] typedHeap =
      some [⟨[⟨"e".toList, "false".toList⟩], []⟩]) := by
  decide

/-- C1, amended.  For every registered scope whose flag set is registered under no other
scope and every flag defined in that set (no two flags of a set have the same name), in
whatever order `Parse` meets the scopes: `Parse` returns, and afterwards (1) a flag that was already set has the value it had; (2) otherwise,
if the environment value under the derived key is not empty, `Value.Set` of the flag has
been called with that value, and the Model has not been looked at; (3) otherwise, if the
lookup of (scope, flag name) in the Model succeeds, `Value.Set` of the flag has been called
with the value found; (4) otherwise the flag has the value it had.  Where `Value.Set` has
been called the flag holds what `Value.Set` stored, which for a string value is the string
given; the flag is recorded as set exactly when it was already, or `Value.Set` returned
nil. -/
theorem Parse_precedence (valueSet : ValueSet) (table : Char → Char) (env : Str → Str)
    (c : Config) (visit : List (Str × Nat)) (heap : List FlagSet)
    (hu : uniqueKeys (c.flags.getD [])) (hvisit : visit.Perm (c.flags.getD []))
    (hvalid : ∀ e ∈ c.flags.getD [], e.2 < heap.length)
    (name : Str) (r : Nat) (hreg : (name, r) ∈ c.flags.getD [])
    (hsingle : ∀ e ∈ c.flags.getD [], e.2 = r → e.1 = name)
    (set : FlagSet) (hset : heap[r]? = some set)
    (hformal : (set.formal.map (fun f => f.Name)).Nodup) :
    ∃ heap' set', c.Parse valueSet table env visit heap = some heap' ∧
      heap'[r]? = some set' ∧
      ∀ n f, set.Lookup n = some f →
        ∃ f', set'.Lookup n = some f' ∧ f'.Name = n ∧
          f'.Value =
            (if n ∈ set.actual then f.Value
            else if getEnv table env c.EnvPrefix name n ≠ [] then
              (valueSet f (getEnv table env c.EnvPrefix name n)).1
            else
              match c.String name n with
              | .ok v => (valueSet f v).1
              | .error _ => f.Value) ∧
          (n ∈ set'.actual ↔
            n ∈ set.actual ∨
              (getEnv table env c.EnvPrefix name n ≠ [] ∧
                (valueSet f (getEnv table env c.EnvPrefix name n)).2 = none) ∨
              (getEnv table env c.EnvPrefix name n = [] ∧
                ∃ v, c.String name n = .ok v ∧ (valueSet f v).2 = none)) ∧
          ((∀ s, valueSet f s = (s, none)) →
            f'.Value =
              if n ∈ set.actual then f.Value
              else if getEnv table env c.EnvPrefix name n ≠ [] then
                getEnv table env c.EnvPrefix name n
              else
                match c.String name n with
                | .ok v => v
                | .error _ => f.Value) := by
  obtain ⟨before, after, hsplit⟩ := List.append_of_mem (hvisit.mem_iff.2 hreg)
  have hnodup : visit.Nodup := hvisit.nodup_iff.2 (List.Nodup.of_map _ hu)
  have hother : ∀ e ∈ before ++ after, e.2 ≠ r := by
    intro e he her
    have hev : e ∈ visit := by
      rw [hsplit]
      rcases List.mem_append.1 he with h | h
      · simp [h]
      · simp [h]
    have hname := hsingle e (hvisit.mem_iff.1 hev) her
    have hee : e = (name, r) := Prod.ext hname her
    rw [hsplit] at hnodup
    have := (List.nodup_cons.1 (List.nodup_middle.1 hnodup)).1
    exact this (hee ▸ he)
  obtain ⟨heap', hparse, hget⟩ := Parse_once valueSet table env c before after name r heap set
    hset
    (by
      intro e he
      rw [← hsplit] at he
      exact hvalid e (hvisit.mem_iff.1 he))
    (fun e he => hother e (by simp [he])) (fun e he => hother e (by simp [he]))
  refine ⟨heap', parseOne valueSet table env c name set, by rw [hsplit]; exact hparse, hget, ?_⟩
  intro n f hf
  obtain ⟨f', h1, h2, h3, h4⟩ := Lookup_parseOne_value valueSet table env c name set hformal
    n f hf
  refine ⟨f', h1, h2, h3, h4, ?_⟩
  intro hstring
  rw [h3]
  simp only [hstring]

/-- Witness of C1, amended: the global scope of `flagsConfig`, with string flags and the
scope `custom` met first: `a`, already set, keeps `true`; `d` takes `EnvD` from the
environment; `b` takes `5.6` from the Model; `c` keeps its default. -/
theorem Parse_precedence_witness :
    ∃ heap' set', flagsConfig.Parse stringSet id testEnv [("custom".toList, 1), ([], 0)]
        flagsHeap = some heap' ∧ heap'[0]? = some set' ∧
      (∃ f', set'.Lookup "a".toList = some f' ∧ f'.Value = "true".toList) ∧
      (∃ f', set'.Lookup "d".toList = some f' ∧ f'.Value = "EnvD".toList) ∧
      (∃ f', set'.Lookup "b".toList = some f' ∧ f'.Value = "5.6".toList) ∧
      (∃ f', set'.Lookup "c".toList = some f' ∧ f'.Value = "cc".toList) := by
  obtain ⟨heap', set', hp, hg, hall⟩ := Parse_precedence stringSet id testEnv flagsConfig
    [("custom".toList, 1), ([], 0)] flagsHeap (by decide)
    (List.Perm.swap _ _ _) (by decide) [] 0 (by decide) (by decide)
    { formal := [⟨"d".toList, "default".toList⟩, ⟨"a".toList, "true".toList⟩,
        ⟨"b".toList, "0".toList⟩, ⟨"c".toList, "cc".toList⟩],
      actual := ["a".toList] } rfl (by decide)
  refine ⟨heap', set', hp, hg, ?_, ?_, ?_, ?_⟩
  · obtain ⟨f', h1, -, -, -, h3⟩ := hall "a".toList ⟨"a".toList, "true".toList⟩ (by decide)
    exact ⟨f', h1, (h3 (fun _ => rfl)).trans (by decide)⟩
  · obtain ⟨f', h1, -, -, -, h3⟩ := hall "d".toList ⟨"d".toList, "default".toList⟩ (by decide)
    exact ⟨f', h1, (h3 (fun _ => rfl)).trans (by decide)⟩
  · obtain ⟨f', h1, -, -, -, h3⟩ := hall "b".toList ⟨"b".toList, "0".toList⟩ (by decide)
    exact ⟨f', h1, (h3 (fun _ => rfl)).trans (by decide)⟩
  · obtain ⟨f', h1, -, -, -, h3⟩ := hall "c".toList ⟨"c".toList, "cc".toList⟩ (by decide)
    exact ⟨f', h1, (h3 (fun _ => rfl)).trans (by decide)⟩

/-! ## Round trip -/

/-- C4, the claim as stated fails: the Model with `k = "a #b"` in the default section is
written as the lines `[DEFAULT]` and `k: a #b`, and `read` on that text gives `k` the value
`a`.  Nor is that the only way.  The round trip also fails for a Model whose first section
is not `DEFAULT`; for a section name with white space around it or with a newline; for an
option name that is empty, has white space around it, a newline or a separator, or starts
with `;`; for an option line that starts with `[` and ends with `]`; for a value whose first
line has white space around it or starts with `#` after the space of the separator; for a
further line of a value that is empty, has white space around it, holds an inline comment
marker or a separator after its start, starts with `#`, or is bracketed; and for a value of
two lines in the section without a name. -/
theorem write_read_counterexample :
    (markerConfig.content = [(DEFAULT_SECTION, [("k".toList, "a #b".toList)])] ∧
      markerConfig.write [] = "[DEFAULT]\nk: a #b\n".toList ∧
      (defaultConfig.read (markerConfig.write [])).2 = none ∧
      (defaultConfig.read (markerConfig.write [])).1.content =
        [(DEFAULT_SECTION, [("k".toList, "a".toList)])] ∧
      ¬ roundTrips markerConfig) ∧
    (¬ roundTrips headlessConfig ∧
      ¬ roundTrips (defaultConfig.AddSection " s".toList).1 ∧
      ¬ roundTrips (defaultConfig.AddSection "s\nt".toList).1) ∧
    (¬ roundTrips (defaultConfig.AddOption "s".toList [] "a".toList) ∧
      ¬ roundTrips (defaultConfig.AddOption "s".toList " k".toList "a".toList) ∧
      ¬ roundTrips (defaultConfig.AddOption "s".toList "k\nj".toList "a".toList) ∧
      ¬ roundTrips (defaultConfig.AddOption "s".toList "k=".toList "a".toList) ∧
      ¬ roundTrips (defaultConfig.AddOption "s".toList ";k".toList "a".toList) ∧
      ¬ roundTrips (defaultConfig.AddOption "s".toList "[k".toList "a]".toList)) ∧
    (¬ roundTrips (defaultConfig.AddOption "s".toList "k".toList "a ".toList) ∧
      ¬ roundTrips (defaultConfig.AddOption "s".toList "k".toList "#a".toList)) ∧
    (¬ roundTrips (defaultConfig.AddOption "s".toList "k".toList "a\n\nb".toList) ∧
      ¬ roundTrips (defaultConfig.AddOption "s".toList "k".toList "a\n b".toList) ∧
      ¬ roundTrips (defaultConfig.AddOption "s".toList "k".toList "a\nb #c".toList) ∧
      ¬ roundTrips (defaultConfig.AddOption "s".toList "k".toList "a\nb=c".toList) ∧
      ¬ roundTrips (defaultConfig.AddOption "s".toList "k".toList "a\n#b".toList) ∧
      ¬ roundTrips (defaultConfig.AddOption "s".toList "k".toList "a\n[b]".toList) ∧
      ¬ roundTrips (defaultConfig.AddOption [] "k".toList "a\nb".toList)) := by
  refine ⟨?_, ?_, ?_, ?_, ?_⟩ <;> decide

theorem mapGet_eq_none_iff {α : Type} (m : List (Str × α)) (k : Str) :
    mapGet m k = none ↔ k ∉ m.map (fun e => e.1) := by
  induction m with
  | nil => simp [mapGet]
  | cons e m ih =>
    obtain ⟨k', v'⟩ := e
    by_cases h : k' = k
    · subst h
      rw [mapGet, if_pos rfl]
      constructor
      · intro h'; cases h'
      · intro h'
        exact absurd (List.mem_map.2 ⟨(k', v'), List.mem_cons_self _ _, rfl⟩) h'
    · simp only [mapGet, h, if_false, ih, List.map_cons, List.mem_cons, not_or]
      constructor
      · intro h'; exact ⟨fun e => h e.symm, h'⟩
      · intro h'; exact h'.2

theorem mapSet_absent {α : Type} (m : List (Str × α)) (k : Str) (v : α)
    (h : k ∉ m.map (fun e => e.1)) : mapSet m k v = m ++ [(k, v)] := by
  induction m with
  | nil => rfl
  | cons e m ih =>
    obtain ⟨k', v'⟩ := e
    simp only [List.map_cons, List.mem_cons, not_or] at h
    have hk : k' ≠ k := fun e => h.1 e.symm
    simp [mapSet, hk, ih h.2]

theorem mapSet_keys {α : Type} (m : List (Str × α)) (k : Str) (v : α)
    (h : k ∈ m.map (fun e => e.1)) :
    (mapSet m k v).map (fun e => e.1) = m.map (fun e => e.1) := by
  induction m with
  | nil => simp at h
  | cons e m ih =>
    obtain ⟨k', v'⟩ := e
    by_cases hk : k' = k
    · simp [mapSet, hk]
    · have : k ∈ m.map (fun e => e.1) := by
        simp only [List.map_cons, List.mem_cons] at h
        rcases h with h | h
        · exact absurd h.symm hk
        · exact h
      simp [mapSet, hk, ih this]

theorem mapSet_append_last {α : Type} (a : List (Str × α)) (k : Str) (x y : α)
    (h : k ∉ a.map (fun e => e.1)) : mapSet (a ++ [(k, x)]) k y = a ++ [(k, y)] := by
  induction a with
  | nil => simp [mapSet]
  | cons e a ih =>
    obtain ⟨k', v'⟩ := e
    simp only [List.map_cons, List.mem_cons, not_or] at h
    have hk : k' ≠ k := fun e => h.1 e.symm
    simp [mapSet, hk, ih h.2]

theorem mapGet_append_last {α : Type} (a : List (Str × α)) (k : Str) (x : α)
    (h : k ∉ a.map (fun e => e.1)) : mapGet (a ++ [(k, x)]) k = some x := by
  induction a with
  | nil => simp [mapGet]
  | cons e a ih =>
    obtain ⟨k', v'⟩ := e
    simp only [List.map_cons, List.mem_cons, not_or] at h
    have hk : k' ≠ k := fun e => h.1 e.symm
    simp [mapGet, hk, ih h.2]

theorem mapGet_plain (data : List (Str × List (Str × tValue))) (sec : Str) :
    mapGet (plain data) sec =
      (mapGet data sec).map (fun options => options.map (fun o => (o.1, o.2.v))) := by
  induction data with
  | nil => rfl
  | cons e data ih =>
    obtain ⟨k, options⟩ := e
    by_cases h : k = sec
    · simp [plain, mapGet, h]
    · simp only [plain, List.map_cons, mapGet, h, if_false]
      exact ih

theorem plain_mapSet (data : List (Str × List (Str × tValue))) (sec : Str)
    (options : List (Str × tValue)) :
    plain (mapSet data sec options) =
      mapSet (plain data) sec (options.map (fun o => (o.1, o.2.v))) := by
  induction data with
  | nil => rfl
  | cons e data ih =>
    obtain ⟨k, options'⟩ := e
    by_cases h : k = sec
    · simp [plain, mapSet, h]
    · simp only [plain, List.map_cons, mapSet, h, if_false, List.cons.injEq, true_and]
      exact ih

theorem map_mapSet_value (options : List (Str × tValue)) (option : Str) (tv : tValue) :
    (mapSet options option tv).map (fun o => (o.1, o.2.v)) =
      mapSet (options.map (fun o => (o.1, o.2.v))) option tv.v := by
  induction options with
  | nil => rfl
  | cons e options ih =>
    obtain ⟨k, tv'⟩ := e
    by_cases h : k = option
    · simp [mapSet, h]
    · simp [mapSet, h, ih]

/-- `AddSection` on the data without the positions. -/
theorem plain_AddSection (c : Config) (sec : Str) :
    plain (c.AddSection sec).1.data =
      if (mapGet (plain c.data) sec).isSome then plain c.data
      else mapSet (plain c.data) sec [] := by
  rw [AddSection_data, mapGet_plain]
  cases h : mapGet c.data sec
  · simp [plain_mapSet]
  · simp

/-- `AddOption` on the data without the positions. -/
theorem plain_AddOption (c : Config) (sec option value : Str) :
    plain (c.AddOption sec option value).data =
      mapSet (plain (c.AddSection sec).1.data) sec
        (mapSet ((mapGet (plain c.data) sec).getD []) option value) := by
  obtain ⟨tv, htv, hd⟩ := AddOption_data c sec option value
  rw [hd, plain_mapSet, map_mapSet_value, htv, mapGet_plain]
  cases mapGet c.data sec <;> rfl

/-! ## The order of the Model -/

theorem mem_mapSet {α : Type} (m : List (Str × α)) (k : Str) (v : α) (e : Str × α)
    (h : e ∈ mapSet m k v) : e ∈ m ∨ e = (k, v) := by
  induction m with
  | nil =>
    right
    simpa [mapSet] using h
  | cons e' m ih =>
    obtain ⟨k', v'⟩ := e'
    by_cases hk : k' = k
    · simp only [mapSet, hk, if_true, List.mem_cons] at h
      rcases h with h | h
      · right; exact h
      · left; exact List.mem_cons_of_mem _ h
    · simp only [mapSet, hk, if_false, List.mem_cons] at h
      rcases h with h | h
      · left; rw [h]; exact List.mem_cons_self _ _
      · rcases ih h with h' | h'
        · left; exact List.mem_cons_of_mem _ h'
        · right; exact h'

theorem positions_mapSet_same (options : List (Str × tValue)) (option value : Str)
    (old : tValue) (h : mapGet options option = some old) :
    (mapSet options option { old with v := value }).map (fun o => o.2.position) =
      options.map (fun o => o.2.position) := by
  induction options with
  | nil => simp [mapGet] at h
  | cons e options ih =>
    obtain ⟨k, tv⟩ := e
    by_cases hk : k = option
    · simp only [mapGet, hk, if_true, Option.some.injEq] at h
      subst h
      simp [mapSet, hk]
    · simp only [mapGet, hk, if_false] at h
      simp [mapSet, hk, ih h]

theorem sectionIds_mapSet (c : Config) (data : List (Str × List (Str × tValue))) (sec : Str)
    (options : List (Str × tValue)) (h : sec ∈ data.map (fun e => e.1)) :
    (mapSet data sec options).map (fun e => c.sectionId e.1) =
      data.map (fun e => c.sectionId e.1) := by
  have h1 : ∀ l : List (Str × List (Str × tValue)),
      l.map (fun e => c.sectionId e.1) = (l.map (fun e => e.1)).map c.sectionId := by
    intro l; simp
  rw [h1, h1, mapSet_keys _ _ _ h]

theorem mem_keys_of_mapGet {α : Type} (m : List (Str × α)) (k : Str) (v : α)
    (h : mapGet m k = some v) : k ∈ m.map (fun e => e.1) :=
  List.mem_map.2 ⟨(k, v), mapGet_mem m k v h, rfl⟩

/-- Overwriting the value of an option keeps the order. -/
theorem Ordered_overwrite (c : Config) (sec option value : Str) (options : List (Str × tValue))
    (old : tValue) (h : Ordered c) (hs : mapGet c.data sec = some options)
    (ho : mapGet options option = some old) :
    Ordered { c with
      data := mapSet c.data sec (mapSet options option { old with v := value }) } := by
  obtain ⟨h1, h2, h3, h4⟩ := h
  have hkey := mem_keys_of_mapGet _ _ _ hs
  have hmem := mapGet_mem _ _ _ hs
  refine ⟨?_, ?_, ?_, ?_⟩
  · simp only [uniqueKeys]
    rw [mapSet_keys _ _ _ hkey]
    exact h1
  · have := sectionIds_mapSet c c.data sec (mapSet options option { old with v := value }) hkey
    simp only [Config.sectionId] at this ⊢
    rw [this]
    exact h2
  · intro e he
    rcases mem_mapSet _ _ _ _ he with he | he
    · exact h3 e he
    · rw [he]; exact h3 (sec, options) hmem
  · intro e he
    rcases mem_mapSet _ _ _ _ he with he | he
    · exact h4 e he
    · rw [he]
      simp only [positions_mapSet_same options option value old ho]
      exact h4 _ hmem

/-- Adding a new option at the end of its section, with the next position, keeps the
order. -/
theorem Ordered_append (c : Config) (sec option value : Str) (options : List (Str × tValue))
    (h : Ordered c) (hs : mapGet c.data sec = some options)
    (ho : mapGet options option = none) :
    Ordered { c with
      data := mapSet c.data sec
        (mapSet options option ⟨(mapGet c.lastIdOption sec).getD 0, value⟩)
      lastIdOption := mapSet c.lastIdOption sec ((mapGet c.lastIdOption sec).getD 0 + 1) } := by
  obtain ⟨h1, h2, h3, h4⟩ := h
  have hkey := mem_keys_of_mapGet _ _ _ hs
  have hmem := mapGet_mem _ _ _ hs
  have habs := (mapGet_eq_none_iff _ _).1 ho
  refine ⟨?_, ?_, ?_, ?_⟩
  · simp only [uniqueKeys]
    rw [mapSet_keys _ _ _ hkey]
    exact h1
  · have := sectionIds_mapSet c c.data sec
      (mapSet options option ⟨(mapGet c.lastIdOption sec).getD 0, value⟩) hkey
    simp only [Config.sectionId] at this ⊢
    rw [this]
    exact h2
  · intro e he
    rcases mem_mapSet _ _ _ _ he with he | he
    · exact h3 e he
    · rw [he]; exact h3 (sec, options) hmem
  · intro e he
    have hbound : ∀ e' ∈ c.data, ∀ p ∈ e'.2.map (fun o => o.2.position),
        p < (mapGet (mapSet c.lastIdOption sec ((mapGet c.lastIdOption sec).getD 0 + 1))
          e'.1).getD 0 := by
      intro e' he' p hp
      have := (h4 e' he').2 p hp
      by_cases hsec : e'.1 = sec
      · rw [hsec, mapGet_mapSet_same]
        rw [hsec] at this
        simp only [Option.getD_some]
        omega
      · rw [mapGet_mapSet_ne _ _ _ _ hsec]
        exact this
    rcases mem_mapSet _ _ _ _ he with he | he
    · exact ⟨(h4 e he).1, hbound e he⟩
    · rw [he]
      simp only [mapSet_absent _ _ _ habs, List.map_append, List.map_cons, List.map_nil,
        mapGet_mapSet_same, Option.getD_some]
      constructor
      · rw [List.pairwise_append]
        refine ⟨(h4 _ hmem).1, List.pairwise_singleton _ _, ?_⟩
        intro a ha b hb
        have := (h4 _ hmem).2 a ha
        simp only [List.mem_singleton] at hb
        simp only at this
        omega
      · intro p hp
        rcases List.mem_append.1 hp with hp | hp
        · have := (h4 _ hmem).2 p hp
          simp only at this
          omega
        · simp only [List.mem_singleton] at hp
          omega

theorem Ordered_AddSection (c : Config) (sec : Str) (h : Ordered c) :
    Ordered (c.AddSection sec).1 := by
  unfold Config.AddSection
  cases hs : mapGet c.data sec with
  | some options => exact h
  | none =>
    obtain ⟨h1, h2, h3, h4⟩ := h
    have habs := (mapGet_eq_none_iff _ _).1 hs
    have hid : ∀ e ∈ c.data,
        (mapGet (mapSet c.idSection sec c.lastIdSection) e.1).getD 0 = c.sectionId e.1 := by
      intro e he
      have hne : e.1 ≠ sec := fun heq => habs (heq ▸ List.mem_map.2 ⟨e, he, rfl⟩)
      rw [mapGet_mapSet_ne _ _ _ _ hne]
      rfl
    simp only []
    refine ⟨?_, ?_, ?_, ?_⟩
    · simp only [uniqueKeys, mapSet_absent _ _ _ habs, List.map_append, List.map_cons,
        List.map_nil]
      exact List.Nodup.append h1 (List.nodup_singleton _) (List.disjoint_singleton.2 habs)
    · simp only [Config.sectionId, mapSet_absent _ _ _ habs, List.map_append, List.map_cons,
        List.map_nil, mapGet_mapSet_same, Option.getD_some]
      rw [List.map_congr_left hid, List.pairwise_append]
      refine ⟨h2, List.pairwise_singleton _ _, ?_⟩
      intro a ha b hb
      obtain ⟨e, he, rfl⟩ := List.mem_map.1 ha
      have := h3 e he
      simp only [List.mem_singleton] at hb
      omega
    · intro e he
      simp only [mapSet_absent _ _ _ habs, List.mem_append, List.mem_singleton] at he
      simp only [Config.sectionId]
      rcases he with he | he
      · rw [hid e he]
        have := h3 e he
        omega
      · rw [he, mapGet_mapSet_same]
        simp
    · intro e he
      simp only [mapSet_absent _ _ _ habs, List.mem_append, List.mem_singleton] at he
      rcases he with he | he
      · exact h4 e he
      · rw [he]
        simp

theorem AddOption_eq (c : Config) (sec option value : Str) :
    c.AddOption sec option value =
      match mapGet ((mapGet (c.AddSection sec).1.data sec).getD []) option with
      | some old =>
        { (c.AddSection sec).1 with
          data := mapSet (c.AddSection sec).1.data sec
            (mapSet ((mapGet (c.AddSection sec).1.data sec).getD []) option
              { old with v := value }) }
      | none =>
        { (c.AddSection sec).1 with
          data := mapSet (c.AddSection sec).1.data sec
            (mapSet ((mapGet (c.AddSection sec).1.data sec).getD []) option
              ⟨(mapGet (c.AddSection sec).1.lastIdOption sec).getD 0, value⟩)
          lastIdOption := mapSet (c.AddSection sec).1.lastIdOption sec
            ((mapGet (c.AddSection sec).1.lastIdOption sec).getD 0 + 1) } := rfl

theorem Ordered_AddOption (c : Config) (sec option value : Str) (h : Ordered c) :
    Ordered (c.AddOption sec option value) := by
  have h1 := Ordered_AddSection c sec h
  have hs := AddSection_mapGet c sec
  rw [AddOption_eq, hs]
  simp only [Option.getD_some]
  cases ho : mapGet ((mapGet c.data sec).getD []) option with
  | some old => exact Ordered_overwrite _ sec option value _ old h1 hs ho
  | none => exact Ordered_append _ sec option value _ h1 hs ho

/-- In a Model in order, the sections and the options stand as they are stored. -/
theorem content_of_Ordered (c : Config) (h : Ordered c) : c.content = plain c.data := by
  obtain ⟨h1, h2, -, h4⟩ := h
  have hsec : c.Sections = c.data.map (fun e => e.1) := by
    unfold Config.Sections
    apply List.Sorted.insertionSort_eq
    have := List.pairwise_map.1 h2
    exact List.pairwise_map.2 this
  have hopt : ∀ e ∈ c.data, c.Options e.1 = e.2.map (fun o => (o.1, o.2.v)) := by
    intro e he
    unfold Config.Options
    rw [mapGet_of_mem c.data e.1 e.2 h1 he]
    simp only [Option.getD_some]
    rw [List.Sorted.insertionSort_eq]
    exact List.pairwise_map.1 (h4 e he).1
  unfold Config.content plain
  rw [hsec, List.map_map]
  apply List.map_congr_left
  intro e he
  simp only [Function.comp, hopt e he]

theorem Ordered_readLine (c c' : Config) (sec option l sec' option' : Str) (h : Ordered c)
    (hl : c.readLine sec option l = .ok (c', sec', option')) : Ordered c' := by
  rw [readLine_eq] at hl
  split at hl
  · cases hl; exact h
  · split at hl
    · cases hl; exact Ordered_AddSection _ _ h
    · split at hl
      · cases hl; exact Ordered_AddOption _ _ _ _ h
      · split at hl
        · cases hl; exact Ordered_AddOption _ _ _ _ h
        · cases hl

theorem Ordered_defaultData (c : Config) (hd : c.data = [(DEFAULT_SECTION, [])])
    (hi : c.idSection = [(DEFAULT_SECTION, 0)]) (hl : c.lastIdSection = 1) : Ordered c := by
  refine ⟨?_, ?_, ?_, ?_⟩
  · simp [uniqueKeys, hd]
  · simp [hd]
  · intro e he
    rw [hd] at he
    simp only [List.mem_singleton] at he
    subst he
    simp [Config.sectionId, hi, hl, mapGet]
  · intro e he
    rw [hd] at he
    simp only [List.mem_singleton] at he
    subst he
    simp

/-! ## The lines the writer emits, read back -/

theorem TrimSpace_fixed (v : Str) (h : TrimSpace v = v) :
    v.dropWhile isSpace = v ∧ v.rdropWhile isSpace = v := by
  cases v with
  | nil => simp [List.rdropWhile]
  | cons a r =>
    rcases TrimSpace_head (a :: r) with h0 | ⟨a', r', h1, ha⟩
    · rw [h] at h0; cases h0
    · rw [h] at h1
      cases h1
      have hd : (a :: r).dropWhile isSpace = a :: r := by simp [List.dropWhile, ha]
      refine ⟨hd, ?_⟩
      have := h
      unfold TrimSpace at this
      rw [hd] at this
      exact this

theorem rdropWhile_append_neg (p : Char → Bool) (X Y : Str) (b : Char) (hb : p b = false) :
    (X ++ b :: Y).rdropWhile p = X ++ b :: Y.rdropWhile p := by
  induction Y using List.reverseRecOn with
  | nil =>
    rw [List.rdropWhile_nil]
    exact List.rdropWhile_concat_neg _ _ _ (by simp [hb])
  | append_singleton Y y ih =>
    have e : X ++ b :: (Y ++ [y]) = (X ++ b :: Y) ++ [y] := by simp
    by_cases hy : p y = true
    · rw [e, List.rdropWhile_concat_pos _ _ _ hy, List.rdropWhile_concat_pos _ _ _ hy, ih]
    · rw [e, List.rdropWhile_concat_neg _ _ _ hy, List.rdropWhile_concat_neg _ _ _ hy]
      simp

theorem rdropWhile_append_self (p : Char → Bool) (X Z : Str) (hZ : Z ≠ [])
    (h : Z.rdropWhile p = Z) : (X ++ Z).rdropWhile p = X ++ Z := by
  rw [List.rdropWhile_eq_self_iff] at h ⊢
  intro hl
  rw [List.getLast_append_of_ne_nil hZ]
  exact h hZ

theorem isSpace_space : isSpace ' ' = true := by decide

theorem rdropWhile_spaceIf (b : Bool) : (spaceIf b).rdropWhile isSpace = [] := by
  cases b
  · rfl
  · decide

theorem TrimSpace_spaceIf_append (b : Bool) (v : Str) : TrimSpace (spaceIf b ++ v) = TrimSpace v := by
  cases b
  · rfl
  · exact TrimSpace_cons_of_pos ' ' v isSpace_space

theorem TrimSpace_append_spaceIf (b : Bool) (v : Str) : TrimSpace (v ++ spaceIf b) = TrimSpace v := by
  cases b
  · simp [spaceIf]
  · exact TrimSpace_append_space v ' ' isSpace_space

theorem isSeparator_not_space (b : Char) (h : isSeparator b) : isSpace b = false := by
  rcases h with rfl | rfl <;> decide

theorem IndexAny_append (X R : Str) (b : Char) (chars : Str) (hX : ∀ x ∈ X, x ∉ chars)
    (hb : b ∈ chars) : IndexAny (X ++ b :: R) chars = X.length := by
  induction X with
  | nil => simp [IndexAny, hb]
  | cons x X ih =>
    have hx : x ∉ chars := hX x (by simp)
    have hi := ih (fun y hy => hX y (by simp [hy]))
    have hne : (X.length : Int) ≠ -1 := by omega
    change IndexAny (x :: (X ++ b :: R)) chars = _
    rw [IndexAny, if_neg hx]
    simp only [hi, if_neg hne]
    simp

theorem mem_separators (ch : Char) : ch ∈ "=:".toList ↔ isSeparator ch := by
  simp [isSeparator]

/-- The header line the writer emits for a section is read as the header of that section. -/
theorem readLine_written_header (c : Config) (sec option name : Str) (h : cleanSection name) :
    c.readLine sec option ("[".toList ++ name ++ "]\n".toList) =
      .ok ((c.AddSection name).1, name, []) := by
  have ht : TrimSpace ("[".toList ++ name ++ "]\n".toList) = '[' :: name ++ [']'] := by
    have e : "[".toList ++ name ++ "]\n".toList = ('[' :: name ++ [']']) ++ ['\n'] := by simp
    rw [e, TrimSpace_newline]
    have e2 : '[' :: name ++ [']'] = '[' :: (name ++ [']']) := rfl
    rw [e2, TrimSpace_cons_of_neg _ _ (by decide),
      List.rdropWhile_concat_neg _ _ _ (by decide)]
  have := readLine_header c sec option _ name ht
  rw [h.1] at this
  exact this

theorem head_of_trimmed (v : Str) (hne : v ≠ []) (h : TrimSpace v = v) :
    ∃ a r, v = a :: r ∧ isSpace a = false := by
  rcases TrimSpace_head v with h0 | ⟨a, r, h1, ha⟩
  · rw [h] at h0; exact absurd h0 hne
  · rw [h] at h1; exact ⟨a, r, h1, ha⟩

/-- The value an option line gives back, from the text that follows the separator. -/
theorem written_value (post : Bool) (v0 : Str) (hv : cleanFirstLine (spaceIf post) v0) :
    TrimSpace (cutInlineComment ((spaceIf post ++ v0).rdropWhile isSpace)) = v0 := by
  obtain ⟨h1, h2⟩ := hv
  by_cases hne : v0 = []
  · subst hne
    rw [List.append_nil, rdropWhile_spaceIf]
    rfl
  · rw [rdropWhile_append_self _ _ _ hne (TrimSpace_fixed v0 h1).2, h2,
      TrimSpace_spaceIf_append, h1]

/-- The first line the writer emits for an option is read as that option with the first
line of its value. -/
theorem readLine_written_option (c : Config) (sec option name v0 : Str) (pre post : Bool)
    (b : Char) (hb : isSeparator b) (hname : cleanOption name)
    (hv : cleanFirstLine (spaceIf post) v0)
    (hline : ¬ (name.head? = some '[' ∧ v0.getLast? = some ']')) :
    c.readLine sec option
        (name ++ (spaceIf pre ++ [b] ++ spaceIf post) ++ v0 ++ "\n".toList) =
      .ok (c.AddOption sec name v0, sec, name) := by
  obtain ⟨hne, htrim, -, hsep, hc1, hc2⟩ := hname
  obtain ⟨a, n', hn, ha⟩ := head_of_trimmed name hne htrim
  have e : name ++ (spaceIf pre ++ [b] ++ spaceIf post) ++ v0 ++ "\n".toList =
      ((name ++ spaceIf pre) ++ b :: (spaceIf post ++ v0)) ++ ['\n'] := by simp
  have ht : TrimSpace (name ++ (spaceIf pre ++ [b] ++ spaceIf post) ++ v0 ++ "\n".toList) =
      (name ++ spaceIf pre) ++ b :: (spaceIf post ++ v0).rdropWhile isSpace := by
    rw [e, TrimSpace_newline]
    have e2 : (name ++ spaceIf pre) ++ b :: (spaceIf post ++ v0) =
        a :: ((n' ++ spaceIf pre) ++ b :: (spaceIf post ++ v0)) := by simp [hn]
    rw [e2, TrimSpace_cons_of_neg _ _ ha,
      rdropWhile_append_neg _ _ _ _ (isSeparator_not_space b hb)]
    simp [hn]
  have hhead : (TrimSpace (name ++ (spaceIf pre ++ [b] ++ spaceIf post) ++ v0 ++
      "\n".toList)).head? = name.head? := by
    rw [ht, hn]; rfl
  have hcomment : ¬ isComment (TrimSpace (name ++ (spaceIf pre ++ [b] ++ spaceIf post) ++ v0 ++
      "\n".toList)) := by
    rintro (h | h | h)
    · rw [ht, hn] at h; cases h
    · rw [hhead] at h; exact hc1 h
    · rw [hhead] at h; exact hc2 h
  have hheader : ¬ isHeader (TrimSpace (name ++ (spaceIf pre ++ [b] ++ spaceIf post) ++ v0 ++
      "\n".toList)) := by
    rintro ⟨h, hlast⟩
    rw [hhead] at h
    apply hline
    refine ⟨h, ?_⟩
    rw [ht] at hlast
    by_cases hv0 : v0 = []
    · subst hv0
      rw [List.append_nil, rdropWhile_spaceIf] at hlast
      rw [List.getLast?_concat] at hlast
      rcases hb with rfl | rfl <;> cases hlast
    · rw [rdropWhile_append_self _ _ _ hv0 (TrimSpace_fixed v0 hv.1).2] at hlast
      have e5 : (name ++ spaceIf pre) ++ b :: (spaceIf post ++ v0) =
          ((name ++ spaceIf pre) ++ b :: spaceIf post) ++ v0 := by simp
      rw [e5, List.getLast?_append_of_ne_nil _ hv0] at hlast
      exact hlast
  have hlen : 0 < (name ++ spaceIf pre).length := by
    rw [hn]; simp
  have hidx : IndexAny (TrimSpace (name ++ (spaceIf pre ++ [b] ++ spaceIf post) ++ v0 ++
      "\n".toList)) "=:".toList = ((name ++ spaceIf pre).length : Nat) := by
    rw [ht]
    apply IndexAny_append
    · intro x hx hmem
      rcases List.mem_append.1 hx with hx | hx
      · exact hsep x hx ((mem_separators x).1 hmem)
      · cases pre
        · simp [spaceIf] at hx
        · simp [spaceIf] at hx
          subst hx
          simp at hmem
    · exact (mem_separators b).2 hb
  rw [readLine_option_case c sec option _ _ hcomment hheader hlen hidx, ht, List.take_left]
  have hdrop : List.drop ((name ++ spaceIf pre).length + 1)
      ((name ++ spaceIf pre) ++ b :: (spaceIf post ++ v0).rdropWhile isSpace) =
      (spaceIf post ++ v0).rdropWhile isSpace := by
    have e3 : (name ++ spaceIf pre) ++ b :: (spaceIf post ++ v0).rdropWhile isSpace =
        ((name ++ spaceIf pre) ++ [b]) ++ (spaceIf post ++ v0).rdropWhile isSpace := by simp
    rw [e3]
    exact List.drop_left' (by simp [Nat.add_assoc])
  rw [hdrop, written_value post v0 hv, TrimSpace_append_spaceIf, htrim]

/-- A further line of a value the writer emits is read as a continuation. -/
theorem readLine_written_next (c : Config) (sec option v prev : Str) (hsec : sec ≠ [])
    (hopt : option ≠ []) (hv : cleanNextLine v) (hprev : c.RawString sec option = .ok prev) :
    c.readLine sec option (v ++ "\n".toList) =
      .ok (c.AddOption sec option (prev ++ "\n".toList ++ v), sec, option) := by
  obtain ⟨hne, htrim, hcut, hsep, hc1, hc2, hc3⟩ := hv
  have hidx : IndexAny v "=:".toList ≤ 0 := by
    rcases hsep with hsep | hsep | hsep
    · exact IndexAny_le_zero_of_none v hsep
    · cases v with
      | nil => cases hsep
      | cons ch r =>
        simp only [List.head?_cons, Option.some.injEq] at hsep
        subst hsep
        simp [IndexAny]
    · cases v with
      | nil => cases hsep
      | cons ch r =>
        simp only [List.head?_cons, Option.some.injEq] at hsep
        subst hsep
        simp [IndexAny]
  have ht : TrimSpace (v ++ "\n".toList) = v := by
    have : v ++ "\n".toList = v ++ ['\n'] := rfl
    rw [this, TrimSpace_newline, htrim]
  have hcomment : ¬ isComment (TrimSpace (v ++ "\n".toList)) := by
    rw [ht]
    rintro (h | h | h)
    · exact hne h
    · exact hc1 h
    · exact hc2 h
  have hheader : ¬ isHeader (TrimSpace (v ++ "\n".toList)) := by
    rw [ht]
    exact hc3
  have h := readLine_other_case c sec option (v ++ "\n".toList) hcomment hheader
    (by rw [ht]; exact hidx)
  rw [if_pos ⟨hsec, hopt⟩, hprev, ht, hcut, htrim] at h
  exact h

/-! ## The text the writer emits, cut into lines -/

theorem splitNL_cons (v : Str) : splitNL v = (splitNL v).headD [] :: (splitNL v).tail := by
  induction v with
  | nil => rfl
  | cons ch v ih =>
    by_cases h : ch = '\n'
    · simp [splitNL, h]
    · rw [splitNL, if_neg h, ih]
      rfl

theorem joinLines_cons (acc l : Str) (ls : List Str) :
    joinLines acc (l :: ls) = joinLines (acc ++ "\n".toList ++ l) ls := rfl

theorem joinLines_cons_left (ch : Char) (acc : Str) (ls : List Str) :
    joinLines (ch :: acc) ls = ch :: joinLines acc ls := by
  induction ls generalizing acc with
  | nil => rfl
  | cons l ls ih =>
    rw [joinLines_cons, joinLines_cons, ← ih]
    rfl

/-- The lines of a value, put together with newlines, are the value. -/
theorem joinLines_splitNL (v : Str) : joinLines ((splitNL v).headD []) (splitNL v).tail = v := by
  induction v with
  | nil => rfl
  | cons ch v ih =>
    by_cases h : ch = '\n'
    · subst h
      have e : splitNL ('\n' :: v) = [] :: splitNL v := by simp [splitNL]
      rw [e]
      simp only [List.headD_cons, List.tail_cons]
      rw [splitNL_cons v, joinLines_cons]
      have : ([] : Str) ++ "\n".toList ++ (splitNL v).headD [] = '\n' :: (splitNL v).headD [] := rfl
      rw [this, joinLines_cons_left, ih]
    · have e : splitNL (ch :: v) = (ch :: (splitNL v).headD []) :: (splitNL v).tail := by
        rw [splitNL, if_neg h, splitNL_cons v]
        rfl
      rw [e]
      simp only [List.headD_cons, List.tail_cons]
      rw [joinLines_cons_left, ih]

theorem readStrings_value (cur v : Str) :
    readStrings cur (v ++ ['\n']) =
      ((cur ++ (splitNL v).headD [] ++ ['\n']) :: (splitNL v).tail.map (fun l => l ++ ['\n']),
        []) := by
  induction v generalizing cur with
  | nil => simp [readStrings, splitNL]
  | cons ch v ih =>
    obtain ⟨h0, t0, hs⟩ : ∃ h0 t0, splitNL v = h0 :: t0 := ⟨_, _, splitNL_cons v⟩
    by_cases h : ch = '\n'
    · subst h
      have e : splitNL ('\n' :: v) = [] :: h0 :: t0 := by simp [splitNL, hs]
      have ih' := ih []
      rw [hs] at ih'
      rw [e]
      change readStrings cur ('\n' :: (v ++ ['\n'])) = _
      rw [readStrings, if_pos rfl, ih']
      simp
    · have e : splitNL (ch :: v) = (ch :: h0) :: t0 := by
        rw [splitNL, if_neg h, hs]
      have ih' := ih (cur ++ [ch])
      rw [hs] at ih'
      rw [e]
      change readStrings cur (ch :: (v ++ ['\n'])) = _
      rw [readStrings, if_neg h, ih']
      simp

theorem readStrings_chunks (a b : Str) (la : List Str) (ha : readStrings [] a = (la, [])) :
    readStrings [] (a ++ b) = (la ++ (readStrings [] b).1, (readStrings [] b).2) := by
  rw [readStrings_append, ha]

theorem readStrings_flatMap {α : Type} (xs : List α) (text : α → Str) (lines : α → List Str)
    (h : ∀ x ∈ xs, readStrings [] (text x) = (lines x, [])) :
    readStrings [] (xs.flatMap text) = (xs.flatMap lines, []) := by
  induction xs with
  | nil => rfl
  | cons x xs ih =>
    rw [List.flatMap_cons, List.flatMap_cons,
      readStrings_chunks _ _ _ (h x (List.mem_cons_self _ _)),
      ih (fun y hy => h y (List.mem_cons_of_mem _ hy))]

theorem not_mem_spaceIf (b : Bool) : '\n' ∉ spaceIf b := by
  cases b <;> decide

/-- The text of an option, cut into lines. -/
theorem readStrings_writeOption (separator : Str) (o : Str × Str) (hname : '\n' ∉ o.1)
    (hsep : '\n' ∉ separator) :
    readStrings [] (writeOption separator o) = (optionLines separator o, []) := by
  have e : writeOption separator o = (o.1 ++ separator) ++ (o.2 ++ ['\n']) := by
    simp [writeOption]
  have hno : '\n' ∉ o.1 ++ separator := by
    intro h
    rcases List.mem_append.1 h with h | h
    · exact hname h
    · exact hsep h
  rw [e, readStrings_append, readStrings_noline [] _ hno]
  simp only [List.nil_append, readStrings_value]
  rfl

/-- The text of a section, cut into lines. -/
theorem readStrings_writeSection (separator : Str) (e : Str × List (Str × Str))
    (hsec : '\n' ∉ e.1) (hnames : ∀ o ∈ e.2, '\n' ∉ o.1) (hsep : '\n' ∉ separator) :
    readStrings [] (writeSection separator e) = (sectionLines separator e, []) := by
  have e1 : writeSection separator e =
      (("[".toList ++ e.1 ++ "]".toList) ++ ['\n']) ++ e.2.flatMap (writeOption separator) := by
    simp [writeSection]
  have hno : '\n' ∉ "[".toList ++ e.1 ++ "]".toList := by
    intro h
    simp only [List.mem_append] at h
    rcases h with (h | h) | h
    · revert h; decide
    · exact hsec h
    · revert h; decide
  rw [e1, readStrings_chunks _ _ _ (readStrings_line [] _ hno),
    readStrings_flatMap _ _ (optionLines separator)
      (fun o ho => readStrings_writeOption separator o (hnames o ho) hsep)]
  simp [sectionLines]

/-! ## The Model while the written text is read -/

theorem mapGet_map_value (options : List (Str × tValue)) (option : Str) :
    mapGet (options.map (fun o => (o.1, o.2.v))) option =
      (mapGet options option).map (fun tv => tv.v) := by
  induction options with
  | nil => rfl
  | cons e options ih =>
    obtain ⟨k, tv⟩ := e
    by_cases h : k = option
    · simp [mapGet, h]
    · simp only [List.map_cons, mapGet, h, if_false]
      exact ih

theorem lookup_plain (data : List (Str × List (Str × tValue))) (sec option : Str) :
    lookup data sec option = (mapGet (plain data) sec).bind (fun options => mapGet options option) := by
  rw [mapGet_plain, lookup]
  cases mapGet data sec with
  | none => rfl
  | some options => simp [mapGet_map_value]

theorem RawString_of_plain (c : Config) (done : List (Str × List (Str × Str)))
    (options : List (Str × Str)) (sec option prev : Str)
    (hp : plain c.data = done ++ [(sec, options ++ [(option, prev)])])
    (hs : sec ∉ done.map (fun e => e.1)) (ho : option ∉ options.map (fun e => e.1)) :
    c.RawString sec option = .ok prev := by
  rw [RawString_ok_iff, lookup_plain, hp, mapGet_append_last _ _ _ hs]
  simp only [Option.some_bind]
  exact mapGet_append_last _ _ _ ho

theorem plain_AddSection_new (c : Config) (done : List (Str × List (Str × Str))) (sec : Str)
    (hp : plain c.data = done) (hs : sec ∉ done.map (fun e => e.1)) :
    plain (c.AddSection sec).1.data = done ++ [(sec, [])] := by
  rw [plain_AddSection, hp, (mapGet_eq_none_iff done sec).2 hs]
  simp only [Option.isSome_none, Bool.false_eq_true, if_false]
  exact mapSet_absent _ _ _ hs

theorem plain_AddSection_last (c : Config) (done : List (Str × List (Str × Str))) (sec : Str)
    (options : List (Str × Str)) (hp : plain c.data = done ++ [(sec, options)])
    (hs : sec ∉ done.map (fun e => e.1)) :
    plain (c.AddSection sec).1.data = done ++ [(sec, options)] := by
  rw [plain_AddSection, hp, mapGet_append_last _ _ _ hs]
  rfl

theorem plain_AddOption_new (c : Config) (done : List (Str × List (Str × Str)))
    (options : List (Str × Str)) (sec option value : Str)
    (hp : plain c.data = done ++ [(sec, options)])
    (hs : sec ∉ done.map (fun e => e.1)) (ho : option ∉ options.map (fun e => e.1)) :
    plain (c.AddOption sec option value).data = done ++ [(sec, options ++ [(option, value)])] := by
  rw [plain_AddOption, plain_AddSection_last c done sec options hp hs, hp,
    mapGet_append_last _ _ _ hs, mapSet_append_last _ _ _ _ hs]
  simp only [Option.getD_some]
  rw [mapSet_absent _ _ _ ho]

theorem plain_AddOption_last (c : Config) (done : List (Str × List (Str × Str)))
    (options : List (Str × Str)) (sec option prev value : Str)
    (hp : plain c.data = done ++ [(sec, options ++ [(option, prev)])])
    (hs : sec ∉ done.map (fun e => e.1)) (ho : option ∉ options.map (fun e => e.1)) :
    plain (c.AddOption sec option value).data = done ++ [(sec, options ++ [(option, value)])] := by
  rw [plain_AddOption, plain_AddSection_last c done sec _ hp hs, hp,
    mapGet_append_last _ _ _ hs, mapSet_append_last _ _ _ _ hs]
  simp only [Option.getD_some]
  rw [mapSet_append_last _ _ _ _ ho]

/-- The further lines of a value, read after its first line, extend the value. -/
theorem readLoop_written_next (done : List (Str × List (Str × Str)))
    (options : List (Str × Str)) (sec option : Str) (hopt : option ≠ [])
    (hs : sec ∉ done.map (fun e => e.1)) (ho : option ∉ options.map (fun e => e.1))
    (rest : List Str) (hsec : sec = [] → rest = []) (hrest : ∀ l ∈ rest, cleanNextLine l)
    (c : Config) (prev : Str)
    (hc : Ordered c) (hp : plain c.data = done ++ [(sec, options ++ [(option, prev)])]) :
    ∃ c', c.readLoop sec option (rest.map (fun l => l ++ "\n".toList)) = (c', sec, option, none) ∧
      Ordered c' ∧
      plain c'.data = done ++ [(sec, options ++ [(option, joinLines prev rest)])] := by
  induction rest generalizing c prev with
  | nil => exact ⟨c, rfl, hc, hp⟩
  | cons l rest ih =>
    have hsec' : sec ≠ [] := fun h0 => List.cons_ne_nil _ _ (hsec h0)
    have hl := readLine_written_next c sec option l prev hsec' hopt (hrest l (by simp))
      (RawString_of_plain c done options sec option prev hp hs ho)
    obtain ⟨c', h1, h2, h3⟩ := ih (fun h0 => absurd h0 hsec')
      (fun l' hl' => hrest l' (by simp [hl']))
      (c.AddOption sec option (prev ++ "\n".toList ++ l)) (prev ++ "\n".toList ++ l)
      (Ordered_AddOption _ _ _ _ hc)
      (plain_AddOption_last c done options sec option prev _ hp hs ho)
    refine ⟨c', ?_, h2, h3⟩
    simp only [List.map_cons, Config.readLoop, hl]
    exact h1

/-- The lines of an option, read in its section, add the option with its value at the end
of the section. -/
theorem readLoop_written_option (done : List (Str × List (Str × Str)))
    (options : List (Str × Str)) (sec tracked : Str) (pre post : Bool) (b : Char)
    (hb : isSeparator b) (hs : sec ∉ done.map (fun e => e.1))
    (o : Str × Str) (ho : o.1 ∉ options.map (fun e => e.1)) (hname : cleanOption o.1)
    (hvalue : cleanValue (spaceIf post) sec o.1 o.2) (c : Config) (hc : Ordered c)
    (hp : plain c.data = done ++ [(sec, options)]) :
    ∃ c', c.readLoop sec tracked (optionLines (spaceIf pre ++ [b] ++ spaceIf post) o) =
        (c', sec, o.1, none) ∧
      Ordered c' ∧ plain c'.data = done ++ [(sec, options ++ [o])] := by
  obtain ⟨name, value⟩ := o
  have hl := readLine_written_option c sec tracked name ((splitNL value).headD []) pre post b hb
    hname hvalue.1 hvalue.2.1
  obtain ⟨c', h1, h2, h3⟩ := readLoop_written_next done options sec name hname.1 hs ho
    (splitNL value).tail hvalue.2.2.2 hvalue.2.2.1
    (c.AddOption sec name ((splitNL value).headD []))
    ((splitNL value).headD []) (Ordered_AddOption _ _ _ _ hc)
    (plain_AddOption_new c done options sec name _ hp hs ho)
  rw [joinLines_splitNL] at h3
  refine ⟨c', ?_, h2, h3⟩
  simp only [optionLines, Config.readLoop, hl]
  exact h1

/-- The lines of the options of a section, read in that section, add the options in their
order at the end of the section. -/
theorem readLoop_written_options (done : List (Str × List (Str × Str))) (sec : Str)
    (pre post : Bool) (b : Char) (hb : isSeparator b)
    (hs : sec ∉ done.map (fun e => e.1)) (todo options : List (Str × Str))
    (hnodup : ((options ++ todo).map (fun e => e.1)).Nodup)
    (hclean : ∀ o ∈ todo, cleanOption o.1 ∧ cleanValue (spaceIf post) sec o.1 o.2)
    (c : Config) (tracked : Str) (hc : Ordered c)
    (hp : plain c.data = done ++ [(sec, options)]) :
    ∃ c' tracked', c.readLoop sec tracked
        (todo.flatMap (optionLines (spaceIf pre ++ [b] ++ spaceIf post))) =
        (c', sec, tracked', none) ∧
      Ordered c' ∧ plain c'.data = done ++ [(sec, options ++ todo)] := by
  induction todo generalizing options c tracked with
  | nil => exact ⟨c, tracked, rfl, hc, by simpa using hp⟩
  | cons o todo ih =>
    have ho : o.1 ∉ options.map (fun e => e.1) := by
      intro hmem
      rw [List.map_append, List.map_cons] at hnodup
      exact (List.nodup_cons.1 (List.nodup_middle.1 hnodup)).1 (List.mem_append_left _ hmem)
    obtain ⟨c1, h1, h2, h3⟩ := readLoop_written_option done options sec tracked pre post b hb
      hs o ho (hclean o (by simp)).1 (hclean o (by simp)).2 c hc hp
    obtain ⟨c', tracked', h4, h5, h6⟩ := ih (options ++ [o])
      (by simpa using hnodup) (fun o' ho' => hclean o' (by simp [ho'])) c1 o.1 h2 h3
    refine ⟨c', tracked', ?_, h5, by simpa using h6⟩
    rw [List.flatMap_cons, readLoop_append, h1]
    exact h4

/-- The lines of a section, read when the section is the last of the Model and empty once
its header is read, fill the section. -/
theorem readLoop_written_section (done : List (Str × List (Str × Str)))
    (pre post : Bool) (b : Char) (hb : isSeparator b) (e : Str × List (Str × Str))
    (hs : e.1 ∉ done.map (fun e => e.1)) (hsec : cleanSection e.1)
    (hnodup : (e.2.map (fun o => o.1)).Nodup)
    (hclean : ∀ o ∈ e.2, cleanOption o.1 ∧ cleanValue (spaceIf post) e.1 o.1 o.2)
    (c : Config) (sec tracked : Str) (hc : Ordered c)
    (hp : plain (c.AddSection e.1).1.data = done ++ [(e.1, [])]) :
    ∃ c' tracked', c.readLoop sec tracked
        (sectionLines (spaceIf pre ++ [b] ++ spaceIf post) e) = (c', e.1, tracked', none) ∧
      Ordered c' ∧ plain c'.data = done ++ [e] := by
  have hl := readLine_written_header c sec tracked e.1 hsec
  obtain ⟨c', tracked', h1, h2, h3⟩ := readLoop_written_options done e.1 pre post b hb hs
    e.2 [] (by simpa using hnodup) hclean (c.AddSection e.1).1 [] (Ordered_AddSection _ _ hc) hp
  refine ⟨c', tracked', ?_, h2, by simpa using h3⟩
  simp only [sectionLines, Config.readLoop, hl]
  exact h1

/-- The lines of sections that the Model does not have yet add them in their order. -/
theorem readLoop_written_sections (pre post : Bool) (b : Char) (hb : isSeparator b)
    (todo done : List (Str × List (Str × Str)))
    (hnodup : ((done ++ todo).map (fun e => e.1)).Nodup)
    (hclean : cleanModel (spaceIf post) todo)
    (hopts : ∀ e ∈ todo, (e.2.map (fun o => o.1)).Nodup)
    (c : Config) (sec tracked : Str) (hc : Ordered c) (hp : plain c.data = done) :
    ∃ c' sec' tracked', c.readLoop sec tracked
        (todo.flatMap (sectionLines (spaceIf pre ++ [b] ++ spaceIf post))) =
        (c', sec', tracked', none) ∧
      Ordered c' ∧ plain c'.data = done ++ todo := by
  induction todo generalizing done c sec tracked with
  | nil => exact ⟨c, sec, tracked, rfl, hc, by simpa using hp⟩
  | cons e todo ih =>
    have hs : e.1 ∉ done.map (fun e => e.1) := by
      intro hmem
      rw [List.map_append, List.map_cons] at hnodup
      exact (List.nodup_cons.1 (List.nodup_middle.1 hnodup)).1 (List.mem_append_left _ hmem)
    obtain ⟨c1, t1, h1, h2, h3⟩ := readLoop_written_section done pre post b hb e hs
      (hclean e (by simp)).1 (hopts e (by simp)) (hclean e (by simp)).2 c sec tracked hc
      (plain_AddSection_new c done e.1 hp hs)
    obtain ⟨c', sec', tracked', h4, h5, h6⟩ := ih (done ++ [e]) (by simpa using hnodup)
      (fun e' he' => hclean e' (by simp [he'])) (fun e' he' => hopts e' (by simp [he']))
      c1 e.1 t1 h2 h3
    refine ⟨c', sec', tracked', ?_, h5, by simpa using h6⟩
    rw [List.flatMap_cons, readLoop_append, h1]
    exact h4

/-- The lines of a Model whose first section is the one a new Model has are read back as that
Model. -/
theorem readLoop_written_model (pre post : Bool) (b : Char) (hb : isSeparator b)
    (first : Str × List (Str × Str)) (rest : List (Str × List (Str × Str)))
    (hnodup : (((first :: rest)).map (fun e => e.1)).Nodup)
    (hclean : cleanModel (spaceIf post) (first :: rest))
    (hopts : ∀ e ∈ first :: rest, (e.2.map (fun o => o.1)).Nodup)
    (c : Config) (sec tracked : Str) (hc : Ordered c) (hp : plain c.data = [(first.1, [])]) :
    ∃ c' sec' tracked', c.readLoop sec tracked
        ((first :: rest).flatMap (sectionLines (spaceIf pre ++ [b] ++ spaceIf post))) =
        (c', sec', tracked', none) ∧
      Ordered c' ∧ plain c'.data = first :: rest := by
  obtain ⟨c1, t1, h1, h2, h3⟩ := readLoop_written_section [] pre post b hb first (by simp)
    (hclean first (by simp)).1 (hopts first (by simp)) (hclean first (by simp)).2 c sec tracked
    hc (plain_AddSection_last c [] first.1 [] hp (by simp))
  obtain ⟨c', sec', tracked', h4, h5, h6⟩ := readLoop_written_sections pre post b hb rest
    [first] (by simpa using hnodup) (fun e' he' => hclean e' (by simp [he']))
    (fun e' he' => hopts e' (by simp [he'])) c1 first.1 t1 h2 (by simpa using h3)
  refine ⟨c', sec', tracked', ?_, h5, by simpa using h6⟩
  rw [List.flatMap_cons, readLoop_append, h1]
  exact h4

theorem splitNL_no_newline (v : Str) : ∀ l ∈ splitNL v, '\n' ∉ l := by
  induction v with
  | nil =>
    intro l hl
    simp only [splitNL, List.mem_singleton] at hl
    subst hl
    exact List.not_mem_nil _
  | cons ch v ih =>
    obtain ⟨h0, t0, hs⟩ : ∃ h0 t0, splitNL v = h0 :: t0 := ⟨_, _, splitNL_cons v⟩
    rw [hs] at ih
    intro l hl
    by_cases h : ch = '\n'
    · rw [splitNL, if_pos h, hs] at hl
      rcases List.mem_cons.1 hl with hl | hl
      · subst hl; exact List.not_mem_nil _
      · exact ih l hl
    · rw [splitNL, if_neg h, hs] at hl
      rcases List.mem_cons.1 hl with hl | hl
      · subst hl
        intro hmem
        rcases List.mem_cons.1 hmem with hmem | hmem
        · exact h hmem.symm
        · exact ih h0 (List.mem_cons_self _ _) hmem
      · exact ih l (List.mem_cons_of_mem _ hl)

/-- The header comment the writer emits is made of full-line comments. -/
theorem readStrings_writeHeader (comment header : Str)
    (hcomment : comment = DEFAULT_COMMENT ∨ comment = ALTERNATIVE_COMMENT) :
    ∃ lines, readStrings [] (writeHeader comment header) = (lines, []) ∧
      ∀ l ∈ lines, isCommentLine l := by
  unfold writeHeader
  by_cases hh : header = []
  · exact ⟨[], by simp [hh, readStrings], by simp⟩
  · rw [if_neg hh]
    refine ⟨(splitNL header).flatMap (fun l => [comment ++ l ++ "\n".toList]), ?_, ?_⟩
    · apply readStrings_flatMap
      intro l hl
      have hno : '\n' ∉ comment ++ l := by
        intro hmem
        rcases List.mem_append.1 hmem with hmem | hmem
        · rcases hcomment with rfl | rfl <;> revert hmem <;> decide
        · exact splitNL_no_newline header l hl hmem
      exact readStrings_line [] _ hno
    · intro l hl
      obtain ⟨x, -, hx⟩ := List.mem_flatMap.1 hl
      simp only [List.mem_singleton] at hx
      subst hx
      rcases hcomment with rfl | rfl
      · right; left; rfl
      · right; right; rfl

theorem New_data (comment separator : Str) (preSpace postSpace : Bool) ( envprefix filename : Str)
    (hasflags : Bool) (CommandLine : Nat) (c : Config)
    (h : New comment separator preSpace postSpace envprefix filename hasflags CommandLine =
      some c) :
    c.data = [(DEFAULT_SECTION, [])] ∧ c.idSection = [(DEFAULT_SECTION, 0)] ∧
      c.lastIdSection = 1 := by
  unfold New at h
  split at h
  · cases h
  · split at h
    · cases h
    · cases hasflags
      · simp only [Bool.false_eq_true, if_false, Option.some.injEq] at h
        subst h
        exact ⟨rfl, rfl, rfl⟩
      · simp only [if_true, Config.RegisterFlagSet, Option.some.injEq] at h
        subst h
        exact ⟨rfl, rfl, rfl⟩

theorem Sections_nodup (c : Config) (h : uniqueKeys c.data) : c.Sections.Nodup :=
  (List.perm_insertionSort _ _).nodup_iff.2 h

theorem Options_nodup (c : Config) (h : wellFormed c.data) (sec : Str) :
    ((c.Options sec).map (fun o => o.1)).Nodup := by
  unfold Config.Options
  rw [List.map_map]
  have hperm := List.perm_insertionSort (fun a b : Str × tValue => a.2.position ≤ b.2.position)
    ((mapGet c.data sec).getD [])
  have hmap := hperm.map (fun o : Str × tValue => o.1)
  have : ((fun o : Str × Str => o.1) ∘ fun o : Str × tValue => (o.1, o.2.v)) =
      fun o : Str × tValue => o.1 := rfl
  rw [this]
  apply hmap.nodup_iff.2
  cases hs : mapGet c.data sec with
  | none => exact List.nodup_nil
  | some options => exact h.2 _ (mapGet_mem _ _ _ hs)

/-- The text the writer emits for a Model that the format gives back, read from a new Model:
the loop of `read` ends without error in a Model with the data of the Model written, in
their order. -/
theorem readLoop_written_text (c c0 : Config) (header comment separator : Str)
    (preSpace postSpace : Bool) ( envprefix filename : Str) (hasflags : Bool)
    (CommandLine : Nat) (pre post : Bool) (b : Char)
    (hnew : New comment separator preSpace postSpace envprefix filename hasflags CommandLine =
      some c0)
    (hb : isSeparator b) (hsep : c.separator = spaceIf pre ++ [b] ++ spaceIf post)
    (hcomment : c.comment = DEFAULT_COMMENT ∨ c.comment = ALTERNATIVE_COMMENT)
    (hwf : wellFormed c.data) (hfirst : c.Sections.head? = some DEFAULT_SECTION)
    (hclean : cleanModel (spaceIf post) c.content) :
    ∃ c' sec' tracked',
      c0.readLoop [] [] (readStrings [] (c.write header)).1 = (c', sec', tracked', none) ∧
      Ordered c' ∧ plain c'.data = c.content := by
  obtain ⟨hd, hi, hl⟩ := New_data _ _ _ _ _ _ _ _ _ hnew
  have hc0 : Ordered c0 := Ordered_defaultData c0 hd hi hl
  obtain ⟨first, rest, hcontent⟩ : ∃ first rest, c.content = first :: rest := by
    unfold Config.content
    cases hsec : c.Sections with
    | nil => rw [hsec] at hfirst; cases hfirst
    | cons a l => exact ⟨_, _, rfl⟩
  have hfirst1 : first.1 = DEFAULT_SECTION := by
    unfold Config.content at hcontent
    cases hsec : c.Sections with
    | nil => rw [hsec] at hfirst; cases hfirst
    | cons a l =>
      rw [hsec] at hfirst hcontent
      simp only [List.head?_cons, Option.some.injEq] at hfirst
      simp only [List.map_cons, List.cons.injEq] at hcontent
      rw [← hcontent.1, hfirst]
  have hkeys : (c.content.map (fun e => e.1)) = c.Sections := by
    unfold Config.content
    rw [List.map_map]
    exact List.map_id _
  have hnodup : ((first :: rest).map (fun e => e.1)).Nodup := by
    rw [← hcontent, hkeys]
    exact Sections_nodup c hwf.1
  have hopts : ∀ e ∈ first :: rest, (e.2.map (fun o => o.1)).Nodup := by
    intro e he
    rw [← hcontent] at he
    unfold Config.content at he
    obtain ⟨sec, -, rfl⟩ := List.mem_map.1 he
    exact Options_nodup c hwf sec
  have hnl : '\n' ∉ spaceIf pre ++ [b] ++ spaceIf post := by
    intro hmem
    simp only [List.mem_append, List.mem_singleton] at hmem
    rcases hmem with (hmem | hmem) | hmem
    · exact not_mem_spaceIf pre hmem
    · rw [← hmem] at hb
      revert hb
      decide
    · exact not_mem_spaceIf post hmem
  obtain ⟨hlines, hread, hcomments⟩ := readStrings_writeHeader c.comment header hcomment
  have hbody : readStrings [] (c.content.flatMap (writeSection c.separator)) =
      (c.content.flatMap (sectionLines c.separator), []) := by
    apply readStrings_flatMap
    intro e he
    rw [hsep]
    exact readStrings_writeSection _ e (hclean e he).1.2
      (fun o ho => ((hclean e he).2 o ho).1.2.2.1) hnl
  obtain ⟨c', sec', tracked', h1, h2, h3⟩ := readLoop_written_model pre post b hb first rest
    hnodup (by rw [← hcontent]; exact hclean) hopts c0 [] [] hc0 (by rw [hd, hfirst1]; rfl)
  refine ⟨c', sec', tracked', ?_, h2, by rw [h3, hcontent]⟩
  unfold Config.write
  rw [readStrings_chunks _ _ _ hread, hbody]
  simp only []
  rw [readLoop_append, readLoop_comments c0 [] [] hlines hcomments]
  simp only []
  rw [hcontent, hsep]
  exact h1

/-- C4, amended.  For every Model whose maps have no key twice and whose first section is
`DEFAULT`, such that (a) the section names are trimmed and without newline; (b) the option
names are not empty, trimmed, without newline, `=` or `:`, and do not start with `#` or `;`;
(c) the first line of every value is trimmed and, after the space of the separator if it has
one, holds no inline comment marker, and is not one that ends with `]` after a name that
starts with `[`; (d) the further lines of every value are not empty, trimmed, without inline
comment marker, with `=` or `:` nowhere or at their start, do not start with `#` or `;`, and
are not bracketed by `[` and `]`; (e) the values in the section without a name have one
line: the text the writer emits for it, read by `read` into a new Model, is read without
error and gives a Model with the same sections in the same order, the same options in the
same order in every section, and the same values. -/
theorem write_read_roundtrip (c c0 : Config) (header comment separator : Str)
    (preSpace postSpace : Bool) ( envprefix filename : Str) (hasflags : Bool)
    (CommandLine : Nat) (pre post : Bool) (b : Char)
    (hnew : New comment separator preSpace postSpace envprefix filename hasflags CommandLine =
      some c0)
    (hb : isSeparator b) (hsep : c.separator = spaceIf pre ++ [b] ++ spaceIf post)
    (hcomment : c.comment = DEFAULT_COMMENT ∨ c.comment = ALTERNATIVE_COMMENT)
    (hwf : wellFormed c.data) (hfirst : c.Sections.head? = some DEFAULT_SECTION)
    (hclean : cleanModel (spaceIf post) c.content) :
    (c0.read (c.write header)).2 = none ∧
    (c0.read (c.write header)).1.content = c.content := by
  obtain ⟨c', sec', tracked', hloop, hordered, hplain⟩ := readLoop_written_text c c0 header
    comment separator preSpace postSpace envprefix filename hasflags CommandLine pre post b
    hnew hb hsep hcomment hwf hfirst hclean
  unfold Config.read
  rw [hloop]
  exact ⟨rfl, by simp only []; rw [content_of_Ordered c' hordered, hplain]⟩

/-- Witness of C4, amended: a Model with an option in the section `DEFAULT`, in the section
without a name the option `[a` with the value `test`, and in the section `s` an option whose
value has the three lines `x`, `=y` and `[z`, written with the header comment `action` and
read back. -/
theorem write_read_roundtrip_witness :
    (defaultConfig.read (roundConfig.write "action".toList)).2 = none ∧
    (defaultConfig.read (roundConfig.write "action".toList)).1.content = roundConfig.content :=
  write_read_roundtrip roundConfig defaultConfig "action".toList DEFAULT_COMMENT
    DEFAULT_SEPARATOR false true [] [] false 0 false true ':' (by decide) (by decide)
    (by decide) (by decide) (by decide) (by decide) (by decide)

/-! ## `New` -/

/-- C11.  `New` panics exactly when the comment is neither `"# "` nor `"; "` or the separator
is neither `":"` nor `"="`; otherwise the Config it returns holds the comment given, and as
separator the one given with a space in front if and only if `preSpace` and a space behind if
and only if `postSpace`. -/
theorem New_validation (comment separator : Str) (preSpace postSpace : Bool)
    ( envprefix filename : Str) (hasflags : Bool) (CommandLine : Nat) :
    (New comment separator preSpace postSpace envprefix filename hasflags CommandLine = none ↔
      (comment ≠ "# ".toList ∧ comment ≠ "; ".toList) ∨
        (separator ≠ ":".toList ∧ separator ≠ "=".toList)) ∧
    ∀ c, New comment separator preSpace postSpace envprefix filename hasflags CommandLine =
        some c →
      c.comment = comment ∧
        c.separator = spaceIf preSpace ++ separator ++ spaceIf postSpace := by
  constructor
  · unfold New
    by_cases h1 : comment ≠ DEFAULT_COMMENT ∧ comment ≠ ALTERNATIVE_COMMENT
    · rw [if_pos h1]
      exact ⟨fun _ => Or.inl h1, fun _ => rfl⟩
    · by_cases h2 : separator ≠ DEFAULT_SEPARATOR ∧ separator ≠ ALTERNATIVE_SEPARATOR
      · rw [if_neg h1, if_pos h2]
        exact ⟨fun _ => Or.inr h2, fun _ => rfl⟩
      · rw [if_neg h1, if_neg h2]
        constructor
        · intro h
          cases hasflags <;> simp [Config.RegisterFlagSet] at h
        · rintro (h | h)
          · exact absurd h h1
          · exact absurd h h2
  · intro c h
    unfold New at h
    split at h
    · cases h
    · split at h
      · cases h
      · cases hasflags
        · simp only [Bool.false_eq_true, if_false, Option.some.injEq] at h
          subst h
          cases preSpace <;> cases postSpace <;>
            exact ⟨rfl, by first | rfl | (simp [spaceIf]; rfl)⟩
        · simp only [if_true, Config.RegisterFlagSet, Option.some.injEq] at h
          subst h
          cases preSpace <;> cases postSpace <;>
            exact ⟨rfl, by first | rfl | (simp [spaceIf]; rfl)⟩

/-- Witness of C11: `New` with `"; "`, `"="` and a space on both sides. -/
theorem New_validation_witness :
    ∃ c, New "; ".toList "=".toList true true [] [] false 0 = some c ∧
      c.comment = "; ".toList ∧ c.separator = " = ".toList :=
  ⟨{ defaultConfig with comment := "; ".toList, separator := " = ".toList }, by decide,
    (New_validation "; ".toList "=".toList true true [] [] false 0).2 _ (by decide)⟩

/-! ## `ParseSet` -/

theorem parseSetFlag_eq (valueSet : ValueSet) (table : Char → Char) (env : Str → Str)
    (c : Config) (flagSetName : Str) :
    parseSetFlag valueSet table env c flagSetName =
      parseFlag valueSet table env c flagSetName [] := by
  funext set f
  simp [parseSetFlag, parseFlag]

theorem Lookup_ParseSet (valueSet : ValueSet) (table : Char → Char) (env : Str → Str)
    (c : Config) (flagSetName : Str) (set : FlagSet)
    (hnodup : (set.formal.map (fun f => f.Name)).Nodup) (m : Str) :
    (c.ParseSet valueSet table env flagSetName set).Lookup m =
      (set.Lookup m).map (assign valueSet (resolve table env c flagSetName [] m)) := by
  unfold Config.ParseSet
  rw [parseSetFlag_eq, Lookup_foldl_parseFlag _ _ _ _ _ _ _ (nodup_VisitAll set hnodup)]
  cases h : set.Lookup m with
  | none => simp
  | some f => simp only [mem_VisitAll set m f h, if_true]

theorem mem_actual_ParseSet (valueSet : ValueSet) (table : Char → Char) (env : Str → Str)
    (c : Config) (flagSetName : Str) (set : FlagSet)
    (hnodup : (set.formal.map (fun f => f.Name)).Nodup) (m : Str) (f : Flag)
    (hf : set.Lookup m = some f) :
    m ∈ (c.ParseSet valueSet table env flagSetName set).actual ↔
      m ∈ set.actual ∨ ∃ v, resolve table env c flagSetName [] m = some v ∧
        (valueSet f v).2 = none := by
  unfold Config.ParseSet
  rw [parseSetFlag_eq, mem_actual_foldl_parseFlag _ _ _ _ _ _ _ (nodup_VisitAll set hnodup)]
  constructor
  · rintro (h | ⟨-, g, v, hg, hv, hnone⟩)
    · exact Or.inl h
    · rw [hf] at hg
      cases hg
      exact Or.inr ⟨v, hv, hnone⟩
  · rintro (h | ⟨v, hv, hnone⟩)
    · exact Or.inl h
    · exact Or.inr ⟨mem_VisitAll set m f hf, f, v, hf, hv, hnone⟩

/-- C15, the claim as stated fails: the flag `e` of the bool kind stands at `false`, the
environment has no value for it, and the lookup of `e` in the Model succeeds with `maybe`;
after `ParseSet` the flag has not been assigned `maybe`: `Value.Set` returns an error, which
`ParseSet` does not look at, and the flag is not recorded as set. -/
theorem ParseSet_overwrites_counterexample :
    typedConfig.String [] "e".toList = .ok "maybe".toList ∧
    getEnv id (fun _ => []) typedConfig.EnvPrefix [] "e".toList = [] ∧
    typedConfig.ParseSet boolSet id (fun _ => []) []
        { formal := [⟨"e".toList, "false".toList⟩], actual := [] } =
      { formal := [⟨"e".toList, "false".toList⟩], actual := [] } := by
  decide

/-- C15, amended.  For every flag of the set (no two flags of a set have the same name),
whether it was already set or not, `ParseSet` calls `Value.Set` of the flag with the value of the environment under the derived key if
that value is not empty, otherwise with the value of the Model for (flagSetName, flag name)
if the lookup succeeds; a flag with neither keeps the value it has.  Where `Value.Set` has
been called the flag holds what `Value.Set` stored, which for a string value is the string
given; the error `Value.Set` may return is not looked at, and the flag is recorded as set
afterwards exactly when it was already, or `Value.Set` returned nil. -/
theorem ParseSet_overwrites (valueSet : ValueSet) (table : Char → Char) (env : Str → Str)
    (c : Config) (flagSetName : Str) (set : FlagSet)
    (hformal : (set.formal.map (fun f => f.Name)).Nodup) (n : Str) (f : Flag)
    (hf : set.Lookup n = some f) :
    ∃ f', (c.ParseSet valueSet table env flagSetName set).Lookup n = some f' ∧ f'.Name = n ∧
      f'.Value =
        (if getEnv table env c.EnvPrefix flagSetName n ≠ [] then
          (valueSet f (getEnv table env c.EnvPrefix flagSetName n)).1
        else
          match c.String flagSetName n with
          | .ok v => (valueSet f v).1
          | .error _ => f.Value) ∧
      (n ∈ (c.ParseSet valueSet table env flagSetName set).actual ↔
        n ∈ set.actual ∨
          (getEnv table env c.EnvPrefix flagSetName n ≠ [] ∧
            (valueSet f (getEnv table env c.EnvPrefix flagSetName n)).2 = none) ∨
          (getEnv table env c.EnvPrefix flagSetName n = [] ∧
            ∃ v, c.String flagSetName n = .ok v ∧ (valueSet f v).2 = none)) ∧
      ((∀ s, valueSet f s = (s, none)) →
        f'.Value =
          if getEnv table env c.EnvPrefix flagSetName n ≠ [] then
            getEnv table env c.EnvPrefix flagSetName n
          else
            match c.String flagSetName n with
            | .ok v => v
            | .error _ => f.Value) := by
  have hval := assign_resolve_value valueSet table env c flagSetName [] n f
  have hvalue : (assign valueSet (resolve table env c flagSetName [] n) f).Value =
      if getEnv table env c.EnvPrefix flagSetName n ≠ [] then
        (valueSet f (getEnv table env c.EnvPrefix flagSetName n)).1
      else
        match c.String flagSetName n with
        | .ok v => (valueSet f v).1
        | .error _ => f.Value := by
    rw [hval.2]
    simp
  refine ⟨assign valueSet (resolve table env c flagSetName [] n) f,
    by rw [Lookup_ParseSet _ _ _ _ _ _ hformal, hf]; rfl,
    by rw [hval.1]; exact Lookup_name set n f hf, hvalue, ?_, ?_⟩
  · rw [mem_actual_ParseSet _ _ _ _ _ _ hformal n f hf,
      resolve_some table env c flagSetName [] n (fun v => (valueSet f v).2 = none)]
    simp
  · intro hstring
    rw [hvalue]
    simp only [hstring]

/-- Witness of C15, amended: the global scope of `flagsConfig`, with string flags and `a`
and `b` already set: `b` takes `5.6` from the Model all the same; `a`, with neither a value
in the environment nor a value in the Model, keeps `true`. -/
theorem ParseSet_overwrites_witness :
    (∃ f', (flagsConfig.ParseSet stringSet id testEnv []
        { formal := [⟨"d".toList, "default".toList⟩, ⟨"a".toList, "true".toList⟩,
            ⟨"b".toList, "0".toList⟩],
          actual := ["a".toList, "b".toList] }).Lookup "b".toList = some f' ∧
      f'.Name = "b".toList ∧ f'.Value = "5.6".toList) ∧
    (∃ f', (flagsConfig.ParseSet stringSet id testEnv []
        { formal := [⟨"d".toList, "default".toList⟩, ⟨"a".toList, "true".toList⟩,
            ⟨"b".toList, "0".toList⟩],
          actual := ["a".toList, "b".toList] }).Lookup "a".toList = some f' ∧
      f'.Name = "a".toList ∧ f'.Value = "true".toList) := by
  obtain ⟨f₁, h1, h2, -, -, h3⟩ := ParseSet_overwrites stringSet id testEnv flagsConfig []
    { formal := [⟨"d".toList, "default".toList⟩, ⟨"a".toList, "true".toList⟩,
        ⟨"b".toList, "0".toList⟩],
      actual := ["a".toList, "b".toList] } (by decide) "b".toList ⟨"b".toList, "0".toList⟩
    (by decide)
  obtain ⟨f₂, k1, k2, -, -, k3⟩ := ParseSet_overwrites stringSet id testEnv flagsConfig []
    { formal := [⟨"d".toList, "default".toList⟩, ⟨"a".toList, "true".toList⟩,
        ⟨"b".toList, "0".toList⟩],
      actual := ["a".toList, "b".toList] } (by decide) "a".toList ⟨"a".toList, "true".toList⟩
    (by decide)
  exact ⟨⟨f₁, h1, h2, (h3 (fun _ => rfl)).trans (by decide)⟩,
    ⟨f₂, k1, k2, (k3 (fun _ => rfl)).trans (by decide)⟩⟩

/-! ## No environment prefix -/

theorem getEnv_bare (table : Char → Char) (env : Str → Str) (flagSetName flagName : Str) :
    getEnv table env [] flagSetName flagName = [] := by
  simp [getEnv]

theorem parseFlag_bare (valueSet : ValueSet) (table₁ table₂ : Char → Char) (env₁ env₂ : Str → Str) (c : Config)
    (h : c.EnvPrefix = []) (name : Str) (alreadySet : List Str) :
    parseFlag valueSet table₁ env₁ c name alreadySet = parseFlag valueSet table₂ env₂ c name alreadySet := by
  funext set f
  simp [parseFlag, h, getEnv_bare]

theorem parseOne_bare (valueSet : ValueSet) (table₁ table₂ : Char → Char) (env₁ env₂ : Str → Str) (c : Config)
    (h : c.EnvPrefix = []) (name : Str) (set : FlagSet) :
    parseOne valueSet table₁ env₁ c name set = parseOne valueSet table₂ env₂ c name set := by
  unfold parseOne
  dsimp only
  rw [parseFlag_bare valueSet table₁ table₂ env₁ env₂ c h]

theorem Parse_bare (valueSet : ValueSet) (table₁ table₂ : Char → Char) (env₁ env₂ : Str → Str) (c : Config)
    (h : c.EnvPrefix = []) (visit : List (Str × Nat)) (heap : List FlagSet) :
    c.Parse valueSet table₁ env₁ visit heap = c.Parse valueSet table₂ env₂ visit heap := by
  induction visit generalizing heap with
  | nil => rfl
  | cons e visit ih =>
    obtain ⟨name, r⟩ := e
    simp only [Config.Parse]
    cases heap[r]? with
    | none => rfl
    | some s =>
      simp only []
      rw [parseOne_bare valueSet table₁ table₂ env₁ env₂ c h, ih]

/-- C16.  With an empty `EnvPrefix`, `getEnv` returns the empty string whatever the
environment holds, and `Parse` and `ParseSet` leave the same flag sets under any two
environments. -/
theorem no_prefix_no_environment (valueSet : ValueSet) (table : Char → Char) (env₁ env₂ : Str → Str) (c : Config)
    (h : c.EnvPrefix = []) :
    (∀ flagSetName flagName, getEnv table env₁ c.EnvPrefix flagSetName flagName = []) ∧
    (∀ visit heap, c.Parse valueSet table env₁ visit heap = c.Parse valueSet table env₂ visit heap) ∧
    (∀ flagSetName set,
      c.ParseSet valueSet table env₁ flagSetName set = c.ParseSet valueSet table env₂ flagSetName set) := by
  refine ⟨?_, ?_, ?_⟩
  · intro flagSetName flagName
    rw [h]
    exact getEnv_bare _ _ _ _
  · intro visit heap
    exact Parse_bare valueSet table table env₁ env₂ c h visit heap
  · intro flagSetName set
    unfold Config.ParseSet
    rw [parseSetFlag_eq, parseSetFlag_eq, parseFlag_bare valueSet table table env₁ env₂ c h]

/-- Witness of C16: `flagsConfig` without its prefix, under the environment of the tests and
under the empty environment. -/
theorem no_prefix_no_environment_witness :
    (∀ flagSetName flagName,
      getEnv id testEnv ({ flagsConfig with EnvPrefix := [] } : Config).EnvPrefix flagSetName
        flagName = []) ∧
    (∀ visit heap, ({ flagsConfig with EnvPrefix := [] } : Config).Parse stringSet id testEnv visit heap =
      ({ flagsConfig with EnvPrefix := [] } : Config).Parse stringSet id (fun _ => []) visit heap) ∧
    (∀ flagSetName set,
      ({ flagsConfig with EnvPrefix := [] } : Config).ParseSet stringSet id testEnv flagSetName set =
        ({ flagsConfig with EnvPrefix := [] } : Config).ParseSet stringSet id (fun _ => []) flagSetName
          set) :=
  no_prefix_no_environment stringSet id testEnv (fun _ => []) { flagsConfig with EnvPrefix := [] } rfl

/-! ## `stripComments` and the leftmost marker -/

theorem any_marker (a : Char) (s : Str) :
    [" ;".toList, "\t;".toList, " #".toList, "\t#".toList].any (HasPrefix (a :: s)) =
      match s with
      | [] => false
      | b :: _ => isMarker a b := by
  cases s with
  | nil => simp [HasPrefix]
  | cons b r =>
    simp only [List.any_cons, List.any_nil, HasPrefix, String.toList, Bool.and_true,
      Bool.or_false, isMarker]
    cases (a == ' ') <;> cases (a == '\t') <;> cases (b == ';') <;> cases (b == '#') <;> rfl

theorem cutInlineComment_leftmost (l : Str) :
    cutInlineComment l =
      match leftmostMarker l with
      | none => l
      | some k => l.take k := by
  induction l with
  | nil => rfl
  | cons a s ih =>
    cases s with
    | nil => simp [cutInlineComment, leftmostMarker, HasPrefix]
    | cons b r =>
      rw [leftmostMarker, any_marker, cutInlineComment]
      by_cases h : isMarker a b = true
      · simp [h]
      · simp only [h, if_false, Bool.false_eq_true]
        rw [ih]
        cases leftmostMarker (b :: r) <;> simp

theorem cut2_idempotent (P : Char → Char → Bool) (l : Str) : cut2 P (cut2 P l) = cut2 P l := by
  induction l with
  | nil => simp [cut2]
  | cons a s ih =>
    cases s with
    | nil => simp [cut2]
    | cons b r =>
      by_cases h : P a b = true
      · simp [cut2, h]
      · rcases cut2_head P b r with ⟨hY, -⟩ | ⟨Y, hY⟩
        · simp [cut2, h, hY]
        · rw [hY] at ih
          simp only [cut2, h, if_false, Bool.false_eq_true, hY]
          rw [ih]

/-- What is left after the cut holds no occurrence of a marker. -/
theorem Index_cut2 (P : Char → Char → Bool) (x y : Char) (hxy : P x y = true) (l : Str) :
    Index (cut2 P l) [x, y] = -1 := by
  induction l with
  | nil => simp [cut2, Index]
  | cons a s ih =>
    cases s with
    | nil => simp [cut2, Index, HasPrefix]
    | cons b r =>
      by_cases h : P a b = true
      · simp [cut2, h, Index]
      · have hab : ¬ (a = x ∧ b = y) := by
          rintro ⟨rfl, rfl⟩
          exact h hxy
        rcases cut2_head P b r with ⟨hY, -⟩ | ⟨Y, hY⟩
        · simp [cut2, h, hY, Index, HasPrefix]
        · rw [hY] at ih
          simp only [cut2, h, if_false, Bool.false_eq_true, hY]
          rw [Index, ih]
          have : HasPrefix (a :: b :: Y) [x, y] = false := by
            simp only [HasPrefix, Bool.and_true, Bool.and_eq_false_imp, beq_iff_eq]
            intro hax
            simpa using fun hby => hab ⟨hax, hby⟩
          simp [this]

/-- C18.  `stripComments` gives the text before the leftmost occurrence of any of the four
markers, space or tab followed by `;` or `#`, and the whole text when there is none; what
it gives holds none of the four markers, and `stripComments` applied twice gives what it
gives applied once. -/
theorem stripComments_leftmost (l : Str) :
    (stripComments l =
      match leftmostMarker l with
      | none => l
      | some k => l.take k) ∧
    (∀ marker ∈ [" ;".toList, "\t;".toList, " #".toList, "\t#".toList],
      Index (stripComments l) marker = -1) ∧
    stripComments (stripComments l) = stripComments l := by
  refine ⟨?_, ?_, ?_⟩
  · rw [stripComments_eq, cutInlineComment_leftmost]
  · intro marker hm
    rw [stripComments_eq, cutInlineComment_eq_cut2]
    simp only [List.mem_cons, List.mem_singleton, List.not_mem_nil, or_false] at hm
    rcases hm with rfl | rfl | rfl | rfl
    · exact Index_cut2 isMarker ' ' ';' (by decide) l
    · exact Index_cut2 isMarker '\t' ';' (by decide) l
    · exact Index_cut2 isMarker ' ' '#' (by decide) l
    · exact Index_cut2 isMarker '\t' '#' (by decide) l
  · rw [stripComments_eq, stripComments_eq, cutInlineComment_eq_cut2, cutInlineComment_eq_cut2,
      cut2_idempotent]

/-! ## The backing file -/

theorem AddSection_FileName (c : Config) (sec : Str) :
    (c.AddSection sec).1.FileName = c.FileName := by
  unfold Config.AddSection
  cases mapGet c.data sec <;> rfl

theorem AddOption_FileName (c : Config) (sec option value : Str) :
    (c.AddOption sec option value).FileName = c.FileName := by
  rw [AddOption_eq]
  cases mapGet ((mapGet (c.AddSection sec).1.data sec).getD []) option <;>
    exact AddSection_FileName c sec

theorem RemoveOption_FileName (c : Config) (sec option : Str) :
    (c.RemoveOption sec option).1.FileName = c.FileName := by
  unfold Config.RemoveOption
  cases mapGet c.data sec with
  | none => rfl
  | some options =>
    simp only []
    cases h : mapGet options option <;> rfl

theorem readLine_FileName (c c' : Config) (sec option l sec' option' : Str)
    (hl : c.readLine sec option l = .ok (c', sec', option')) : c'.FileName = c.FileName := by
  rw [readLine_eq] at hl
  split at hl
  · cases hl; rfl
  · split at hl
    · cases hl; exact AddSection_FileName _ _
    · split at hl
      · cases hl; exact AddOption_FileName _ _ _ _
      · split at hl
        · cases hl; exact AddOption_FileName _ _ _ _
        · cases hl

theorem readLoop_FileName (c : Config) (sec option : Str) (ls : List Str) :
    (c.readLoop sec option ls).1.FileName = c.FileName := by
  induction ls generalizing c sec option with
  | nil => rfl
  | cons l ls ih =>
    simp only [Config.readLoop]
    cases h : c.readLine sec option l with
    | error e => rfl
    | ok r =>
      obtain ⟨c', sec', option'⟩ := r
      simp only []
      rw [ih, readLine_FileName c c' sec option l sec' option' h]

theorem read_FileName (c : Config) (buf : Str) : (c.read buf).1.FileName = c.FileName :=
  readLoop_FileName c [] [] _

theorem New_FileName (comment separator : Str) (preSpace postSpace : Bool)
    ( envprefix filename : Str) (hasflags : Bool) (CommandLine : Nat) (c : Config)
    (h : New comment separator preSpace postSpace envprefix filename hasflags CommandLine =
      some c) :
    c.FileName = (if filename ≠ [] then filename else DEFAULT_FILENAME) ∧ c.FileName ≠ [] := by
  have h1 : c.FileName = (if filename ≠ [] then filename else DEFAULT_FILENAME) := by
    unfold New at h
    split at h
    · cases h
    · split at h
      · cases h
      · cases hasflags
        · simp only [Bool.false_eq_true, if_false, Option.some.injEq] at h
          subst h
          rfl
        · simp only [if_true, Config.RegisterFlagSet, Option.some.injEq] at h
          subst h
          rfl
  refine ⟨h1, ?_⟩
  rw [h1]
  by_cases hf : filename = []
  · simp only [hf, ne_eq, not_true_eq_false, if_false]
    decide
  · simp [hf]

theorem _read_FileName (file : Except Error Str) (close : Option Error) (c c' : Config)
    (h : _read file close c = .ok c') : c'.FileName = c.FileName := by
  unfold _read at h
  cases file with
  | error err => cases h
  | ok buf =>
    simp only [] at h
    have hr := read_FileName c buf
    rcases hread : c.read buf with ⟨c₁, _ | err⟩
    · rw [hread] at h hr
      cases close with
      | none =>
        simp only [Except.ok.injEq] at h
        subst h
        exact hr
      | some err => cases h
    · rw [hread] at h
      cases h

/-- C20.  Every Config that `New`, `NewDefault`, `Read` or `ReadDefault` returns has a
`FileName` that is not empty: the file name given when that is not empty, `/tmp/config.ini`
otherwise.  On a Config whose `FileName` is not empty, `Set` and `Delete` call the writer,
on that file, and return what it returns. -/
theorem FileName_configured :
    (∀ (comment separator : Str) (preSpace postSpace : Bool) ( envprefix filename : Str)
        (hasflags : Bool) (CommandLine : Nat) (c : Config),
      New comment separator preSpace postSpace envprefix filename hasflags CommandLine =
        some c →
      c.FileName = (if filename ≠ [] then filename else DEFAULT_FILENAME) ∧ c.FileName ≠ []) ∧
    (∀ (CommandLine : Nat) (c : Config), NewDefault CommandLine = some c →
      c.FileName = DEFAULT_FILENAME ∧ c.FileName ≠ []) ∧
    (∀ (file : Except Error Str) (close : Option Error) (fname comment separator : Str)
        (preSpace postSpace : Bool) ( envprefix : Str) (hasflags : Bool) (CommandLine : Nat)
        (c : Config),
      Read file close fname comment separator preSpace postSpace envprefix hasflags
        CommandLine = some (.ok c) →
      c.FileName = (if fname ≠ [] then fname else DEFAULT_FILENAME) ∧ c.FileName ≠ []) ∧
    (∀ (file : Except Error Str) (close : Option Error) (CommandLine : Nat) (c : Config),
      ReadDefault file close CommandLine = some (.ok c) →
      c.FileName = DEFAULT_FILENAME ∧ c.FileName ≠ []) ∧
    (∀ (c : Config), c.FileName ≠ [] →
      ∀ (flagSetName : Str) (f : Flag) (heap : List FlagSet) (disk : Disk),
        c.Set flagSetName f heap disk =
          (c.AddOption flagSetName f.Name f.Value, heap,
            (c.AddOption flagSetName f.Name f.Value).WriteFile c.FileName 0o644
              ("action flagset: flag: value = ".toList ++ flagSetName ++ ":".toList ++ f.Name ++
                ":".toList ++ f.Value) disk)) ∧
    (∀ (c : Config), c.FileName ≠ [] →
      ∀ (flagSetName flagName : Str) (heap : List FlagSet) (disk : Disk),
        c.Delete flagSetName flagName heap disk =
          ((c.RemoveOption flagSetName flagName).1, heap,
            (c.RemoveOption flagSetName flagName).1.WriteFile c.FileName 0o644
              ("action delete flagset: flag = ".toList ++ flagSetName ++ ":".toList ++ flagName)
              disk)) := by
  refine ⟨New_FileName, ?_, ?_, ?_, ?_, ?_⟩
  · intro CommandLine c h
    have := New_FileName _ _ _ _ _ _ _ _ c h
    exact ⟨this.1, this.2⟩
  · intro file close fname comment separator preSpace postSpace envprefix hasflags CommandLine c h
    unfold Read at h
    cases hn : New comment separator preSpace postSpace envprefix fname hasflags CommandLine with
    | none => rw [hn] at h; cases h
    | some c₀ =>
      rw [hn] at h
      simp only [Option.some.injEq] at h
      have h1 := _read_FileName file close c₀ c h
      have h2 := New_FileName _ _ _ _ _ _ _ _ c₀ hn
      rw [h1]
      exact h2
  · intro file close CommandLine c h
    unfold ReadDefault at h
    cases hn : NewDefault CommandLine with
    | none => rw [hn] at h; cases h
    | some c₀ =>
      rw [hn] at h
      simp only [Option.some.injEq] at h
      have h1 := _read_FileName file close c₀ c h
      have h2 := New_FileName _ _ _ _ _ _ _ _ c₀ hn
      rw [h1]
      exact ⟨h2.1, h2.2⟩
  · intro c hc flagSetName f heap disk
    simp only [Config.Set, AddOption_FileName, ne_eq]
    rw [if_pos hc]
  · intro c hc flagSetName flagName heap disk
    simp only [Config.Delete, RemoveOption_FileName, ne_eq]
    rw [if_pos hc]

/-- Witness of C20: the Config of `NewDefault` has the file name `/tmp/config.ini`, and `Set`
on it returns what the writer returns. -/
theorem FileName_configured_witness :
    (defaultConfig.FileName = (if ([] : Str) ≠ [] then [] else DEFAULT_FILENAME) ∧
      defaultConfig.FileName ≠ []) ∧
    defaultConfig.Set [] ⟨"a".toList, "test".toList⟩ [] emptyDisk =
      (defaultConfig.AddOption [] "a".toList "test".toList, [],
        (defaultConfig.AddOption [] "a".toList "test".toList).WriteFile defaultConfig.FileName
          0o644
          ("action flagset: flag: value = ".toList ++ [] ++ ":".toList ++ "a".toList ++
            ":".toList ++ "test".toList) emptyDisk) :=
  ⟨FileName_configured.1 DEFAULT_COMMENT DEFAULT_SEPARATOR false true [] [] false 0
      defaultConfig (by decide),
    FileName_configured.2.2.2.2.1 defaultConfig (by decide) [] ⟨"a".toList, "test".toList⟩ []
      emptyDisk⟩

/-! ## `Set` and `Delete` -/

theorem AddSection_flags (c : Config) (sec : Str) :
    (c.AddSection sec).1.flags = c.flags ∧ (c.AddSection sec).1.EnvPrefix = c.EnvPrefix := by
  unfold Config.AddSection
  cases mapGet c.data sec <;> exact ⟨rfl, rfl⟩

theorem AddOption_flags (c : Config) (sec option value : Str) :
    (c.AddOption sec option value).flags = c.flags ∧
      (c.AddOption sec option value).EnvPrefix = c.EnvPrefix := by
  rw [AddOption_eq]
  cases mapGet ((mapGet (c.AddSection sec).1.data sec).getD []) option <;>
    exact AddSection_flags c sec

theorem Set_config (c : Config) (flagSetName : Str) (f : Flag) (heap : List FlagSet)
    (disk : Disk) :
    (c.Set flagSetName f heap disk).1 = c.AddOption flagSetName f.Name f.Value ∧
      (c.Set flagSetName f heap disk).2.1 = heap := by
  unfold Config.Set
  dsimp only
  split <;> exact ⟨rfl, rfl⟩

theorem WriteFile_ok (c : Config) (fname header : Str) (perm : Nat) (disk : Disk)
    (h : disk.failure fname = none) :
    mapGet (c.WriteFile fname perm header disk).1.files fname = some (perm, c.write header) ∧
      (c.WriteFile fname perm header disk).2 = none := by
  unfold Config.WriteFile
  rw [h]
  exact ⟨mapGet_mapSet_same _ _ _, rfl⟩

theorem WriteFile_result (c : Config) (fname header : Str) (perm : Nat) (disk : Disk) :
    (c.WriteFile fname perm header disk).2 = disk.failure fname := by
  unfold Config.WriteFile
  cases disk.failure fname <;> rfl

theorem AddSection_separator (c : Config) (sec : Str) :
    (c.AddSection sec).1.separator = c.separator ∧ (c.AddSection sec).1.comment = c.comment := by
  unfold Config.AddSection
  cases mapGet c.data sec <;> exact ⟨rfl, rfl⟩

theorem AddOption_separator (c : Config) (sec option value : Str) :
    (c.AddOption sec option value).separator = c.separator ∧
      (c.AddOption sec option value).comment = c.comment := by
  rw [AddOption_eq]
  cases mapGet ((mapGet (c.AddSection sec).1.data sec).getD []) option <;>
    exact AddSection_separator c sec

/-- With a file configured, `Set` adds the option and calls the writer on the file. -/
theorem Set_written (c : Config) (flagSetName : Str) (f : Flag) (heap : List FlagSet)
    (disk : Disk) (hc : c.FileName ≠ []) :
    c.Set flagSetName f heap disk =
      (c.AddOption flagSetName f.Name f.Value, heap,
        (c.AddOption flagSetName f.Name f.Value).WriteFile c.FileName 0o644
          ("action flagset: flag: value = ".toList ++ flagSetName ++ ":".toList ++ f.Name ++
            ":".toList ++ f.Value) disk) := by
  simp only [Config.Set, AddOption_FileName, ne_eq]
  rw [if_pos hc]

/-- The file the writer has written holds the text of the writer. -/
theorem Open_WriteFile (c : Config) (fname header : Str) (perm : Nat) (disk : Disk)
    (h : disk.failure fname = none) :
    (c.WriteFile fname perm header disk).1.Open fname = .ok (c.write header) := by
  unfold Disk.Open
  rw [(WriteFile_ok c fname header perm disk h).1]

theorem mapGet_perm {α : Type} (m m' : List (Str × α)) (hu : uniqueKeys m)
    (hperm : m'.Perm m) (k : Str) : mapGet m' k = mapGet m k := by
  have hu' : uniqueKeys m' := (hperm.map (fun e : Str × α => e.1)).nodup_iff.2 hu
  cases h : mapGet m k with
  | none =>
    rw [mapGet_eq_none_iff] at h ⊢
    intro hmem
    exact h ((hperm.map (fun e : Str × α => e.1)).mem_iff.1 hmem)
  | some v =>
    exact mapGet_of_mem m' k v hu' (hperm.mem_iff.2 (mapGet_mem m k v h))

theorem mapGet_map_key {α : Type} (l : List Str) (F : Str → α) (k : Str) :
    mapGet (l.map (fun s => (s, F s))) k = if k ∈ l then some (F k) else none := by
  induction l with
  | nil => rfl
  | cons a l ih =>
    by_cases h : a = k
    · subst h
      simp [mapGet]
    · have h' : ¬ k = a := fun e => h e.symm
      simp only [List.map_cons, mapGet, if_neg h, ih, List.mem_cons, h', false_or]

/-- The value stored for an option is found in the Model in its order. -/
theorem lookup_content (c : Config) (hwf : wellFormed c.data) (sec option v : Str)
    (h : lookup c.data sec option = some v) :
    (mapGet c.content sec).bind (fun options => mapGet options option) = some v := by
  unfold lookup at h
  cases hs : mapGet c.data sec with
  | none => rw [hs] at h; cases h
  | some options =>
    rw [hs] at h
    simp only [Option.some_bind] at h
    have hsec : sec ∈ c.Sections := by
      unfold Config.Sections
      rw [(List.perm_insertionSort _ _).mem_iff]
      exact mem_keys_of_mapGet _ _ _ hs
    unfold Config.content
    rw [mapGet_map_key, if_pos hsec]
    simp only [Option.some_bind]
    unfold Config.Options
    rw [hs]
    simp only [Option.getD_some]
    rw [mapGet_map_value,
      mapGet_perm options _ (hwf.2 _ (mapGet_mem _ _ _ hs)) (List.perm_insertionSort _ _)]
    exact h

/-- What a Model with the data of the content of another gives for an option is what the
other gives. -/
theorem RawString_reread (c c' : Config) (hwf : wellFormed c.data)
    (hplain : plain c'.data = c.content) (sec option v : Str)
    (h : c.RawString sec option = .ok v) : c'.RawString sec option = .ok v := by
  rw [RawString_ok_iff] at h ⊢
  rw [lookup_plain, hplain]
  exact lookup_content c hwf sec option v h

theorem getEnv_empty (table : Char → Char) (envPrefix flagSetName flagName : Str) :
    getEnv table (fun _ => []) envPrefix flagSetName flagName = [] := by
  unfold getEnv
  split <;> rfl

/-- C13, the claim as stated fails, in two ways.  `Set` for the flag `a` with the value
`test` leaves the flag `a` of the registered flag set at its value, the empty string; the
Model has the value.  And after `Set` for the flag `a` with the value `x #y` the file, read
again, gives the option `a` the value `x`, so that the flag `a`, resolved from the file,
gets `x`. -/
theorem Set_counterexample :
    ((registryConfig.Set [] ⟨"a".toList, "test".toList⟩ registryHeap emptyDisk).2.1 =
      [{ formal := [⟨"a".toList, "".toList⟩], actual := [] }] ∧
    (registryConfig.Set [] ⟨"a".toList, "test".toList⟩ registryHeap emptyDisk).1.RawString []
      "a".toList = .ok "test".toList ∧
    (registryConfig.Set [] ⟨"a".toList, "test".toList⟩ registryHeap emptyDisk).1.flags =
      some [([], 0)]) ∧
    ((Read
        ((registryConfig.Set [] ⟨"a".toList, "x #y".toList⟩ registryHeap emptyDisk).2.2.1.Open
          registryConfig.FileName)
        none registryConfig.FileName DEFAULT_COMMENT DEFAULT_SEPARATOR false true [] true
        0).map
      (fun r => r.map (fun c => (c.RawString [] "a".toList,
        parseOne stringSet id (fun _ => []) c []
          { formal := [⟨"a".toList, "".toList⟩], actual := [] }))) =
      some (.ok (.ok "x".toList,
        { formal := [⟨"a".toList, "x".toList⟩], actual := ["a".toList] }))) := by
  decide

/-- C13, amended.  After `Set(scope, flag)` for a flag with a name and a value, the option
(scope, name) of the Model holds the value and the registered flag sets are as they were.
When a file is configured and the write does not fail, `Set` returns nil and the file holds
the text of the writer for the new Model.  When moreover the new Model is one the format
gives back (no key twice, `DEFAULT` first, names and values as the round trip asks), `Read`
on the file gives a Model with the content of the new Model, in which the option
(scope, name) holds the value; and the resolution, from that Model, of a flag of that name
in that scope that is not yet set and has no value in the environment calls `Value.Set` of
the flag with the value, so that a string flag holds the value. -/
theorem Set_assigns_model (c : Config) (flagSetName : Str) (f : Flag) (heap : List FlagSet)
    (disk : Disk) :
    (c.Set flagSetName f heap disk).1.RawString flagSetName f.Name = .ok f.Value ∧
    (c.Set flagSetName f heap disk).2.1 = heap ∧
    (c.Set flagSetName f heap disk).1.flags = c.flags ∧
    (c.FileName ≠ [] → disk.failure c.FileName = none →
      (c.Set flagSetName f heap disk).2.2.2 = none ∧
      (c.Set flagSetName f heap disk).2.2.1.Open c.FileName =
        .ok ((c.Set flagSetName f heap disk).1.write
          ("action flagset: flag: value = ".toList ++ flagSetName ++ ":".toList ++ f.Name ++
            ":".toList ++ f.Value)) ∧
      ∀ (pre post : Bool) (b : Char), isSeparator b →
        c.separator = spaceIf pre ++ [b] ++ spaceIf post →
        (c.comment = DEFAULT_COMMENT ∨ c.comment = ALTERNATIVE_COMMENT) →
        wellFormed (c.Set flagSetName f heap disk).1.data →
        (c.Set flagSetName f heap disk).1.Sections.head? = some DEFAULT_SECTION →
        cleanModel (spaceIf post) (c.Set flagSetName f heap disk).1.content →
        ∀ (comment separator : Str) (preSpace postSpace : Bool) ( envprefix : Str)
          (hasflags : Bool) (CommandLine : Nat) (c0 : Config),
          New comment separator preSpace postSpace envprefix c.FileName hasflags CommandLine =
            some c0 →
          ∃ c', Read ((c.Set flagSetName f heap disk).2.2.1.Open c.FileName) none c.FileName
              comment separator preSpace postSpace envprefix hasflags CommandLine =
              some (.ok c') ∧
            c'.content = (c.Set flagSetName f heap disk).1.content ∧
            c'.RawString flagSetName f.Name = .ok f.Value ∧
            ∀ (valueSet : ValueSet) (table : Char → Char) (env : Str → Str) (set : FlagSet)
              (g : Flag),
              (set.formal.map (fun f => f.Name)).Nodup →
              set.Lookup f.Name = some g → f.Name ∉ set.actual →
              getEnv table env c'.EnvPrefix flagSetName f.Name = [] →
              ∃ g', (parseOne valueSet table env c' flagSetName set).Lookup f.Name = some g' ∧
                g'.Value = (valueSet g f.Value).1 ∧
                ((∀ s, valueSet g s = (s, none)) → g'.Value = f.Value)) := by
  obtain ⟨h1, h2⟩ := Set_config c flagSetName f heap disk
  refine ⟨?_, h2, ?_, ?_⟩
  · rw [h1]; exact RawString_AddOption _ _ _ _
  · rw [h1]; exact (AddOption_flags _ _ _ _).1
  · intro hc hd
    rw [Set_written c flagSetName f heap disk hc]
    simp only []
    refine ⟨(WriteFile_ok _ _ _ _ _ hd).2, Open_WriteFile _ _ _ _ _ hd, ?_⟩
    intro pre post b hb hsep hcomment hwf hfirst hclean comment separator preSpace postSpace
      envprefix hasflags CommandLine c0 hnew
    obtain ⟨c', sec', tracked', hloop, hordered, hplain⟩ := readLoop_written_text
      (c.AddOption flagSetName f.Name f.Value) c0
      ("action flagset: flag: value = ".toList ++ flagSetName ++ ":".toList ++ f.Name ++
        ":".toList ++ f.Value)
      comment separator preSpace postSpace envprefix c.FileName hasflags CommandLine pre post b
      hnew hb (by rw [(AddOption_separator _ _ _ _).1]; exact hsep)
      (by rw [(AddOption_separator _ _ _ _).2]; exact hcomment) hwf hfirst hclean
    have hraw : c'.RawString flagSetName f.Name = .ok f.Value :=
      RawString_reread _ c' hwf hplain _ _ _ (RawString_AddOption _ _ _ _)
    refine ⟨c', ?_, by rw [content_of_Ordered c' hordered, hplain], hraw, ?_⟩
    · rw [Open_WriteFile _ _ _ _ _ hd]
      unfold Read
      rw [hnew]
      simp only [_read, Config.read, hloop]
    · intro valueSet table env set g hnodup hg hset henv
      obtain ⟨g', hg1, -, hg3, -⟩ := Lookup_parseOne_value valueSet table env c' flagSetName set
        hnodup f.Name g hg
      have hvalue : g'.Value = (valueSet g f.Value).1 := by
        rw [hg3, if_neg hset, henv, Config.String, hraw]
        simp
      refine ⟨g', hg1, hvalue, ?_⟩
      intro hstring
      rw [hvalue, hstring]

/-- Witness of C13, amended: after `Set` for the flag `a` with the value `test` in the
global scope, the file, read again, gives a Model in which the option `a` holds `test`, and
the resolution of the string flag `a` from that Model gives it `test`. -/
theorem Set_assigns_model_witness :
    ∃ c', Read
        ((registryConfig.Set [] ⟨"a".toList, "test".toList⟩ registryHeap emptyDisk).2.2.1.Open
          registryConfig.FileName)
        none registryConfig.FileName DEFAULT_COMMENT DEFAULT_SEPARATOR false true [] true 0 =
        some (.ok c') ∧
      c'.RawString [] "a".toList = .ok "test".toList ∧
      ∃ g', (parseOne stringSet id (fun _ => []) c' []
          { formal := [⟨"a".toList, "".toList⟩], actual := [] }).Lookup "a".toList = some g' ∧
        g'.Value = "test".toList := by
  obtain ⟨c', h1, -, h3, h4⟩ :=
    (Set_assigns_model registryConfig [] ⟨"a".toList, "test".toList⟩ registryHeap
      emptyDisk).2.2.2 (by decide) rfl |>.2.2 false true ':' (by decide) (by decide)
      (by decide) (by decide) (by decide) (by decide) DEFAULT_COMMENT DEFAULT_SEPARATOR false
      true [] true 0 _ rfl
  obtain ⟨g', k1, -, k3⟩ := h4 stringSet id (fun _ => [])
    { formal := [⟨"a".toList, "".toList⟩], actual := [] } ⟨"a".toList, "".toList⟩ (by decide)
    (by decide) (by decide) (getEnv_empty _ _ _ _)
  exact ⟨c', h1, h3, g', k1, k3 (fun _ => rfl)⟩

theorem mapGet_mapDelete_same {α : Type} (m : List (Str × α)) (k : Str) :
    mapGet (mapDelete m k) k = none := by
  induction m with
  | nil => rfl
  | cons e m ih =>
    obtain ⟨k', v'⟩ := e
    by_cases h : k' = k
    · simp only [mapDelete, h, if_true]
      exact ih
    · simp only [mapDelete, h, if_false, mapGet]
      exact ih

theorem mapGet_mapDelete_ne {α : Type} (m : List (Str × α)) (k k' : Str) (h : k' ≠ k) :
    mapGet (mapDelete m k) k' = mapGet m k' := by
  induction m with
  | nil => rfl
  | cons e m ih =>
    obtain ⟨k₀, v₀⟩ := e
    by_cases h0 : k₀ = k
    · subst h0
      simp only [mapDelete, if_true, mapGet, Ne.symm h, if_false]
      exact ih
    · by_cases h1 : k₀ = k'
      · subst h1
        simp [mapDelete, mapGet, h0]
      · simp only [mapDelete, h0, if_false, mapGet, h1]
        exact ih

theorem RemoveOption_absent (c : Config) (sec option : Str) (e : Error)
    (h : c.RawString sec option = .error e) :
    c.RemoveOption sec option = (c, some e) := by
  unfold Config.RawString at h
  unfold Config.RemoveOption
  cases hs : mapGet c.data sec with
  | none =>
    rw [hs] at h
    simp only [Except.error.injEq] at h
    rw [h]
  | some options =>
    rw [hs] at h
    simp only [] at h ⊢
    cases ho : mapGet options option with
    | none =>
      rw [ho] at h
      simp only [Except.error.injEq] at h
      rw [h]
    | some tv =>
      rw [ho] at h
      cases h

theorem RemoveOption_present (c : Config) (sec option v : Str)
    (h : c.RawString sec option = .ok v) :
    (c.RemoveOption sec option).2 = none ∧
    (c.RemoveOption sec option).1.RawString sec option = .error (.OptionError option) ∧
    ∀ sec' option', (sec' ≠ sec ∨ option' ≠ option) →
      (c.RemoveOption sec option).1.RawString sec' option' = c.RawString sec' option' := by
  unfold Config.RawString at h
  unfold Config.RemoveOption
  cases hs : mapGet c.data sec with
  | none => rw [hs] at h; cases h
  | some options =>
    rw [hs] at h
    simp only [] at h ⊢
    cases ho : mapGet options option with
    | none => rw [ho] at h; cases h
    | some tv =>
      simp only []
      refine ⟨by trivial, ?_, ?_⟩
      · simp [Config.RawString, mapGet_mapSet_same, mapGet_mapDelete_same]
      · intro sec' option' hne
        by_cases hsec : sec' = sec
        · subst hsec
          have hopt : option' ≠ option := by
            rcases hne with h' | h'
            · exact absurd rfl h'
            · exact h'
          simp [Config.RawString, mapGet_mapSet_same, mapGet_mapDelete_ne _ _ _ hopt, hs]
        · simp [Config.RawString, mapGet_mapSet_ne _ _ _ _ hsec]

theorem RemoveOption_EnvPrefix (c : Config) (sec option : Str) :
    (c.RemoveOption sec option).1.EnvPrefix = c.EnvPrefix := by
  unfold Config.RemoveOption
  cases mapGet c.data sec with
  | none => rfl
  | some options =>
    simp only []
    cases h : mapGet options option <;> rfl

theorem Delete_config (c : Config) (flagSetName flagName : Str) (heap : List FlagSet)
    (disk : Disk) :
    (c.Delete flagSetName flagName heap disk).1 = (c.RemoveOption flagSetName flagName).1 ∧
    (c.Delete flagSetName flagName heap disk).2.1 = heap ∧
    (c.Delete flagSetName flagName heap disk).2.2.2 =
      if c.FileName ≠ [] then disk.failure c.FileName else none := by
  unfold Config.Delete
  simp only [RemoveOption_FileName]
  by_cases hc : c.FileName ≠ []
  · rw [if_pos hc, if_pos hc]
    exact ⟨rfl, rfl, WriteFile_result _ _ _ _ _⟩
  · rw [if_neg hc, if_neg hc]
    exact ⟨rfl, rfl, rfl⟩

/-- C14, the claim as stated fails: `Delete` for a section that the Model does not have, and
for an option that its section does not have, returns nil when the write succeeds, where
`RemoveOption` reports the section or the option as not found; the Model is as it was. -/
theorem Delete_counterexample :
    (defaultConfig.RemoveOption "nosuch".toList "a".toList).2 =
      some (.SectionError "nosuch".toList) ∧
    (defaultConfig.Delete "nosuch".toList "a".toList [] emptyDisk).2.2.2 = none ∧
    (defaultConfig.Delete "nosuch".toList "a".toList [] emptyDisk).1 = defaultConfig ∧
    (targetConfig.RemoveOption "s".toList "zz".toList).2 = some (.OptionError "zz".toList) ∧
    (targetConfig.Delete "s".toList "zz".toList [] emptyDisk).2.2.2 = none ∧
    (targetConfig.Delete "s".toList "zz".toList [] emptyDisk).1 = targetConfig := by
  decide

/-- C14, amended.  `Delete(scope, name)` returns what the writer returns (nil when no file is
configured), whether the option is found or not, and leaves the registered flag sets as they
were.  When the section or the option is absent the Model is as it was.  When the option
exists it is removed, the other options keep their values, and a later resolution of a flag
of that name in that scope, without a value in the environment, leaves the flag at the
value it has. -/
theorem Delete_removes (c : Config) (flagSetName flagName : Str) (heap : List FlagSet)
    (disk : Disk) :
    (c.Delete flagSetName flagName heap disk).2.2.2 =
      (if c.FileName ≠ [] then disk.failure c.FileName else none) ∧
    (c.Delete flagSetName flagName heap disk).2.1 = heap ∧
    (∀ e, c.RawString flagSetName flagName = .error e →
      (c.Delete flagSetName flagName heap disk).1 = c) ∧
    (∀ v, c.RawString flagSetName flagName = .ok v →
      (c.Delete flagSetName flagName heap disk).1.RawString flagSetName flagName =
        .error (.OptionError flagName) ∧
      (∀ sec' option', (sec' ≠ flagSetName ∨ option' ≠ flagName) →
        (c.Delete flagSetName flagName heap disk).1.RawString sec' option' =
          c.RawString sec' option') ∧
      ∀ (valueSet : ValueSet) (table : Char → Char) (env : Str → Str) (set : FlagSet)
          (g : Flag),
        set.Lookup flagName = some g →
        getEnv table env c.EnvPrefix flagSetName flagName = [] →
        ∃ g', (parseOne valueSet table env (c.Delete flagSetName flagName heap disk).1
            flagSetName set).Lookup flagName = some g' ∧ g'.Value = g.Value) := by
  obtain ⟨h1, h2, h3⟩ := Delete_config c flagSetName flagName heap disk
  refine ⟨h3, h2, ?_, ?_⟩
  · intro e he
    rw [h1, RemoveOption_absent c flagSetName flagName e he]
  · intro v hv
    obtain ⟨-, r2, r3⟩ := RemoveOption_present c flagSetName flagName v hv
    rw [h1]
    refine ⟨r2, r3, ?_⟩
    intro valueSet table env set g hg henv
    refine ⟨g, ?_, rfl⟩
    rw [Lookup_parseOne_keep, hg]
    unfold resolve
    rw [RemoveOption_EnvPrefix, henv, Config.String, r2]
    simp

/-- Witness of C14, amended: `Delete` of the option `k` of the section `s` of
`targetConfig`, which holds `1`: the option is not found any more, the option `j` keeps `0`,
and the flag `k` keeps its default `d`. -/
theorem Delete_removes_witness :
    (targetConfig.Delete "s".toList "k".toList [] emptyDisk).1.RawString "s".toList
        "k".toList = .error (.OptionError "k".toList) ∧
    (targetConfig.Delete "s".toList "k".toList [] emptyDisk).1.RawString "s".toList
        "j".toList = targetConfig.RawString "s".toList "j".toList ∧
    ∃ g', (parseOne stringSet id (fun _ => [])
        (targetConfig.Delete "s".toList "k".toList [] emptyDisk).1
        "s".toList { formal := [⟨"k".toList, "d".toList⟩], actual := [] }).Lookup "k".toList =
          some g' ∧ g'.Value = "d".toList :=
  have h := (Delete_removes targetConfig "s".toList "k".toList [] emptyDisk).2.2.2
    "1".toList (by decide)
  ⟨h.1, h.2.1 "s".toList "j".toList (Or.inr (by decide)),
    h.2.2 stringSet id (fun _ => []) { formal := [⟨"k".toList, "d".toList⟩], actual := [] }
      ⟨"k".toList, "d".toList⟩ (by decide) (by decide)⟩

/-! ## The order of the scopes -/

theorem Parse_none_of_invalid (valueSet : ValueSet) (table : Char → Char) (env : Str → Str) (c : Config)
    (visit : List (Str × Nat)) (heap : List FlagSet)
    (h : ∃ e ∈ visit, heap.length ≤ e.2) : c.Parse valueSet table env visit heap = none := by
  induction visit generalizing heap with
  | nil =>
    obtain ⟨e, he, -⟩ := h
    exact absurd he (List.not_mem_nil _)
  | cons e visit ih =>
    obtain ⟨name, r⟩ := e
    simp only [Config.Parse]
    cases hr : heap[r]? with
    | none => rfl
    | some s =>
      simp only []
      apply ih
      obtain ⟨e', he', hlen⟩ := h
      rcases List.mem_cons.1 he' with he' | he'
      · subst he'
        have : r < heap.length := (List.getElem?_eq_some_iff.1 hr).1
        simp only at hlen
        omega
      · exact ⟨e', he', by rw [List.length_set]; exact hlen⟩

/-- With no address registered twice, `Parse` leaves at every registered address what the
body of its loop makes of the set there, and leaves the other sets. -/
theorem Parse_getElem (valueSet : ValueSet) (table : Char → Char) (env : Str → Str) (c : Config)
    (visit : List (Str × Nat)) (heap : List FlagSet)
    (hvalid : ∀ e ∈ visit, e.2 < heap.length) (hnodup : (visit.map (fun e => e.2)).Nodup) :
    ∃ heap', c.Parse valueSet table env visit heap = some heap' ∧ heap'.length = heap.length ∧
      (∀ name r, (name, r) ∈ visit →
        heap'[r]? = heap[r]?.map (parseOne valueSet table env c name)) ∧
      ∀ r, (∀ e ∈ visit, e.2 ≠ r) → heap'[r]? = heap[r]? := by
  obtain ⟨heap', h1, h2, h3⟩ := Parse_frame valueSet table env c visit heap hvalid
  refine ⟨heap', h1, h2, ?_, h3⟩
  intro name r hmem
  obtain ⟨before, after, hsplit⟩ := List.append_of_mem hmem
  have hr : r < heap.length := hvalid (name, r) hmem
  have hget : heap[r]? = some heap[r] := List.getElem?_eq_getElem hr
  have hother : ∀ e ∈ before ++ after, e.2 ≠ r := by
    intro e he her
    rw [hsplit, List.map_append, List.map_cons] at hnodup
    have := (List.nodup_cons.1 (List.nodup_middle.1 hnodup)).1
    apply this
    rw [← List.map_append]
    exact List.mem_map.2 ⟨e, he, her⟩
  obtain ⟨heap'', h4, h5⟩ := Parse_once valueSet table env c before after name r heap heap[r] hget
    (by rw [← hsplit]; exact hvalid)
    (fun e he => hother e (List.mem_append_left _ he))
    (fun e he => hother e (List.mem_append_right _ he))
  rw [← hsplit, h1] at h4
  cases h4
  rw [h5, hget]
  rfl

/-- C17, the claim as stated fails: with one flag set registered under two scopes and a
variable in the environment for each of the two keys, the two orders of the scopes leave
different flag values. -/
theorem Parse_order_counterexample :
    aliasConfig.flags = some [([], 0), ("custom".toList, 0)] ∧
    aliasConfig.Parse stringSet id aliasEnv [([], 0), ("custom".toList, 0)]
        [⟨[⟨"d".toList, "dd".toList⟩], []⟩] ≠
      aliasConfig.Parse stringSet id aliasEnv [("custom".toList, 0), ([], 0)]
        [⟨[⟨"d".toList, "dd".toList⟩], []⟩] := by
  decide

/-- C17, amended.  When no flag set is registered under two scopes, `Parse` leaves the same
flag sets, or panics alike, in every order in which it meets the registered scopes. -/
theorem Parse_order (valueSet : ValueSet) (table : Char → Char) (env : Str → Str) (c : Config)
    (visit₁ visit₂ : List (Str × Nat)) (heap : List FlagSet)
    (hdistinct : ((c.flags.getD []).map (fun e => e.2)).Nodup)
    (h₁ : visit₁.Perm (c.flags.getD [])) (h₂ : visit₂.Perm (c.flags.getD [])) :
    c.Parse valueSet table env visit₁ heap = c.Parse valueSet table env visit₂ heap := by
  by_cases hvalid : ∀ e ∈ c.flags.getD [], e.2 < heap.length
  · have n₁ : (visit₁.map (fun e => e.2)).Nodup := (h₁.map _).nodup_iff.2 hdistinct
    have n₂ : (visit₂.map (fun e => e.2)).Nodup := (h₂.map _).nodup_iff.2 hdistinct
    obtain ⟨a, a1, a2, a3, a4⟩ := Parse_getElem valueSet table env c visit₁ heap
      (fun e he => hvalid e (h₁.mem_iff.1 he)) n₁
    obtain ⟨b, b1, b2, b3, b4⟩ := Parse_getElem valueSet table env c visit₂ heap
      (fun e he => hvalid e (h₂.mem_iff.1 he)) n₂
    rw [a1, b1]
    congr 1
    apply List.ext_getElem?
    intro r
    by_cases hr : ∃ e ∈ c.flags.getD [], e.2 = r
    · obtain ⟨e, he, rfl⟩ := hr
      rw [a3 e.1 e.2 (h₁.mem_iff.2 he), b3 e.1 e.2 (h₂.mem_iff.2 he)]
    · have hno : ∀ e ∈ c.flags.getD [], e.2 ≠ r := fun e he her => hr ⟨e, he, her⟩
      rw [a4 r (fun e he => hno e (h₁.mem_iff.1 he)),
        b4 r (fun e he => hno e (h₂.mem_iff.1 he))]
  · have hex : ∃ e ∈ c.flags.getD [], heap.length ≤ e.2 := by
      by_contra hcon
      apply hvalid
      intro e he
      by_contra hlt
      exact hcon ⟨e, he, by omega⟩
    obtain ⟨e, he, hlen⟩ := hex
    rw [Parse_none_of_invalid valueSet table env c visit₁ heap ⟨e, h₁.mem_iff.2 he, hlen⟩,
      Parse_none_of_invalid valueSet table env c visit₂ heap ⟨e, h₂.mem_iff.2 he, hlen⟩]

/-- Witness of C17, amended: the two scopes of `flagsConfig`, at two addresses, in the two
orders. -/
theorem Parse_order_witness :
    flagsConfig.Parse stringSet id testEnv [([], 0), ("custom".toList, 1)] flagsHeap =
      flagsConfig.Parse stringSet id testEnv [("custom".toList, 1), ([], 0)] flagsHeap :=
  Parse_order stringSet id testEnv flagsConfig [([], 0), ("custom".toList, 1)]
    [("custom".toList, 1), ([], 0)] flagsHeap (by decide) (List.Perm.refl _)
    (List.Perm.swap _ _ _)

/-! ## The option names `read` stores -/

theorem TrimSpace_idempotent (s : Str) : TrimSpace (TrimSpace s) = TrimSpace s := by
  have h2 : (TrimSpace s).rdropWhile isSpace = TrimSpace s := List.rdropWhile_idempotent _ _
  have h1 : (TrimSpace s).dropWhile isSpace = TrimSpace s := by
    rcases TrimSpace_head s with h | ⟨a, r, h, ha⟩
    · rw [h]; rfl
    · rw [h]; simp [List.dropWhile, ha]
  show ((TrimSpace s).dropWhile isSpace).rdropWhile isSpace = TrimSpace s
  rw [h1, h2]

theorem mem_of_mem_TrimSpace (s : Str) (x : Char) (h : x ∈ TrimSpace s) : x ∈ s := by
  unfold TrimSpace at h
  have h1 := (List.rdropWhile_prefix isSpace (l := s.dropWhile isSpace)).sublist.subset h
  exact (List.dropWhile_suffix isSpace).sublist.subset h1

theorem IndexAny_take (s chars : Str) : ∀ x ∈ s.take (IndexAny s chars).toNat, x ∉ chars := by
  induction s with
  | nil => intro x hx; simp at hx
  | cons c s ih =>
    intro x hx
    have hge := IndexAny_ge s chars
    by_cases hc : c ∈ chars
    · simp [IndexAny, hc] at hx
    · rw [IndexAny, if_neg hc] at hx
      by_cases h1 : IndexAny s chars = -1
      · simp [h1] at hx
      · have h2 : (IndexAny s chars + 1).toNat = (IndexAny s chars).toNat + 1 := by omega
        simp only [h1, if_false, h2, List.take_succ_cons, List.mem_cons] at hx
        rcases hx with hx | hx
        · rw [hx]; exact hc
        · exact ih x hx

/-- The name of an option line is well formed. -/
theorem wellFormedName_option (l : Str) (hne : TrimSpace l ≠ [])
    (hi : IndexAny (TrimSpace l) "=:".toList > 0) :
    wellFormedName (TrimSpace ((TrimSpace l).take (IndexAny (TrimSpace l) "=:".toList).toNat)) := by
  refine ⟨TrimSpace_take_ne_nil l _ hne (by omega), TrimSpace_idempotent _, ?_⟩
  intro ch hch hsep
  exact IndexAny_take (TrimSpace l) "=:".toList ch (mem_of_mem_TrimSpace _ ch hch)
    ((mem_separators ch).2 hsep)

/-- The options of a Model after `AddOption` are those it had and the one added. -/
theorem mem_AddOption_data (c : Config) (sec option value : Str) (e : Str × List (Str × tValue))
    (he : e ∈ (c.AddOption sec option value).data) (x : Str × tValue) (hx : x ∈ e.2) :
    x.1 = option ∨ ∃ e₀ ∈ c.data, x ∈ e₀.2 := by
  obtain ⟨tv, -, hd⟩ := AddOption_data c sec option value
  rw [hd] at he
  rcases mem_mapSet _ _ _ _ he with he | he
  · rw [AddSection_data] at he
    split at he
    · exact Or.inr ⟨e, he, hx⟩
    · rcases mem_mapSet _ _ _ _ he with he | he
      · exact Or.inr ⟨e, he, hx⟩
      · rw [he] at hx
        exact absurd hx (List.not_mem_nil _)
  · rw [he] at hx
    rcases mem_mapSet _ _ _ _ hx with hx | hx
    · cases hs : mapGet c.data sec with
      | none => rw [hs] at hx; exact absurd hx (List.not_mem_nil _)
      | some options =>
        rw [hs] at hx
        exact Or.inr ⟨(sec, options), mapGet_mem _ _ _ hs, hx⟩
    · left; rw [hx]

theorem mem_AddSection_data (c : Config) (sec : Str) (e : Str × List (Str × tValue))
    (he : e ∈ (c.AddSection sec).1.data) (x : Str × tValue) (hx : x ∈ e.2) :
    ∃ e₀ ∈ c.data, x ∈ e₀.2 := by
  rw [AddSection_data] at he
  split at he
  · exact ⟨e, he, hx⟩
  · rcases mem_mapSet _ _ _ _ he with he | he
    · exact ⟨e, he, hx⟩
    · rw [he] at hx
      exact absurd hx (List.not_mem_nil _)

/-- The loop body keeps the option names of the Model and the tracked option well formed. -/
theorem readLine_names (c c' : Config) (sec option l sec' option' : Str)
    (hdata : ∀ e ∈ c.data, ∀ x ∈ e.2, wellFormedName x.1)
    (htracked : option = [] ∨ wellFormedName option)
    (hl : c.readLine sec option l = .ok (c', sec', option')) :
    (∀ e ∈ c'.data, ∀ x ∈ e.2, wellFormedName x.1) ∧
      (option' = [] ∨ wellFormedName option') := by
  rw [readLine_eq] at hl
  split at hl
  · cases hl; exact ⟨hdata, htracked⟩
  · rename_i hcomment
    split at hl
    · cases hl
      refine ⟨?_, Or.inl rfl⟩
      intro e he x hx
      obtain ⟨e₀, he₀, hx₀⟩ := mem_AddSection_data _ _ e he x hx
      exact hdata e₀ he₀ x hx₀
    · split at hl
      · rename_i hi
        cases hl
        have hne : TrimSpace l ≠ [] := by
          intro h0
          apply hcomment
          left
          rw [h0]; rfl
        have hwf := wellFormedName_option l hne hi
        refine ⟨?_, Or.inr hwf⟩
        intro e he x hx
        rcases mem_AddOption_data _ _ _ _ e he x hx with h | ⟨e₀, he₀, hx₀⟩
        · rw [h]; exact hwf
        · exact hdata e₀ he₀ x hx₀
      · split at hl
        · rename_i hcont
          cases hl
          have hwf : wellFormedName option := by
            rcases htracked with h | h
            · exact absurd h hcont.2
            · exact h
          refine ⟨?_, Or.inr hwf⟩
          intro e he x hx
          rcases mem_AddOption_data _ _ _ _ e he x hx with h | ⟨e₀, he₀, hx₀⟩
          · rw [h]; exact hwf
          · exact hdata e₀ he₀ x hx₀
        · cases hl

theorem readLoop_names (c : Config) (sec option : Str) (ls : List Str)
    (hdata : ∀ e ∈ c.data, ∀ x ∈ e.2, wellFormedName x.1)
    (htracked : option = [] ∨ wellFormedName option) :
    ∀ e ∈ (c.readLoop sec option ls).1.data, ∀ x ∈ e.2, wellFormedName x.1 := by
  induction ls generalizing c sec option with
  | nil => exact hdata
  | cons l ls ih =>
    simp only [Config.readLoop]
    cases h : c.readLine sec option l with
    | error e => exact hdata
    | ok r =>
      obtain ⟨c', sec', option'⟩ := r
      obtain ⟨h1, h2⟩ := readLine_names c c' sec option l sec' option' hdata htracked h
      exact ih c' sec' option' h1 h2

/-- What the loop body does to the Model: nothing, or `AddSection` for the new current
section, or `AddOption` for the option that is tracked afterwards, whose name is well
formed. -/
theorem readLine_calls (c c' : Config) (sec option l sec' option' : Str)
    (htracked : option = [] ∨ wellFormedName option)
    (hl : c.readLine sec option l = .ok (c', sec', option')) :
    c' = c ∨ c' = (c.AddSection sec').1 ∨
      ∃ value, wellFormedName option' ∧ c' = c.AddOption sec option' value := by
  rw [readLine_eq] at hl
  split at hl
  · cases hl; exact Or.inl rfl
  · rename_i hcomment
    split at hl
    · cases hl; exact Or.inr (Or.inl rfl)
    · split at hl
      · rename_i hi
        cases hl
        have hne : TrimSpace l ≠ [] := by
          intro h0
          apply hcomment
          left
          rw [h0]; rfl
        exact Or.inr (Or.inr ⟨_, wellFormedName_option l hne hi, rfl⟩)
      · split at hl
        · rename_i hcont
          cases hl
          have hwf : wellFormedName option := by
            rcases htracked with h | h
            · exact absurd h hcont.2
            · exact h
          exact Or.inr (Or.inr ⟨_, hwf, rfl⟩)
        · cases hl

/-- A line whose first code point after the white space is `=` or `:` is not an option
line. -/
theorem readLine_separator_first (c : Config) (sec option l : Str) (ch : Char)
    (hhead : (TrimSpace l).head? = some ch) (hch : isSeparator ch) :
    c.readLine sec option l =
      if sec ≠ [] ∧ option ≠ [] then
        .ok (c.AddOption sec option
          ((match c.RawString sec option with
            | .ok v => v
            | .error _ => []) ++ "\n".toList ++ TrimSpace (cutInlineComment (TrimSpace l))),
          sec, option)
      else .error (.errorString ("could not parse line: ".toList ++ TrimSpace l)) := by
  have hne : ch ≠ '#' ∧ ch ≠ ';' ∧ ch ≠ '[' := by
    rcases hch with rfl | rfl <;> decide
  apply readLine_other_case
  · rintro (h | h | h)
    · rw [h] at hhead; cases hhead
    · rw [hhead] at h; exact hne.1 (Option.some.inj h)
    · rw [hhead] at h; exact hne.2.1 (Option.some.inj h)
  · rintro ⟨h, -⟩
    rw [hhead] at h; exact hne.2.2 (Option.some.inj h)
  · cases ht : TrimSpace l with
    | nil => rw [ht] at hhead; cases hhead
    | cons a r =>
      rw [ht] at hhead
      simp only [List.head?_cons, Option.some.injEq] at hhead
      subst hhead
      rw [IndexAny, if_pos ((mem_separators a).2 hch)]

/-- C19.  From a Model whose option names are well formed (not empty, without white space
around them, without `=` or `:`), in particular from a new Model, `read` leaves a Model whose
option names are well formed: whenever the loop body calls `AddOption`, the name it passes
is well formed and is the option tracked afterwards.  A line whose first code point after
the white space is `=` or `:` is never an option line: it is a continuation of the tracked
option when there is one in a section with a name, and a syntax error otherwise. -/
theorem read_option_names (c : Config) (buf : Str)
    (hdata : ∀ e ∈ c.data, ∀ x ∈ e.2, wellFormedName x.1) :
    (∀ e ∈ (c.read buf).1.data, ∀ x ∈ e.2, wellFormedName x.1) ∧
    (∀ (c₁ c' : Config) (sec option l sec' option' : Str),
      (option = [] ∨ wellFormedName option) →
      c₁.readLine sec option l = .ok (c', sec', option') →
      (option' = [] ∨ wellFormedName option') ∧
        (c' = c₁ ∨ c' = (c₁.AddSection sec').1 ∨
          ∃ value, wellFormedName option' ∧ c' = c₁.AddOption sec option' value)) ∧
    (∀ (c₁ : Config) (sec option l : Str) (ch : Char),
      (TrimSpace l).head? = some ch → isSeparator ch →
      c₁.readLine sec option l =
        if sec ≠ [] ∧ option ≠ [] then
          .ok (c₁.AddOption sec option
            ((match c₁.RawString sec option with
              | .ok v => v
              | .error _ => []) ++ "\n".toList ++ TrimSpace (cutInlineComment (TrimSpace l))),
            sec, option)
        else .error (.errorString ("could not parse line: ".toList ++ TrimSpace l))) := by
  refine ⟨readLoop_names c [] [] _ hdata (Or.inl rfl), ?_, readLine_separator_first⟩
  intro c₁ c' sec option l sec' option' htracked hl
  refine ⟨?_, readLine_calls c₁ c' sec option l sec' option' htracked hl⟩
  rw [readLine_eq] at hl
  split at hl
  · cases hl; exact htracked
  · rename_i hcomment
    split at hl
    · cases hl; exact Or.inl rfl
    · split at hl
      · rename_i hi
        cases hl
        have hne : TrimSpace l ≠ [] := by
          intro h0
          apply hcomment
          left
          rw [h0]; rfl
        exact Or.inr (wellFormedName_option l hne hi)
      · split at hl
        · cases hl; exact htracked
        · cases hl

/-- Witness of C19: the input `[s]`, ` a b : x`, `=y`, read into a new Model, leaves the
option `a b` of the section `s`, with the line `=y` as the second line of its value, and the
name `a b` is well formed. -/
theorem read_option_names_witness :
    (defaultConfig.read "[s]\n a b : x\n=y\n".toList).1.RawString "s".toList "a b".toList =
      .ok "x\n=y".toList ∧
    wellFormedName "a b".toList := by
  have h := (read_option_names defaultConfig "[s]\n a b : x\n=y\n".toList (by decide)).1
  have hex : ∃ e ∈ (defaultConfig.read "[s]\n a b : x\n=y\n".toList).1.data, ∃ x ∈ e.2,
      x.1 = "a b".toList := by decide
  obtain ⟨e, he, x, hx, hname⟩ := hex
  refine ⟨by decide, ?_⟩
  rw [← hname]
  exact h e he x hx

/-! ## The order `Merge` leaves -/

theorem mem_keys_iff {α : Type} (m : List (Str × α)) (k : Str) :
    k ∈ m.map (fun e => e.1) ↔ (mapGet m k).isSome := by
  have key := mapGet_eq_none_iff m k
  cases h : mapGet m k with
  | none =>
    rw [h] at key
    exact ⟨fun hm => absurd hm (key.1 rfl), fun hs => Bool.noConfusion hs⟩
  | some v =>
    refine ⟨fun _ => rfl, fun _ => ?_⟩
    by_contra hcon
    rw [key.2 hcon] at h
    cases h

theorem keys_AddOption (c : Config) (sec option value : Str) :
    (c.AddOption sec option value).keys =
      if sec ∈ c.keys then c.keys else c.keys ++ [sec] := by
  obtain ⟨tv, -, hd⟩ := AddOption_data c sec option value
  unfold Config.keys
  rw [hd, mapSet_keys _ _ _ (mem_keys_of_mapGet _ _ _ (AddSection_mapGet c sec)),
    AddSection_data]
  by_cases h : sec ∈ c.data.map (fun e => e.1)
  · rw [if_pos h, if_pos ((mem_keys_iff _ _).1 h)]
  · have h' : ¬ (mapGet c.data sec).isSome = true := fun h2 => h ((mem_keys_iff _ _).2 h2)
    rw [if_neg h, if_neg h', mapSet_absent _ _ _ h]
    simp

theorem names_AddOption (c : Config) (sec option value sec' : Str) :
    (c.AddOption sec option value).names sec' =
      if sec' = sec then
        (if option ∈ c.names sec then c.names sec else c.names sec ++ [option])
      else c.names sec' := by
  obtain ⟨tv, -, hd⟩ := AddOption_data c sec option value
  unfold Config.names
  rw [hd]
  by_cases hs : sec' = sec
  · subst hs
    rw [if_pos rfl, mapGet_mapSet_same]
    simp only [Option.getD_some]
    by_cases ho : option ∈ ((mapGet c.data sec').getD []).map (fun o => o.1)
    · rw [if_pos ho, mapSet_keys _ _ _ ho]
    · rw [if_neg ho, mapSet_absent _ _ _ ho]
      simp
  · rw [if_neg hs, mapGet_mapSet_ne _ _ _ _ hs, AddSection_mapGet_ne c sec sec' hs]

theorem filter_not_mem_append_singleton (l ks : List Str) (k : Str) (h : k ∉ l) :
    l.filter (fun x => decide (x ∉ ks ++ [k])) = l.filter (fun x => decide (x ∉ ks)) := by
  apply List.filter_congr
  intro x hx
  have : x ≠ k := fun e => h (e ▸ hx)
  simp [this]

/-- The inner loop of `Merge`: the section is added at the end if it is new and there is an
option to add, and the new options are added at the end of the section in the order met. -/
theorem mergeOptions_order (sec : Str) (options : List (Str × tValue))
    (hnodup : (options.map (fun o => o.1)).Nodup) (target : Config) :
    (mergeOptions target sec options).keys =
      (if options ≠ [] ∧ sec ∉ target.keys then target.keys ++ [sec] else target.keys) ∧
    ∀ sec', (mergeOptions target sec options).names sec' =
      if sec' = sec then
        target.names sec ++
          (options.map (fun o => o.1)).filter (fun x => decide (x ∉ target.names sec))
      else target.names sec' := by
  induction options generalizing target with
  | nil =>
    refine ⟨by simp [mergeOptions], ?_⟩
    intro sec'
    by_cases h : sec' = sec
    · simp [mergeOptions, h]
    · simp [mergeOptions, h]
  | cons o options ih =>
    obtain ⟨name, tv⟩ := o
    simp only [List.map_cons, List.nodup_cons] at hnodup
    obtain ⟨k1, n1⟩ := ih hnodup.2 (target.AddOption sec name tv.v)
    simp only [mergeOptions]
    constructor
    · rw [k1, keys_AddOption]
      by_cases hs : sec ∈ target.keys
      · simp [hs]
      · simp [hs]
    · intro sec'
      rw [n1 sec']
      by_cases hs : sec' = sec
      · subst hs
        simp only [if_true, names_AddOption, List.map_cons]
        by_cases hn : name ∈ target.names sec'
        · simp only [if_pos hn]
          rw [List.filter_cons]
          simp [hn]
        · simp only [if_neg hn]
          rw [filter_not_mem_append_singleton _ _ _ hnodup.1, List.filter_cons]
          simp [hn]
      · simp only [if_neg hs, names_AddOption]

theorem mapGet_cons {α : Type} (k' : Str) (v : α) (m : List (Str × α)) (k : Str) :
    mapGet ((k', v) :: m) k = if k' = k then some v else mapGet m k := rfl

/-- The outer loop of `Merge`: the new sections that bring an option are added at the end in
the order met, and every section gets its new options at its end in the order met. -/
theorem mergeSections_order (visit : List (Str × List (Str × tValue)))
    (hk : (visit.map (fun e => e.1)).Nodup)
    (ho : ∀ e ∈ visit, (e.2.map (fun o => o.1)).Nodup) (target : Config) :
    (mergeSections target visit).keys =
      target.keys ++
        ((visit.filter (fun e => decide (e.2 ≠ []))).map (fun e => e.1)).filter
          (fun x => decide (x ∉ target.keys)) ∧
    ∀ sec, (mergeSections target visit).names sec =
      target.names sec ++
        (((mapGet visit sec).getD []).map (fun o => o.1)).filter
          (fun x => decide (x ∉ target.names sec)) := by
  induction visit generalizing target with
  | nil =>
    refine ⟨by simp [mergeSections], ?_⟩
    intro sec
    simp [mergeSections, mapGet]
  | cons e visit ih =>
    obtain ⟨s, options⟩ := e
    simp only [List.map_cons, List.nodup_cons] at hk
    have hos : (options.map (fun o => o.1)).Nodup := ho (s, options) (List.mem_cons_self _ _)
    obtain ⟨k1, n1⟩ := mergeOptions_order s options hos target
    obtain ⟨k2, n2⟩ := ih hk.2 (fun e he => ho e (List.mem_cons_of_mem _ he))
      (mergeOptions target s options)
    simp only [mergeSections]
    constructor
    · rw [k2, k1]
      by_cases hopt : options = []
      · simp [hopt]
      · by_cases hs : s ∈ target.keys
        · simp [hopt, hs]
        · have hcond : options ≠ [] ∧ s ∉ target.keys := ⟨hopt, hs⟩
          rw [if_pos hcond, filter_not_mem_append_singleton _ _ _ ?_]
          · simp [hopt, hs]
          · intro hmem
            apply hk.1
            obtain ⟨e, he, rfl⟩ := List.mem_map.1 hmem
            exact List.mem_map.2 ⟨e, (List.mem_filter.1 he).1, rfl⟩
    · intro sec
      rw [n2 sec, n1 sec, mapGet_cons]
      by_cases hs : sec = s
      · subst hs
        have hnone : mapGet visit sec = none := (mapGet_eq_none_iff _ _).2 hk.1
        rw [if_pos rfl, if_pos rfl, hnone]
        simp only [Option.getD_none, Option.getD_some, List.map_nil, List.filter_nil,
          List.append_nil]
      · have hs' : ¬ s = sec := fun e => hs e.symm
        rw [if_neg hs, if_neg hs']

theorem Ordered_mergeOptions (sec : Str) (options : List (Str × tValue)) (target : Config)
    (h : Ordered target) : Ordered (mergeOptions target sec options) := by
  induction options generalizing target with
  | nil => exact h
  | cons o options ih =>
    obtain ⟨name, tv⟩ := o
    exact ih _ (Ordered_AddOption _ _ _ _ h)

theorem Ordered_mergeSections (visit : List (Str × List (Str × tValue))) (target : Config)
    (h : Ordered target) : Ordered (mergeSections target visit) := by
  induction visit generalizing target with
  | nil => exact h
  | cons e visit ih =>
    obtain ⟨sec, options⟩ := e
    exact ih _ (Ordered_mergeOptions _ _ _ h)

theorem Sections_of_Ordered (c : Config) (h : Ordered c) : c.Sections = c.keys := by
  unfold Config.Sections Config.keys
  apply List.Sorted.insertionSort_eq
  exact List.pairwise_map.2 (List.pairwise_map.1 h.2.1)

theorem Options_of_Ordered (c : Config) (h : Ordered c) (sec : Str) :
    (c.Options sec).map (fun o => o.1) = c.names sec := by
  unfold Config.Options Config.names
  cases hm : mapGet c.data sec with
  | none => rfl
  | some options =>
    simp only [Option.getD_some]
    rw [List.Sorted.insertionSort_eq, List.map_map]
    · rfl
    · exact List.pairwise_map.1 (h.2.2.2 _ (mapGet_mem _ _ _ hm)).1

/-- A `range` over well formed data meets no section twice and no option of a section
twice. -/
theorem wellFormed_range (data visit : List (Str × List (Str × tValue)))
    (hwf : wellFormed data) (hvisit : IsRange data visit) : wellFormed visit := by
  obtain ⟨mid, hperm, hall⟩ := hvisit
  have hmid : wellFormed mid :=
    ⟨show (mid.map (fun e => e.1)).Nodup from
        (List.Perm.map _ hperm).nodup_iff.2
          (show (data.map (fun e => e.1)).Nodup from hwf.1),
      fun e he => hwf.2 e (hperm.mem_iff.1 he)⟩
  clear hperm hwf
  induction hall with
  | nil => exact hmid
  | @cons v m visit mid hvm _ ih =>
    have htail : wellFormed mid :=
      ⟨(List.nodup_cons.1 hmid.1).2, fun e he => hmid.2 e (List.mem_cons_of_mem _ he)⟩
    have hrec := ih htail
    have hkeys : ∀ (l₁ l₂ : List (Str × List (Str × tValue))),
        List.Forall₂ (fun v m => v.1 = m.1 ∧ List.Perm v.2 m.2) l₁ l₂ →
        l₁.map (fun e => e.1) = l₂.map (fun e => e.1) := by
      intro l₁ l₂ hl
      induction hl with
      | nil => rfl
      | cons hab _ ih2 => simp only [List.map_cons, hab.1, ih2]
    refine ⟨?_, ?_⟩
    · unfold uniqueKeys
      rw [hkeys _ _ (List.Forall₂.cons hvm ‹_›)]
      exact hmid.1
    · intro e he
      rcases List.mem_cons.1 he with he | he
      · subst he
        exact show (e.2.map (fun o => o.1)).Nodup from
          (List.Perm.map _ hvm.2).nodup_iff.2
            (show (m.2.map (fun o => o.1)).Nodup from hmid.2 m (List.mem_cons_self _ _))
      · exact hrec.2 e he

theorem range_nil (visit : List (Str × List (Str × tValue))) (h : IsRange [] visit) :
    visit = [] := by
  obtain ⟨mid, hperm, hall⟩ := h
  rw [List.perm_nil.1 hperm] at hall
  cases hall
  rfl

theorem orderVisit_range : IsRange orderSource.data orderVisit :=
  ⟨orderSource.data.reverse, List.reverse_perm _,
    .cons ⟨rfl, List.reverse_perm _⟩ (.cons ⟨rfl, List.reverse_perm _⟩
      (.cons ⟨rfl, List.reverse_perm _⟩ (.cons ⟨rfl, List.reverse_perm _⟩ .nil)))⟩

theorem Ordered_targetConfig : Ordered targetConfig :=
  Ordered_AddOption _ _ _ _ (Ordered_AddOption _ _ _ _
    (Ordered_defaultData defaultConfig rfl rfl rfl))

/-- C12, as stated, fails.  The source has the sections `DEFAULT`, `s`, `t`, `u` in this
order and the options `k`, `n`, `p` in `s`; the target has `DEFAULT` and `s` with `k`, `j`.
The loops of `Merge` range over maps, and when they meet the entries last to first the target
ends with the sections `DEFAULT`, `s`, `u`, `t` and the options `k`, `j`, `p`, `n` of `s`:
the new sections and the new options do not stand in the order of the source. -/
theorem Merge_order_counterexample :
    IsRange orderSource.data orderVisit ∧
    orderSource.Sections = [DEFAULT_SECTION, "s".toList, "t".toList, "u".toList] ∧
    (targetConfig.Merge (some orderSource) orderVisit).Sections =
      [DEFAULT_SECTION, "s".toList, "u".toList, "t".toList] ∧
    (orderSource.Options "s".toList).map (fun o => o.1) =
      ["k".toList, "n".toList, "p".toList] ∧
    ((targetConfig.Merge (some orderSource) orderVisit).Options "s".toList).map
      (fun o => o.1) = ["k".toList, "j".toList, "p".toList, "n".toList] :=
  ⟨orderVisit_range, by decide, by decide, by decide, by decide⟩

/-- C12, amended.  After `target.Merge(source)` the sections of the target stand where they
stood; after them stand the sections new to the target that have an option in the source,
in the order in which the loop of `Merge` over the map of the source meets them; and in
every section the options it had stand where they stood, followed by the options new to it
in the order in which the loop over the options of that section meets them. -/
theorem Merge_order (target source : Config) (visit : List (Str × List (Str × tValue)))
    (htarget : Ordered target) (hwf : wellFormed source.data)
    (hvisit : IsRange source.data visit) :
    (target.Merge (some source) visit).Sections =
      target.Sections ++
        ((visit.filter (fun e => decide (e.2 ≠ []))).map (fun e => e.1)).filter
          (fun sec => decide (sec ∉ target.Sections)) ∧
    ∀ sec, ((target.Merge (some source) visit).Options sec).map (fun o => o.1) =
      (target.Options sec).map (fun o => o.1) ++
        (((mapGet visit sec).getD []).map (fun o => o.1)).filter
          (fun option => decide (option ∉ (target.Options sec).map (fun o => o.1))) := by
  have hv := wellFormed_range _ _ hwf hvisit
  obtain ⟨k, n⟩ := mergeSections_order visit hv.1 hv.2 target
  have hmerge : target.Merge (some source) visit = mergeSections target visit := by
    simp only [Config.Merge]
    split
    · rename_i h0
      have hnil : source.data = [] := List.length_eq_zero.1 h0
      rw [hnil] at hvisit
      rw [range_nil visit hvisit]
      rfl
    · rfl
  have ho := Ordered_mergeSections visit target htarget
  rw [hmerge, Sections_of_Ordered _ ho, Sections_of_Ordered _ htarget]
  refine ⟨k, fun sec => ?_⟩
  rw [Options_of_Ordered _ ho, Options_of_Ordered _ htarget]
  exact n sec

/-- Witness of C12: the target with `k`, `j` in section `s`, the source with `k`, `n`, `p`
in `s`, `m` in `t` and `q` in `u`, the entries of the source met last to first. -/
theorem Merge_order_witness :
    Ordered targetConfig ∧ wellFormed orderSource.data ∧
    IsRange orderSource.data orderVisit ∧
    (targetConfig.Merge (some orderSource) orderVisit).Sections =
      [DEFAULT_SECTION, "s".toList] ++ ["u".toList, "t".toList] ∧
    ((targetConfig.Merge (some orderSource) orderVisit).Options "s".toList).map
      (fun o => o.1) = ["k".toList, "j".toList] ++ ["p".toList, "n".toList] :=
  have h := Merge_order targetConfig orderSource orderVisit Ordered_targetConfig (by decide)
    orderVisit_range
  ⟨Ordered_targetConfig, by decide, orderVisit_range, h.1.trans (by decide),
    (h.2 "s".toList).trans (by decide)⟩

end Triago
